import Mathlib

/-!
BParticles: the event stepping loop of `simulations/bparticles/simulate.cpp`

A shallow embedding of the per-block stepping code and a verification of the
properties the design document states about it.

Modelling conventions, used throughout:

* `float` values are rationals `ℚ`.  The arithmetic is exact, except in the
  definitions named `..._float32`, which round every `float` operation of the
  retrigger guard and of the remaining durations to single precision.
* An `ArrayRef`/`SmallVector` is a `List`.  Every indexed read `a[i]` is the
  checked read `a[i]?` and every indexed write is `store`; a function returns
  `none` as soon as one access is out of range or a `BLI_assert` fails.
* A `ParticlesBlock &` that is mutated in place is passed in and returned.
* `uint` values are natural numbers, `int` values are integers.
-/

namespace BParticles

/-! ## Data model -/

/-- Three-component vector (`float3`), with the component-wise operations the
stepping code uses. -/
structure float3 where
  x : ℚ
  y : ℚ
  z : ℚ
deriving DecidableEq

instance : Zero float3 := ⟨⟨0, 0, 0⟩⟩
instance : Add float3 := ⟨fun a b => ⟨a.x + b.x, a.y + b.y, a.z + b.z⟩⟩
instance : HMul ℚ float3 float3 := ⟨fun s a => ⟨s * a.x, s * a.y, s * a.z⟩⟩
instance : HMul float3 ℚ float3 := ⟨fun a s => ⟨a.x * s, a.y * s, a.z * s⟩⟩
instance : HDiv float3 ℚ float3 := ⟨fun a s => ⟨a.x / s, a.y / s, a.z / s⟩⟩

/-- Checked indexed write `xs[i] = v`: fails when `i` is out of range. -/
def store {α : Type} (xs : List α) (i : Nat) (v : α) : Option (List α) :=
  if i < xs.length then some (xs.set i v) else none

/-- Checked compound assignment `xs[i] += v`: fails when `i` is out of range. -/
def add_at (xs : List float3) (i : Nat) (v : float3) : Option (List float3) :=
  (xs[i]?).bind fun a => store xs i (a + v)

/-- Modelled from the spec: `ParticlesBlock` (its header is not among the
sources).  One fixed-capacity segment of attribute storage, with the four
attribute columns of `build_attribute_info_for_type` ("Kill State" bytes,
"Birth Time" floats, "Position" and "Velocity" vectors) and the
`active_amount` watermark. -/
structure ParticlesBlock where
  kill_states : List Nat
  birth_times : List ℚ
  positions : List float3
  velocities : List float3
  active_amount : Nat
deriving DecidableEq

/-- Modelled from the spec: `ParticleSet`, a view made of a block and an
ordered sequence of slot indices into that block. -/
structure ParticleSet where
  block : ParticlesBlock
  indices : List Nat
deriving DecidableEq

/-- Modelled from the spec: `ParticleSet::size()`, the number of indices. -/
def ParticleSet.size (particles : ParticleSet) : Nat := particles.indices.length

/-- Modelled from the spec: `ParticleSet::range()`, the positions
`0, 1, ..., size() - 1` of the set. -/
def ParticleSet.range (particles : ParticleSet) : List Nat := List.range particles.size

/-- Modelled from the spec: `ParticleSet::get_particle_index(i)`, the slot
index stored at position `i` of the set. -/
def ParticleSet.get_particle_index (particles : ParticleSet) (i : Nat) : Option Nat :=
  particles.indices[i]?

/-- The pair of offset arrays `IdealOffsets`. -/
structure IdealOffsets where
  position_offsets : List float3
  velocity_offsets : List float3
deriving DecidableEq

/-- Modelled from the spec: `Event`.  `filter` sees what `EventInterface`
carries (particle set, ideal offsets, durations, end time) and reports pairs
`(index, time_factor)`; the two parallel vectors `triggered_indices` and
`triggered_time_factors` are one list of pairs. -/
structure Event where
  filter : ParticleSet → IdealOffsets → List ℚ → ℚ → List (Nat × ℚ)

/-- Modelled from the spec: `Action`.  `execute` receives the particle set
(the block and the group of slot indices) and returns the mutated block. -/
structure Action where
  execute : ParticleSet → ParticlesBlock

/-- Modelled from the spec: `Force`.  `vector particles i` is the vector that
`add_force` adds to entry `i` of the destination array. -/
structure Force where
  vector : ParticleSet → Nat → float3

/-- Modelled from the spec: `Force::add_force(particles, r_force_vectors)`,
additive accumulation into the destination array. -/
def Force.add_force (force : Force) (particles : ParticleSet) (r_force_vectors : List float3) :
    List float3 :=
  (List.range r_force_vectors.length).zipWith (fun i v => v + force.vector particles i)
    r_force_vectors

/-- Modelled from the spec: `ParticleType`, bundling forces, events and the
action bound to each event. -/
structure ParticleType where
  forces : List Force
  events : List Event
  action_per_event : List Action

/-! ## Events -/

/-- Body of the inner loop of `find_next_event_per_particle` (lines 55-66):
one reported candidate `c = (index, time_factor)` of event `event_index`,
applied to the pair `r = (r_next_event_indices, r_time_factors_to_next_event)`.
The arithmetic is exact; `find_next_event_candidate_float32` is the same body
with every operation rounded to `float`. -/
def find_next_event_candidate (durations : List ℚ) (end_time : ℚ) (last_event_times : List ℚ)
    (event_index : Nat) (r : List Int × List ℚ) (c : Nat × ℚ) : Option (List Int × List ℚ) :=
  let index := c.1
  let time_factor := c.2
  let record : Option (List Int × List ℚ) :=
    (store r.1 index (event_index : Int)).bind fun indices =>
    (store r.2 index time_factor).bind fun factors => some (indices, factors)
  (r.2[index]?).bind fun best =>
    if time_factor < best then
      if last_event_times.length > 0 then
        (durations[index]?).bind fun duration =>
        let trigger_time := end_time - duration * (1 - time_factor)
        (last_event_times[index]?).bind fun last =>
        if trigger_time - last < 1 / 100000 then some r else record
      else record
    else some r

/-- Outer loop of `find_next_event_per_particle` (lines 45-68), from event
number `event_index` on. -/
def find_next_event_loop (particles : ParticleSet) (ideal_offsets : IdealOffsets)
    (durations : List ℚ) (end_time : ℚ) (last_event_times : List ℚ) :
    List Event → Nat → List Int × List ℚ → Option (List Int × List ℚ)
  | [], _, r => some r
  | event :: events, event_index, r =>
    ((event.filter particles ideal_offsets durations end_time).foldlM
      (find_next_event_candidate durations end_time last_event_times event_index) r).bind
      fun r1 =>
        find_next_event_loop particles ideal_offsets durations end_time last_event_times
          events (event_index + 1) r1

/-- The function `find_next_event_per_particle`.  The two output arrays have
`particles.size()` entries (they are allocated so by `simulate_to_next_event`);
they are filled with `-1` and `1.0` and then updated event by event. -/
def find_next_event_per_particle (particles : ParticleSet) (ideal_offsets : IdealOffsets)
    (durations : List ℚ) (end_time : ℚ) (events : List Event) (last_event_times : List ℚ) :
    Option (List Int × List ℚ) :=
  find_next_event_loop particles ideal_offsets durations end_time last_event_times events 0
    (List.replicate particles.size (-1), List.replicate particles.size 1)

/-- The function `forward_particles_to_next_event` (lines 71-83). -/
def forward_particles_to_next_event (particles : ParticleSet) (ideal_offsets : IdealOffsets)
    (time_factors_to_next_event : List ℚ) : Option ParticlesBlock :=
  particles.range.foldlM (fun block i =>
    (particles.get_particle_index i).bind fun pindex =>
    (time_factors_to_next_event[i]?).bind fun time_factor =>
    (ideal_offsets.position_offsets[i]?).bind fun position_offset =>
    (add_at block.positions pindex (time_factor * position_offset)).bind fun positions =>
    (ideal_offsets.velocity_offsets[i]?).bind fun velocity_offset =>
    (add_at block.velocities pindex (time_factor * velocity_offset)).bind fun velocities =>
    some { block with positions := positions, velocities := velocities }) particles.block

/-- The function `find_particles_per_event` (lines 85-97); the groups passed in
are appended to. -/
def find_particles_per_event (particle_indices : List Nat) (next_event_indices : List Int)
    (r_particles_per_event : List (List Nat)) : Option (List (List Nat)) :=
  (List.range particle_indices.length).foldlM (fun r i =>
    (next_event_indices[i]?).bind fun event_index =>
    if event_index ≠ -1 then
      (particle_indices[i]?).bind fun pindex =>
      if event_index < 0 then none
      else (r[event_index.toNat]?).bind fun group =>
        store r event_index.toNat (group ++ [pindex])
    else some r) r_particles_per_event

/-- The function `find_unfinished_particles` (lines 99-119); `r` is the pair
`(r_unfinished_particle_indices, r_remaining_durations)`, appended to. -/
def find_unfinished_particles (particle_indices : List Nat) (next_event_indices : List Int)
    (time_factors_to_next_event : List ℚ) (durations : List ℚ) (kill_states : List Nat)
    (r : List Nat × List ℚ) : Option (List Nat × List ℚ) :=
  (List.range particle_indices.length).foldlM (fun r i =>
    (particle_indices[i]?).bind fun pindex =>
    (next_event_indices[i]?).bind fun event_index =>
    if event_index ≠ -1 then
      (kill_states[pindex]?).bind fun kill_state =>
      if kill_state = 0 then
        (time_factors_to_next_event[i]?).bind fun time_factor =>
        (durations[i]?).bind fun duration =>
        let remaining_duration := duration * (1 - time_factor)
        some (r.1 ++ [pindex], r.2 ++ [remaining_duration])
      else some r
    else some r) r

/-- The function `run_actions` (lines 121-134).  Besides the mutated block it
returns the record of the `execute` calls made, in order: the event number and
the indices of the particle set handed to that event's action. -/
def run_actions (block : ParticlesBlock) (particles_per_event : List (List Nat))
    (events : List Event) (action_per_event : List Action) :
    Option (ParticlesBlock × List (Nat × List Nat)) :=
  (List.range events.length).foldlM (fun st event_index =>
    (action_per_event[event_index]?).bind fun action =>
    (particles_per_event[event_index]?).bind fun group =>
    some (action.execute ⟨st.1, group⟩, st.2 ++ [(event_index, group)])) (block, [])

/-! ## Evaluate forces -/

/-- The function `compute_combined_forces_on_particles` (lines 139-148). -/
def compute_combined_forces_on_particles (particles : ParticleSet) (forces : List Force)
    (r_force_vectors : List float3) : Option (List float3) :=
  if particles.size = r_force_vectors.length then
    some (forces.foldl (fun r force => force.add_force particles r)
      (List.replicate r_force_vectors.length 0))
  else none

/-! ## Step individual particles -/

/-- The function `compute_ideal_attribute_offsets` (lines 153-177); the offset
arrays passed in are overwritten entry by entry. -/
def compute_ideal_attribute_offsets (particles : ParticleSet) (durations : List ℚ)
    (particle_type : ParticleType) (r_offsets : IdealOffsets) : Option IdealOffsets :=
  if particles.size = durations.length ∧
      particles.size = r_offsets.position_offsets.length ∧
      particles.size = r_offsets.velocity_offsets.length then
    (compute_combined_forces_on_particles particles particle_type.forces
      (List.replicate particles.size 0)).bind fun combined_force =>
    particles.range.foldlM (fun r i =>
      (particles.get_particle_index i).bind fun pindex =>
      let mass : ℚ := 1
      (durations[i]?).bind fun duration =>
      (combined_force[i]?).bind fun force =>
      (store r.velocity_offsets i (duration * force / mass)).bind fun velocity_offsets =>
      (particles.block.velocities[pindex]?).bind fun velocity =>
      (velocity_offsets[i]?).bind fun velocity_offset =>
      (store r.position_offsets i
        (duration * (velocity + velocity_offset * (1 / 2 : ℚ)))).bind fun position_offsets =>
      some ⟨position_offsets, velocity_offsets⟩) r_offsets
  else none

/-- What one call of `simulate_to_next_event` leaves behind: the block, the two
output vectors, and the record of the action calls made by `run_actions`. -/
structure NextEventResult where
  block : ParticlesBlock
  unfinished_particle_indices : List Nat
  remaining_durations : List ℚ
  action_calls : List (Nat × List Nat)
deriving DecidableEq

/-- The function `simulate_to_next_event` (lines 179-223); the two output
vectors passed in are appended to. -/
def simulate_to_next_event (particles : ParticleSet) (durations : List ℚ) (end_time : ℚ)
    (particle_type : ParticleType) (last_event_times : List ℚ)
    (r_unfinished_particle_indices : List Nat) (r_remaining_durations : List ℚ) :
    Option NextEventResult :=
  (compute_ideal_attribute_offsets particles durations particle_type
    ⟨List.replicate particles.size 0, List.replicate particles.size 0⟩).bind fun ideal_offsets =>
  (find_next_event_per_particle particles ideal_offsets durations end_time
    particle_type.events last_event_times).bind fun next =>
  let next_event_indices := next.1
  let time_factors_to_next_event := next.2
  (forward_particles_to_next_event particles ideal_offsets
    time_factors_to_next_event).bind fun block1 =>
  (find_particles_per_event particles.indices next_event_indices
    (List.replicate particle_type.events.length [])).bind fun particles_per_event =>
  (run_actions block1 particles_per_event particle_type.events
    particle_type.action_per_event).bind fun ran =>
  (find_unfinished_particles particles.indices next_event_indices time_factors_to_next_event
    durations ran.1.kill_states
    (r_unfinished_particle_indices, r_remaining_durations)).bind fun unfinished =>
  some ⟨ran.1, unfinished.1, unfinished.2, ran.2⟩

/-- What `simulate_with_max_n_events` leaves behind: the block, the two output
vectors, and the number of calls of `simulate_to_next_event` it made. -/
structure MaxEventsResult where
  block : ParticlesBlock
  unfinished_particle_indices : List Nat
  remaining_durations : List ℚ
  iterations : Nat
deriving DecidableEq

/-- The loop of `simulate_with_max_n_events` (lines 238-264) with `todo`
iterations left before the cap, after `iteration` iterations.  The references
`remaining_particle_indices` and `durations` are modelled by value. -/
def simulate_with_max_n_events_loop (end_time : ℚ) (particle_type : ParticleType) :
    Nat → Nat → ParticlesBlock → List Nat → List ℚ → List ℚ → List Nat → List ℚ →
    Option MaxEventsResult
  | 0, iteration, block, _, _, _, r_unfinished_particle_indices, r_remaining_durations =>
    some ⟨block, r_unfinished_particle_indices, r_remaining_durations, iteration⟩
  | todo + 1, iteration, block, remaining_particle_indices, durations, last_event_times, _, _ =>
    (simulate_to_next_event ⟨block, remaining_particle_indices⟩ durations end_time
      particle_type last_event_times [] []).bind fun r =>
    if r.unfinished_particle_indices.length = r.remaining_durations.length then
      if r.unfinished_particle_indices.length = 0 then
        some ⟨r.block, r.unfinished_particle_indices, r.remaining_durations, iteration + 1⟩
      else
        simulate_with_max_n_events_loop end_time particle_type todo (iteration + 1) r.block
          r.unfinished_particle_indices r.remaining_durations
          (r.remaining_durations.map fun duration => end_time - duration)
          r.unfinished_particle_indices r.remaining_durations
    else none

/-- The function `simulate_with_max_n_events` (lines 225-265). -/
def simulate_with_max_n_events (max_events : Nat) (particles : ParticleSet)
    (durations : List ℚ) (end_time : ℚ) (particle_type : ParticleType)
    (r_unfinished_particle_indices : List Nat) (r_remaining_durations : List ℚ) :
    Option MaxEventsResult :=
  simulate_with_max_n_events_loop end_time particle_type max_events 0 particles.block
    particles.indices durations [] r_unfinished_particle_indices r_remaining_durations

/-- The function `simulate_ignoring_events` (lines 267-286).  The loop variable
`i` runs over `particles.indices()`, as in the source. -/
def simulate_ignoring_events (particles : ParticleSet) (durations : List ℚ)
    (particle_type : ParticleType) : Option ParticlesBlock :=
  (compute_ideal_attribute_offsets particles durations particle_type
    ⟨List.replicate particles.size 0, List.replicate particles.size 0⟩).bind fun offsets =>
  particles.indices.foldlM (fun block i =>
    (particles.get_particle_index i).bind fun pindex =>
    (offsets.position_offsets[i]?).bind fun position_offset =>
    (add_at block.positions pindex position_offset).bind fun positions =>
    (offsets.velocity_offsets[i]?).bind fun velocity_offset =>
    (add_at block.velocities pindex velocity_offset).bind fun velocities =>
    some { block with positions := positions, velocities := velocities }) particles.block

/-- What `step_individual_particles` leaves behind: the block after the final
event-free pass and the result of the capped event loop before it. -/
structure IndividualStepResult where
  block : ParticlesBlock
  event_loop : MaxEventsResult
deriving DecidableEq

/-- The function `step_individual_particles` for one particle set
(lines 288-308). -/
def step_individual_particles (particles : ParticleSet) (durations : List ℚ) (end_time : ℚ)
    (particle_type : ParticleType) : Option IndividualStepResult :=
  (simulate_with_max_n_events 10 particles durations end_time particle_type [] []).bind fun r =>
  (simulate_ignoring_events ⟨r.block, r.unfinished_particle_indices⟩ r.remaining_durations
    particle_type).bind fun block =>
  some ⟨block, r⟩

/-! ## Delete particles -/

/-- Exchange of the entries `i` and `j` of an attribute column; fails when one
of them is out of range. -/
def swap_at {α : Type} (xs : List α) (i j : Nat) : Option (List α) :=
  (xs[i]?).bind fun a => (xs[j]?).bind fun b => some ((xs.set j a).set i b)

/-- Modelled from the spec: `ParticlesBlock::move(old_index, new_index)`, which
the design document describes as swapping the slot with the last active slot:
the values of every attribute column are exchanged between the two slots. -/
def ParticlesBlock.move (block : ParticlesBlock) (old_index new_index : Nat) :
    Option ParticlesBlock :=
  (swap_at block.kill_states old_index new_index).bind fun kill_states =>
  (swap_at block.birth_times old_index new_index).bind fun birth_times =>
  (swap_at block.positions old_index new_index).bind fun positions =>
  (swap_at block.velocities old_index new_index).bind fun velocities =>
  some { block with kill_states := kill_states, birth_times := birth_times,
                    positions := positions, velocities := velocities }

/-- The `while` loop of `delete_tagged_particles_and_reorder` (lines 365-373).
`kill_states_size` is the size of the slice `slice_active()` taken before the
loop.  Every pass lowers `active_amount - index` by one, so the passes are
counted down from a number that is enough for the loop to end; the result is
`none` if it were not. -/
def delete_tagged_particles_and_reorder_loop (kill_states_size : Nat) :
    Nat → ParticlesBlock → Nat → Option ParticlesBlock
  | 0, block, index => if index < block.active_amount then none else some block
  | passes + 1, block, index =>
    if index < block.active_amount then
      (if index < kill_states_size then block.kill_states[index]? else none).bind
        fun kill_state =>
        if kill_state = 1 then
          (block.move (block.active_amount - 1) index).bind fun moved =>
          delete_tagged_particles_and_reorder_loop kill_states_size passes
            { moved with active_amount := moved.active_amount - 1 } index
        else
          delete_tagged_particles_and_reorder_loop kill_states_size passes block (index + 1)
    else some block

/-- The function `delete_tagged_particles_and_reorder` (lines 360-374). -/
def delete_tagged_particles_and_reorder (block : ParticlesBlock) : Option ParticlesBlock :=
  delete_tagged_particles_and_reorder_loop block.active_amount block.active_amount block 0

/-- The function `delete_tagged_particles` (lines 376-381). -/
def delete_tagged_particles (blocks : List ParticlesBlock) : Option (List ParticlesBlock) :=
  blocks.mapM delete_tagged_particles_and_reorder

/-! ## Particles of a block -/

/-- The attribute values of one particle. -/
structure Particle where
  kill_state : Nat
  birth_time : ℚ
  position : float3
  velocity : float3
deriving DecidableEq

/-- The attribute values held by slot `i` of a block. -/
def ParticlesBlock.particle_at (block : ParticlesBlock) (i : Nat) : Particle :=
  ⟨block.kill_states.getD i 0, block.birth_times.getD i 0, block.positions.getD i 0,
    block.velocities.getD i 0⟩

/-- The particles of the active slots `[0, active_amount)` of a block, in slot
order. -/
def ParticlesBlock.active_particles (block : ParticlesBlock) : List Particle :=
  (List.range block.active_amount).map block.particle_at

/-! ## Static data -/

/-- Modelled from the spec: `Range<uint>(start, one_after_last)`, a half-open
range of slot numbers. -/
structure Range where
  start : Nat
  one_after_last : Nat
deriving DecidableEq

/-- Modelled from the spec: `Range::first()`. -/
def Range.first (range : Range) : Nat := range.start

/-- Modelled from the spec: `Range::size()`. -/
def Range.size (range : Range) : Nat := range.one_after_last - range.start

/-- Modelled from the spec: `ParticlesContainer`, the active blocks of one
particle type and the block size they are created with.  The attribute schema
is the fixed one of `build_attribute_info_for_type`. -/
structure ParticlesContainer where
  blocks : List ParticlesBlock
  block_size : Nat
deriving DecidableEq

/-- Modelled from the spec: `SmallMap::lookup_ptr(key)` on the map from
particle type identifiers to containers, an association list. -/
def map_lookup (containers : List (Nat × ParticlesContainer)) (key : Nat) :
    Option ParticlesContainer :=
  containers.lookup key

/-- Modelled from the spec: `SmallMap::contains(key)`. -/
def map_contains (containers : List (Nat × ParticlesContainer)) (key : Nat) : Bool :=
  (map_lookup containers key).isSome

/-- Modelled from the spec: `SmallMap::add_new(key, value)`; the key must be
new. -/
def map_add_new (containers : List (Nat × ParticlesContainer)) (key : Nat)
    (value : ParticlesContainer) : Option (List (Nat × ParticlesContainer)) :=
  if map_contains containers key then none else some (containers ++ [(key, value)])

/-- Modelled from the spec: `EmitTarget`, a batch of new particles of one
particle type: the birth moments of all of them and, part by part, the block
(by its number among the active blocks of the container of that type) and the
slot range that hold them. -/
structure EmitTarget where
  particle_type_id : Nat
  birth_moments : List ℚ
  blocks : List Nat
  ranges : List Range
deriving DecidableEq

/-- Modelled from the spec: `Emitter`.  `emit` allocates slots through the
block allocator (it may change the containers) and returns its emit targets. -/
structure Emitter where
  emit : List (Nat × ParticlesContainer) → List (Nat × ParticlesContainer) × List EmitTarget

/-- Modelled from the spec: `StepDescription`. -/
structure StepDescription where
  step_duration : ℚ
  particle_type_ids : List Nat
  particle_type : Nat → ParticleType
  emitters : List Emitter

/-- Modelled from the spec: `ParticlesBlock::is_empty()`. -/
def ParticlesBlock.is_empty (block : ParticlesBlock) : Bool := block.active_amount = 0

/-- Modelled from the spec: the capacity of a block, the length of its
attribute columns. -/
def ParticlesBlock.capacity (block : ParticlesBlock) : Nat := block.kill_states.length

/-- Modelled from the spec: `ParticlesBlock::is_full()`. -/
def ParticlesBlock.is_full (block : ParticlesBlock) : Bool :=
  block.capacity ≤ block.active_amount

/-- The column `values` written over the front of `column`. -/
def write_front {α : Type} (column values : List α) : List α :=
  values ++ column.drop values.length

/-- The block with `particles` written into its first slots, which become the
active slots. -/
def ParticlesBlock.with_active_particles (block : ParticlesBlock)
    (particles : List Particle) : ParticlesBlock :=
  { kill_states := write_front block.kill_states (particles.map fun q => q.kill_state),
    birth_times := write_front block.birth_times (particles.map fun q => q.birth_time),
    positions := write_front block.positions (particles.map fun q => q.position),
    velocities := write_front block.velocities (particles.map fun q => q.velocity),
    active_amount := particles.length }

/-- Modelled from the spec: migration of particles out of one block into the
free slots of another (`ParticlesBlock::MoveUntilFull`): as many of the last
active particles of `source` as fit are appended to the active particles of
`target`. -/
def ParticlesBlock.MoveUntilFull (source target : ParticlesBlock) :
    ParticlesBlock × ParticlesBlock :=
  let move_amount := min source.active_amount (target.capacity - target.active_amount)
  let kept := source.active_amount - move_amount
  ({ source with active_amount := kept },
    target.with_active_particles
      (target.active_particles ++ source.active_particles.drop kept))

/-- Modelled from the spec: the passes of `ParticlesBlock::Compress` over blocks
ordered by population.  The first block is the one particles are migrated out
of, the last block the one they are migrated into; a full last block and an
emptied first block are left behind.  Every pass shortens the list still to
treat or fills its last block, so `2 * length` passes are enough. -/
def ParticlesBlock.Compress_passes : Nat → List ParticlesBlock → List ParticlesBlock
  | 0, blocks => blocks
  | _ + 1, [] => []
  | passes + 1, source :: rest =>
    match rest.getLast? with
    | none => [source]
    | some target =>
      if target.is_full then
        ParticlesBlock.Compress_passes passes (source :: rest.dropLast) ++ [target]
      else
        let moved := ParticlesBlock.MoveUntilFull source target
        if moved.1.is_empty then
          moved.1 :: ParticlesBlock.Compress_passes passes (rest.dropLast ++ [moved.2])
        else
          ParticlesBlock.Compress_passes passes (moved.1 :: (rest.dropLast ++ [moved.2]))

/-- Modelled from the spec: `ParticlesBlock::Compress(blocks)`, which migrates
particles out of under-populated blocks to consolidate free capacity: the
blocks are ordered by `active_amount` and particles of the least populated
blocks are moved into the free slots of the most populated ones. -/
def ParticlesBlock.Compress (blocks : List ParticlesBlock) : List ParticlesBlock :=
  ParticlesBlock.Compress_passes (2 * blocks.length)
    (blocks.insertionSort fun a b => a.active_amount ≤ b.active_amount)

/-- What `compress_all_blocks` leaves behind: the container and the blocks it
released. -/
structure CompressResult where
  container : ParticlesContainer
  released : List ParticlesBlock
deriving DecidableEq

/-- The function `compress_all_blocks` (lines 433-443); `release_block`
(modelled from the spec) takes the block out of the active blocks of the
container. -/
def compress_all_blocks (particles : ParticlesContainer) : CompressResult :=
  let blocks := ParticlesBlock.Compress particles.blocks
  blocks.foldl (fun result block =>
    if block.is_empty then { result with released := result.released ++ [block] }
    else { result with container :=
      { result.container with blocks := result.container.blocks ++ [block] } })
    ⟨{ particles with blocks := [] }, []⟩

/-! ## Fix state based on description -/

/-- The function `ensure_required_containers_exist` (lines 448-457). -/
def ensure_required_containers_exist (containers : List (Nat × ParticlesContainer))
    (description : StepDescription) : Option (List (Nat × ParticlesContainer)) :=
  description.particle_type_ids.foldlM (fun containers type_id =>
    if ¬ map_contains containers type_id then
      let container : ParticlesContainer := ⟨[], 1000⟩
      map_add_new containers type_id container
    else some containers) containers

/-- Halving `n` until it is below `2`, at most `fuel` times: the number of
halvings is the position of the leading bit of `n`. -/
def log2_floor_loop : Nat → Nat → Nat
  | 0, _ => 0
  | fuel + 1, n => if n < 2 then 0 else log2_floor_loop fuel (n / 2) + 1

/-- The position of the leading bit of `n`: `2 ^ log2_floor n ≤ n` and
`n < 2 ^ (log2_floor n + 1)` for `n ≠ 0`. -/
def log2_floor (n : Nat) : Nat := log2_floor_loop n n

/-- The binary exponent of `x ≠ 0`: the integer `k` with
`2 ^ k ≤ |x| < 2 ^ (k + 1)`. -/
def binade (x : ℚ) : Int :=
  if (2 : ℚ) ^ ((log2_floor x.num.natAbs : Int) - (log2_floor x.den : Int)) ≤ |x| then
    (log2_floor x.num.natAbs : Int) - (log2_floor x.den : Int)
  else (log2_floor x.num.natAbs : Int) - (log2_floor x.den : Int) - 1

/-- The integer nearest to `x`; of two equally near integers the even one. -/
def round_half_even (x : ℚ) : Int :=
  if x - ⌊x⌋ < 1 / 2 then ⌊x⌋
  else if 1 / 2 < x - ⌊x⌋ then ⌊x⌋ + 1
  else if ⌊x⌋ % 2 = 0 then ⌊x⌋ else ⌊x⌋ + 1

/-- Rounding to a binary floating-point format (IEEE 754, round to nearest,
ties to even) whose significand has `precision` bits and whose least exponent
of the last place is `emin` (gradual underflow): the magnitude of `x` is
rounded to the nearest multiple of its unit in the last place.  A result
beyond the largest finite number of the format is not turned into infinity. -/
def round_to_format (precision : Nat) (emin : Int) (x : ℚ) : ℚ :=
  if 0 ≤ x then
    (round_half_even (x / 2 ^ max (binade x - ((precision : Int) - 1)) emin) : ℚ)
      * 2 ^ max (binade x - ((precision : Int) - 1)) emin
  else
    -((round_half_even (-x / 2 ^ max (binade x - ((precision : Int) - 1)) emin) : ℚ)
      * 2 ^ max (binade x - ((precision : Int) - 1)) emin)

/-- The value of type `float` nearest to `x` (binary32: 24 bits, least
exponent of the last place `-149`). -/
def float32_round (x : ℚ) : ℚ := round_to_format 24 (-149) x

/-- The value of type `double` nearest to `x` (binary64: 53 bits, least
exponent of the last place `-1074`). -/
def float64_round (x : ℚ) : ℚ := round_to_format 53 (-1074) x

/-- Body of the inner loop of `find_next_event_per_particle` (lines 55-66) with
the arithmetic of the source types: `1.0f - time_factor`, the product, the two
subtractions are `float` operations, and the difference is compared with the
`double` literal `0.00001`. -/
def find_next_event_candidate_float32 (durations : List ℚ) (end_time : ℚ)
    (last_event_times : List ℚ) (event_index : Nat) (r : List Int × List ℚ) (c : Nat × ℚ) :
    Option (List Int × List ℚ) :=
  let index := c.1
  let time_factor := c.2
  let record : Option (List Int × List ℚ) :=
    (store r.1 index (event_index : Int)).bind fun indices =>
    (store r.2 index time_factor).bind fun factors => some (indices, factors)
  (r.2[index]?).bind fun best =>
    if time_factor < best then
      if last_event_times.length > 0 then
        (durations[index]?).bind fun duration =>
        let trigger_time :=
          float32_round (end_time - float32_round (duration * float32_round (1 - time_factor)))
        (last_event_times[index]?).bind fun last =>
        if float32_round (trigger_time - last) < float64_round (1 / 100000) then some r
        else record
      else record
    else some r

/-- The function `find_unfinished_particles` (lines 99-119) with the `float`
arithmetic of line 113. -/
def find_unfinished_particles_float32 (particle_indices : List Nat)
    (next_event_indices : List Int) (time_factors_to_next_event : List ℚ)
    (durations : List ℚ) (kill_states : List Nat) (r : List Nat × List ℚ) :
    Option (List Nat × List ℚ) :=
  (List.range particle_indices.length).foldlM (fun r i =>
    (particle_indices[i]?).bind fun pindex =>
    (next_event_indices[i]?).bind fun event_index =>
    if event_index ≠ -1 then
      (kill_states[pindex]?).bind fun kill_state =>
      if kill_state = 0 then
        (time_factors_to_next_event[i]?).bind fun time_factor =>
        (durations[i]?).bind fun duration =>
        let remaining_duration := float32_round (duration * float32_round (1 - time_factor))
        some (r.1 ++ [pindex], r.2 ++ [remaining_duration])
      else some r
    else some r) r

/-- The last-event times that `simulate_with_max_n_events` hands to the next
iteration (lines 260-263): `end_time - duration`, a `float` subtraction, for
each remaining duration. -/
def last_event_times_float32 (end_time : ℚ) (durations : List ℚ) : List ℚ :=
  durations.map fun duration => float32_round (end_time - duration)

/-! ## Specification predicates -/

/-- The retrigger guard of lines 58-62 discards the candidate
`(index, time_factor)`: last-event times are recorded and the trigger time is
less than `0.00001` after the last-event time of `index`. -/
def retrigger_guard_discards (durations : List ℚ) (end_time : ℚ) (last_event_times : List ℚ)
    (index : Nat) (time_factor : ℚ) : Prop :=
  0 < last_event_times.length ∧ ∃ duration last, durations[index]? = some duration ∧
    last_event_times[index]? = some last ∧
    end_time - duration * (1 - time_factor) - last < 1 / 100000

/-- Event number `e` of `events` reports the candidate `(i, t)` through its
`filter`. -/
def reports (particles : ParticleSet) (ideal_offsets : IdealOffsets) (durations : List ℚ)
    (end_time : ℚ) (events : List Event) (e i : Nat) (t : ℚ) : Prop :=
  ∃ event, events[e]? = some event ∧ (i, t) ∈ event.filter particles ideal_offsets durations end_time

/-- The pair `(k, t)` is the best candidate among those in `seen` (event number
and time factor): `t` is the minimum of `1` and the seen factors, and `k` is
`-1` when `t = 1` and otherwise the lowest event number that has `t`. -/
def best_so_far (seen : Nat → ℚ → Prop) (k : Int) (t : ℚ) : Prop :=
  t ≤ 1 ∧ (∀ e t1, seen e t1 → t ≤ t1) ∧
    ((t = 1 ∧ k = -1) ∨ (t < 1 ∧ ∃ e : Nat, k = (e : Int) ∧ seen e t ∧ ∀ e1, seen e1 t → e ≤ e1))

/-- Loop invariant of `find_next_event_per_particle`: both arrays have `n`
entries and each position holds the best candidate seen for it. -/
def next_event_inv (n : Nat) (seen : Nat → Nat → ℚ → Prop) (r : List Int × List ℚ) : Prop :=
  r.1.length = n ∧ r.2.length = n ∧
    ∀ i, i < n → ∃ k t, r.1[i]? = some k ∧ r.2[i]? = some t ∧ best_so_far (fun e t1 => seen e i t1) k t

/-- The positions of a particle set that `find_unfinished_particles` keeps:
next-event index different from `-1` and kill state `0`, in increasing order. -/
def unfinished_positions (particle_indices : List Nat) (next_event_indices : List Int)
    (kill_states : List Nat) : List Nat :=
  (List.range particle_indices.length).filter fun i =>
    decide (next_event_indices[i]? ≠ some (-1)) &&
    decide ((particle_indices[i]?).bind (fun pindex => kill_states[pindex]?) = some 0)

/-- The combined force on position `i`: the sum, starting from zero, of the
vectors the forces add for `i`, in the order of the force list. -/
def combined_force (particles : ParticleSet) (forces : List Force) (i : Nat) : float3 :=
  forces.foldl (fun acc force => acc + force.vector particles i) 0

/-! ## Contracts of the collaborators -/

/-- Two blocks have the same capacity: their attribute columns have the same
lengths. -/
def ParticlesBlock.same_capacity (a b : ParticlesBlock) : Prop :=
  a.kill_states.length = b.kill_states.length ∧
  a.birth_times.length = b.birth_times.length ∧
  a.positions.length = b.positions.length ∧
  a.velocities.length = b.velocities.length

/-- An event reports only positions of the particle set it is given. -/
def Event.in_range (event : Event) : Prop :=
  ∀ (particles : ParticleSet) (ideal_offsets : IdealOffsets) (durations : List ℚ)
    (end_time : ℚ), ∀ c ∈ event.filter particles ideal_offsets durations end_time,
    c.1 < particles.size

/-- An action mutates attribute values only: the block keeps its capacity. -/
def Action.keeps_capacity (action : Action) : Prop :=
  ∀ particles : ParticleSet, (action.execute particles).same_capacity particles.block

/-- A particle set lies in its block: the slot indices are pairwise distinct and
each is a slot of every attribute column used by the stepping code. -/
def ParticleSet.in_block (particles : ParticleSet) : Prop :=
  particles.indices.Nodup ∧ ∀ s ∈ particles.indices,
    s < particles.block.kill_states.length ∧ s < particles.block.positions.length ∧
    s < particles.block.velocities.length

/-! ## Concrete inputs -/

/-- A block of two slots, both alive, used for concrete evaluations. -/
def sample_block : ParticlesBlock :=
  ⟨[0, 0], [0, 0], [⟨0, 0, 0⟩, ⟨0, 0, 0⟩], [⟨1, 0, 0⟩, ⟨2, 0, 0⟩], 2⟩

/-- An event that reports every position of the set at time factor `0.5`. -/
def event_all_half : Event :=
  ⟨fun particles _ _ _ => particles.range.map fun i => (i, 1 / 2)⟩

/-- An event that reports position `0` at time factor `0.25`. -/
def event_first_quarter : Event :=
  ⟨fun _ _ _ _ => [(0, 1 / 4)]⟩

/-- The gravity force of the design document: `(0, -9.8, 0)` on every
particle. -/
def gravity : Force := ⟨fun _ _ => ⟨0, -49 / 5, 0⟩⟩

/-- An event that reports, at time factor `0.5`, every position of the set
whose slot index is `1`. -/
def event_slot_one_half : Event :=
  ⟨fun particles _ _ _ =>
    (particles.range.filter fun i => particles.indices[i]? = some 1).map fun i => (i, 1 / 2)⟩

/-- An action that changes nothing. -/
def action_nothing : Action := ⟨fun particles => particles.block⟩

/-- A particle type without forces whose two events both report every position
at time factor `0.5`, each bound to an action that changes nothing. -/
def tie_particle_type : ParticleType :=
  ⟨[], [event_all_half, event_all_half], [action_nothing, action_nothing]⟩

/-- An event that reports every position of the set at time factor `0`. -/
def event_all_zero : Event :=
  ⟨fun particles _ _ _ => particles.range.map fun i => (i, 0)⟩

/-- A particle type without forces whose single event reports every position at
time factor `0`, bound to an action that changes nothing. -/
def retrigger_particle_type : ParticleType :=
  ⟨[], [event_all_zero], [action_nothing]⟩

/-- Iteration number `k` (counted from `0`) of the loop of
`simulate_with_max_n_events`, started on the given block, indices, durations
and last-event times, when no earlier iteration ends the loop: each iteration
is one call of `simulate_to_next_event`, and the next one runs on the
unfinished indices and remaining durations it produced, with last-event times
`end_time - remaining duration` (lines 257-263). -/
def simulate_iteration (end_time : ℚ) (particle_type : ParticleType) :
    Nat → ParticlesBlock → List Nat → List ℚ → List ℚ → Option NextEventResult
  | 0, block, indices, durations, last_event_times =>
    simulate_to_next_event ⟨block, indices⟩ durations end_time particle_type
      last_event_times [] []
  | k + 1, block, indices, durations, last_event_times =>
    (simulate_to_next_event ⟨block, indices⟩ durations end_time particle_type
      last_event_times [] []).bind fun r =>
    simulate_iteration end_time particle_type k r.block r.unfinished_particle_indices
      r.remaining_durations (r.remaining_durations.map fun duration => end_time - duration)

/-- A block is well formed: its attribute columns have one common length and
the active slots lie inside them. -/
def ParticlesBlock.well_formed (block : ParticlesBlock) : Prop :=
  block.birth_times.length = block.kill_states.length ∧
  block.positions.length = block.kill_states.length ∧
  block.velocities.length = block.kill_states.length ∧
  block.active_amount ≤ block.kill_states.length

/-- A block with ten active particles, three of them tagged for deletion
(slots `1`, `4` and `9`); particle `i` has birth time `i`. -/
def ten_particles_block : ParticlesBlock :=
  ⟨[0, 1, 0, 0, 1, 0, 0, 0, 0, 1, 0, 0], [0, 1, 2, 3, 4, 5, 6, 7, 8, 9, 0, 0],
    List.replicate 12 0, List.replicate 12 0, 10⟩

/-- A container of three blocks of four slots: the first has three active
particles (one tagged for deletion), the second one active particle, the third
four active particles (two tagged); the birth times tell the particles apart. -/
def three_blocks_container : ParticlesContainer :=
  ⟨[⟨[0, 1, 0, 0], [10, 11, 12, 13], List.replicate 4 0, List.replicate 4 0, 3⟩,
    ⟨[0, 0, 0, 0], [20, 21, 22, 23], List.replicate 4 0, List.replicate 4 0, 1⟩,
    ⟨[1, 0, 0, 1], [30, 31, 32, 33], List.replicate 4 0, List.replicate 4 0, 4⟩], 4⟩

/-- Every time factor an event reports lies in `[0, 1]`. -/
def Event.factors_in_unit_interval (event : Event) : Prop :=
  ∀ (particles : ParticleSet) (ideal_offsets : IdealOffsets) (durations : List ℚ)
    (end_time : ℚ), ∀ c ∈ event.filter particles ideal_offsets durations end_time,
    0 ≤ c.2 ∧ c.2 ≤ 1

/-- The unfinished particles `unfinished` with remaining durations `remaining`
come from the particles `indices` with durations `durations`: each is one of
them, and its remaining duration lies between `0` and its duration. -/
def remaining_within (indices : List Nat) (durations : List ℚ) (unfinished : List Nat)
    (remaining : List ℚ) : Prop :=
  ∀ (j s : Nat) (rem : ℚ), unfinished[j]? = some s → remaining[j]? = some rem →
    ∃ (i : Nat) (d : ℚ), indices[i]? = some s ∧ durations[i]? = some d ∧ 0 ≤ rem ∧ rem ≤ d

/-! # Verification -/

/-! ## Event selection -/

theorem store_eq_some {α : Type} {xs : List α} {i : Nat} (v : α) (h : i < xs.length) :
    store xs i v = some (xs.set i v) := by
  simp [store, h]

theorem candidate_keep (durations : List ℚ) (end_time : ℚ) (last : List ℚ) (e : Nat)
    (r : List Int × List ℚ) (c : Nat × ℚ) (best : ℚ) (hb : r.2[c.1]? = some best)
    (h : ¬ c.2 < best ∨ retrigger_guard_discards durations end_time last c.1 c.2) :
    find_next_event_candidate durations end_time last e r c = some r := by
  unfold find_next_event_candidate
  simp only [hb, Option.some_bind]
  by_cases hlt : c.2 < best
  · rcases h with h | ⟨hpos, d, l, hd, hl, hg⟩
    · exact absurd hlt h
    · simp only [hlt, hpos, hd, hl, hg, if_true, Option.some_bind]
  · simp only [hlt, if_false]

theorem candidate_record (durations : List ℚ) (end_time : ℚ) (last : List ℚ) (e : Nat)
    (r : List Int × List ℚ) (c : Nat × ℚ) (best : ℚ) (hb : r.2[c.1]? = some best)
    (h1 : c.1 < r.1.length) (h2 : c.1 < r.2.length)
    (hlen : 0 < last.length → c.1 < durations.length ∧ c.1 < last.length)
    (hlt : c.2 < best) (hg : ¬ retrigger_guard_discards durations end_time last c.1 c.2) :
    find_next_event_candidate durations end_time last e r c =
      some (r.1.set c.1 (e : Int), r.2.set c.1 c.2) := by
  unfold find_next_event_candidate
  simp only [hb, Option.some_bind, hlt, if_true, store_eq_some _ h1, store_eq_some _ h2]
  by_cases hpos : 0 < last.length
  · obtain ⟨hd, hl⟩ := hlen hpos
    have hd1 : durations[c.1]? = some durations[c.1] := List.getElem?_eq_getElem hd
    have hl1 : last[c.1]? = some last[c.1] := List.getElem?_eq_getElem hl
    have : ¬ (end_time - durations[c.1] * (1 - c.2) - last[c.1] < 1 / 100000) := by
      intro hh
      exact hg ⟨hpos, _, _, hd1, hl1, hh⟩
    simp only [hpos, hd1, hl1, this, if_true, if_false, Option.some_bind]
  · simp only [hpos, if_false, Option.some_bind]

theorem next_event_inv_step (n : Nat) (seen : Nat → Nat → ℚ → Prop) (durations : List ℚ)
    (end_time : ℚ) (last : List ℚ) (e : Nat) (r : List Int × List ℚ) (c : Nat × ℚ)
    (hinv : next_event_inv n seen r) (hmono : ∀ e1 i t, seen e1 i t → e1 ≤ e)
    (hc : c.1 < n) (hlen : 0 < last.length → n ≤ durations.length ∧ n ≤ last.length) :
    ∃ r1, find_next_event_candidate durations end_time last e r c = some r1 ∧
      next_event_inv n (fun e1 i t => seen e1 i t ∨ (e1 = e ∧ i = c.1 ∧ t = c.2 ∧
        ¬ retrigger_guard_discards durations end_time last i t)) r1 := by
  obtain ⟨hl1, hl2, hall⟩ := hinv
  obtain ⟨k, best, hk, hb, hle1, hmin, hwho⟩ := hall c.1 hc
  by_cases hrec : c.2 < best ∧ ¬ retrigger_guard_discards durations end_time last c.1 c.2
  · obtain ⟨hlt, hg⟩ := hrec
    refine ⟨_, candidate_record durations end_time last e r c best hb (by omega) (by omega)
      (fun hp => ⟨by have := hlen hp; omega, by have := hlen hp; omega⟩) hlt hg, ?_⟩
    refine ⟨by simp [hl1], by simp [hl2], ?_⟩
    intro i hi
    by_cases hic : i = c.1
    · subst hic
      refine ⟨(e : Int), c.2, by simp [List.getElem?_set, hl1, hi], by simp [List.getElem?_set, hl2, hi],
        le_of_lt (lt_of_lt_of_le hlt hle1), ?_, Or.inr ⟨lt_of_lt_of_le hlt hle1, e, rfl, ?_, ?_⟩⟩
      · rintro e1 t1 (hs | ⟨_, _, ht, _⟩)
        · exact le_of_lt (lt_of_lt_of_le hlt (hmin e1 t1 hs))
        · exact le_of_eq ht.symm
      · exact Or.inr ⟨rfl, rfl, rfl, hg⟩
      · rintro e1 (hs | ⟨he, _⟩)
        · exact absurd (hmin e1 _ hs) (not_le.mpr hlt)
        · exact le_of_eq he.symm
    · obtain ⟨k1, t1, hk1, ht1, hbest1⟩ := hall i hi
      refine ⟨k1, t1, by simp [List.getElem?_set, Ne.symm hic, hk1],
        by simp [List.getElem?_set, Ne.symm hic, ht1], ?_⟩
      obtain ⟨ha, hb1, hc1⟩ := hbest1
      refine ⟨ha, ?_, ?_⟩
      · rintro e1 t2 (hs | ⟨_, hi2, _⟩)
        · exact hb1 e1 t2 hs
        · exact absurd hi2 hic
      · rcases hc1 with hc1 | ⟨hlt1, e0, hk0, hs0, hfirst⟩
        · exact Or.inl hc1
        · refine Or.inr ⟨hlt1, e0, hk0, Or.inl hs0, ?_⟩
          rintro e1 (hs | ⟨_, hi2, _⟩)
          · exact hfirst e1 hs
          · exact absurd hi2 hic
  · have hkeep : ¬ c.2 < best ∨ retrigger_guard_discards durations end_time last c.1 c.2 := by
      by_cases hlt : c.2 < best
      · right
        by_contra hg
        exact hrec ⟨hlt, hg⟩
      · exact Or.inl hlt
    refine ⟨r, candidate_keep durations end_time last e r c best hb hkeep, hl1, hl2, ?_⟩
    intro i hi
    obtain ⟨k1, t1, hk1, ht1, ha, hb1, hc1⟩ := hall i hi
    refine ⟨k1, t1, hk1, ht1, ha, ?_, ?_⟩
    · rintro e1 t2 (hs | ⟨_, hi2, ht2, hg2⟩)
      · exact hb1 e1 t2 hs
      · subst hi2
        subst ht2
        rw [hb] at ht1
        cases ht1
        rcases hkeep with h | h
        · exact not_lt.mp h
        · exact absurd h hg2
    · rcases hc1 with hc1 | ⟨hlt1, e0, hk0, hs0, hfirst⟩
      · exact Or.inl hc1
      · refine Or.inr ⟨hlt1, e0, hk0, Or.inl hs0, ?_⟩
        rintro e1 (hs | ⟨he, _⟩)
        · exact hfirst e1 hs
        · rw [he]
          exact hmono e0 i t1 hs0

theorem next_event_inv_congr (n : Nat) (seen seen1 : Nat → Nat → ℚ → Prop)
    (r : List Int × List ℚ) (h : ∀ e i t, seen e i t ↔ seen1 e i t)
    (hinv : next_event_inv n seen r) : next_event_inv n seen1 r := by
  have : seen = seen1 := by
    funext e i t
    exact propext (h e i t)
  rw [← this]
  exact hinv

theorem next_event_inv_fold (n : Nat) (durations : List ℚ) (end_time : ℚ) (last : List ℚ)
    (e : Nat) (hlen : 0 < last.length → n ≤ durations.length ∧ n ≤ last.length) :
    ∀ (cs : List (Nat × ℚ)) (seen : Nat → Nat → ℚ → Prop) (r : List Int × List ℚ),
      next_event_inv n seen r → (∀ e1 i t, seen e1 i t → e1 ≤ e) → (∀ c ∈ cs, c.1 < n) →
      ∃ r1, cs.foldlM (find_next_event_candidate durations end_time last e) r = some r1 ∧
        next_event_inv n (fun e1 i t => seen e1 i t ∨ (e1 = e ∧ (i, t) ∈ cs ∧
          ¬ retrigger_guard_discards durations end_time last i t)) r1 := by
  intro cs
  induction cs with
  | nil =>
    intro seen r hinv _ _
    refine ⟨r, rfl, next_event_inv_congr n seen _ r ?_ hinv⟩
    intro e1 i t
    simp
  | cons c cs ih =>
    intro seen r hinv hmono hcs
    obtain ⟨r1, hr1, hinv1⟩ := next_event_inv_step n seen durations end_time last e r c hinv
      hmono (hcs c (List.mem_cons_self _ _)) hlen
    obtain ⟨r2, hr2, hinv2⟩ := ih _ r1 hinv1
      (by
        rintro e1 i t (hs | ⟨he, _⟩)
        · exact hmono e1 i t hs
        · exact le_of_eq he)
      (fun c1 hc1 => hcs c1 (List.mem_cons_of_mem _ hc1))
    refine ⟨r2, by simp [List.foldlM, hr1, hr2], next_event_inv_congr n _ _ r2 ?_ hinv2⟩
    intro e1 i t
    constructor
    · rintro ((hs | ⟨he, hi, ht, hg⟩) | ⟨he, hm, hg⟩)
      · exact Or.inl hs
      · exact Or.inr ⟨he, by rw [hi, ht]; exact List.mem_cons_self _ _, hg⟩
      · exact Or.inr ⟨he, List.mem_cons_of_mem _ hm, hg⟩
    · rintro (hs | ⟨he, hm, hg⟩)
      · exact Or.inl (Or.inl hs)
      · rcases List.mem_cons.mp hm with hm | hm
        · refine Or.inl (Or.inr ⟨he, ?_, ?_, hg⟩)
          · exact congrArg Prod.fst hm
          · exact congrArg Prod.snd hm
        · exact Or.inr ⟨he, hm, hg⟩

theorem next_event_inv_loop (particles : ParticleSet) (ideal_offsets : IdealOffsets)
    (durations : List ℚ) (end_time : ℚ) (last : List ℚ) (n : Nat)
    (hlen : 0 < last.length → n ≤ durations.length ∧ n ≤ last.length) :
    ∀ (events : List Event) (e0 : Nat) (seen : Nat → Nat → ℚ → Prop) (r : List Int × List ℚ),
      next_event_inv n seen r → (∀ e1 i t, seen e1 i t → e1 < e0) →
      (∀ ev ∈ events, ∀ c ∈ ev.filter particles ideal_offsets durations end_time, c.1 < n) →
      ∃ r1, find_next_event_loop particles ideal_offsets durations end_time last events e0 r
          = some r1 ∧
        next_event_inv n (fun e1 i t => seen e1 i t ∨ (e0 ≤ e1 ∧
          reports particles ideal_offsets durations end_time events (e1 - e0) i t ∧
          ¬ retrigger_guard_discards durations end_time last i t)) r1 := by
  intro events
  induction events with
  | nil =>
    intro e0 seen r hinv _ _
    refine ⟨r, rfl, next_event_inv_congr n seen _ r ?_ hinv⟩
    intro e1 i t
    simp [reports]
  | cons ev events ih =>
    intro e0 seen r hinv hmono hrange
    obtain ⟨r1, hr1, hinv1⟩ := next_event_inv_fold n durations end_time last e0 hlen
      (ev.filter particles ideal_offsets durations end_time) seen r hinv
      (fun e1 i t hs => le_of_lt (hmono e1 i t hs)) (hrange ev (List.mem_cons_self _ _))
    obtain ⟨r2, hr2, hinv2⟩ := ih (e0 + 1) _ r1 hinv1
      (by
        rintro e1 i t (hs | ⟨he, _⟩)
        · exact Nat.lt_succ_of_lt (hmono e1 i t hs)
        · omega)
      (fun ev1 hev1 => hrange ev1 (List.mem_cons_of_mem _ hev1))
    refine ⟨r2, by simp [find_next_event_loop, hr1, hr2], next_event_inv_congr n _ _ r2 ?_ hinv2⟩
    intro e1 i t
    constructor
    · rintro ((hs | ⟨he, hm, hg⟩) | ⟨he, ⟨ev1, hev1, hm⟩, hg⟩)
      · exact Or.inl hs
      · refine Or.inr ⟨le_of_eq he.symm, ⟨ev, ?_, hm⟩, hg⟩
        simp [he]
      · refine Or.inr ⟨by omega, ⟨ev1, ?_, hm⟩, hg⟩
        have : e1 - e0 = (e1 - (e0 + 1)) + 1 := by omega
        rw [this, List.getElem?_cons_succ]
        exact hev1
    · rintro (hs | ⟨he, ⟨ev1, hev1, hm⟩, hg⟩)
      · exact Or.inl (Or.inl hs)
      · by_cases h0 : e1 = e0
        · refine Or.inl (Or.inr ⟨h0, ?_, hg⟩)
          simp [h0] at hev1
          rw [hev1]
          exact hm
        · refine Or.inr ⟨by omega, ⟨ev1, ?_, hm⟩, hg⟩
          have : e1 - e0 = (e1 - (e0 + 1)) + 1 := by omega
          rw [this, List.getElem?_cons_succ] at hev1
          exact hev1

theorem find_next_event_per_particle_inv (particles : ParticleSet)
    (ideal_offsets : IdealOffsets) (durations : List ℚ) (end_time : ℚ) (events : List Event)
    (last : List ℚ)
    (hrange : ∀ ev ∈ events, ∀ c ∈ ev.filter particles ideal_offsets durations end_time,
      c.1 < particles.size)
    (hlen : 0 < last.length → particles.size ≤ durations.length ∧ particles.size ≤ last.length) :
    ∃ r, find_next_event_per_particle particles ideal_offsets durations end_time events last
        = some r ∧
      next_event_inv particles.size (fun e i t =>
        reports particles ideal_offsets durations end_time events e i t ∧
        ¬ retrigger_guard_discards durations end_time last i t) r := by
  obtain ⟨r, hr, hinv⟩ := next_event_inv_loop particles ideal_offsets durations end_time last
    particles.size hlen events 0 (fun _ _ _ => False)
    (List.replicate particles.size (-1), List.replicate particles.size 1)
    (by
      refine ⟨by simp, by simp, ?_⟩
      intro i hi
      refine ⟨-1, 1, by simp [List.getElem?_replicate, hi], by simp [List.getElem?_replicate, hi],
        le_refl _, ?_, Or.inl ⟨rfl, rfl⟩⟩
      intro e t1 h
      exact absurd h id)
    (fun _ _ _ h => absurd h id) hrange
  refine ⟨r, hr, next_event_inv_congr _ _ _ r ?_ hinv⟩
  intro e i t
  simp

/-- C1: with no last-event times recorded (and every reported index a position
of the set), `find_next_event_per_particle` returns two arrays of the size of
the set such that, at every position `i`, the time factor `t` is the minimum of
`1` and all factors reported for `i` (it is at most `1`, at most every reported
factor, and is `1` or a reported factor), the next-event index is `-1` when no
event reported a factor below `1` for `i`, and when `t < 1` it is the lowest
event number that reported `t` for `i`. -/
theorem find_next_event_per_particle_minimum (particles : ParticleSet)
    (ideal_offsets : IdealOffsets) (durations : List ℚ) (end_time : ℚ) (events : List Event)
    (hrange : ∀ ev ∈ events, ∀ c ∈ ev.filter particles ideal_offsets durations end_time,
      c.1 < particles.size) :
    ∃ next_event_indices time_factors,
      find_next_event_per_particle particles ideal_offsets durations end_time events []
        = some (next_event_indices, time_factors) ∧
      next_event_indices.length = particles.size ∧ time_factors.length = particles.size ∧
      ∀ i, i < particles.size → ∃ k t,
        next_event_indices[i]? = some k ∧ time_factors[i]? = some t ∧
        t ≤ 1 ∧
        (∀ e t1, reports particles ideal_offsets durations end_time events e i t1 → t ≤ t1) ∧
        (t = 1 ∨ ∃ e, reports particles ideal_offsets durations end_time events e i t) ∧
        ((∀ e t1, reports particles ideal_offsets durations end_time events e i t1 → 1 ≤ t1) →
          k = -1) ∧
        (t < 1 → ∃ e : Nat, k = (e : Int) ∧
          reports particles ideal_offsets durations end_time events e i t ∧
          ∀ e1, reports particles ideal_offsets durations end_time events e1 i t → e ≤ e1) := by
  obtain ⟨r, hr, hl1, hl2, hall⟩ := find_next_event_per_particle_inv particles ideal_offsets
    durations end_time events [] hrange (fun h => absurd h (by simp))
  have hno : ∀ i t, ¬ retrigger_guard_discards durations end_time [] i t := by
    rintro i t ⟨h, _⟩
    simp at h
  refine ⟨r.1, r.2, hr, hl1, hl2, ?_⟩
  intro i hi
  obtain ⟨k, t, hk, ht, hle, hmin, hwho⟩ := hall i hi
  refine ⟨k, t, hk, ht, hle, fun e t1 h => hmin e t1 ⟨h, hno i t1⟩, ?_, ?_, ?_⟩
  · rcases hwho with ⟨h1, _⟩ | ⟨_, e, _, hs, _⟩
    · exact Or.inl h1
    · exact Or.inr ⟨e, hs.1⟩
  · intro hnone
    rcases hwho with ⟨_, hk1⟩ | ⟨hlt, e, _, hs, _⟩
    · exact hk1
    · exact absurd (hnone e t hs.1) (not_le.mpr hlt)
  · intro hlt
    rcases hwho with ⟨h1, _⟩ | ⟨_, e, hk1, hs, hfirst⟩
    · exact absurd h1 (ne_of_lt hlt)
    · exact ⟨e, hk1, hs.1, fun e1 h1 => hfirst e1 ⟨h1, hno i t⟩⟩

/-- Witness for C1: two positions, an event reporting `0.5` everywhere and an
event reporting `0.25` for position `0`. -/
theorem find_next_event_per_particle_minimum_witness :
    ∃ next_event_indices time_factors,
      find_next_event_per_particle ⟨sample_block, [0, 1]⟩ ⟨[], []⟩ [1, 1] 1
        [event_all_half, event_first_quarter] [] = some (next_event_indices, time_factors) ∧
      next_event_indices.length = 2 ∧ time_factors.length = 2 ∧
      ∀ i, i < 2 → ∃ k t,
        next_event_indices[i]? = some k ∧ time_factors[i]? = some t ∧
        t ≤ 1 ∧
        (∀ e t1, reports ⟨sample_block, [0, 1]⟩ ⟨[], []⟩ [1, 1] 1
          [event_all_half, event_first_quarter] e i t1 → t ≤ t1) ∧
        (t = 1 ∨ ∃ e, reports ⟨sample_block, [0, 1]⟩ ⟨[], []⟩ [1, 1] 1
          [event_all_half, event_first_quarter] e i t) ∧
        ((∀ e t1, reports ⟨sample_block, [0, 1]⟩ ⟨[], []⟩ [1, 1] 1
          [event_all_half, event_first_quarter] e i t1 → 1 ≤ t1) → k = -1) ∧
        (t < 1 → ∃ e : Nat, k = (e : Int) ∧
          reports ⟨sample_block, [0, 1]⟩ ⟨[], []⟩ [1, 1] 1
            [event_all_half, event_first_quarter] e i t ∧
          ∀ e1, reports ⟨sample_block, [0, 1]⟩ ⟨[], []⟩ [1, 1] 1
            [event_all_half, event_first_quarter] e1 i t → e ≤ e1) :=
  find_next_event_per_particle_minimum ⟨sample_block, [0, 1]⟩ ⟨[], []⟩ [1, 1] 1
    [event_all_half, event_first_quarter] (by decide)

/-! ## Loops over a range -/

theorem foldlM_range_invariant {σ : Type} (f : σ → Nat → Option σ) (I : Nat → σ → Prop)
    (n : Nat) (s0 : σ) (h0 : I 0 s0)
    (hstep : ∀ m s, m < n → I m s → ∃ s1, f s m = some s1 ∧ I (m + 1) s1) :
    ∃ s, (List.range n).foldlM f s0 = some s ∧ I n s := by
  induction n with
  | zero => exact ⟨s0, rfl, h0⟩
  | succ n ih =>
    obtain ⟨s, hs, hI⟩ := ih (fun m s hm hI => hstep m s (Nat.lt_succ_of_lt hm) hI)
    obtain ⟨s1, hs1, hI1⟩ := hstep n s (Nat.lt_succ_self n) hI
    refine ⟨s1, ?_, hI1⟩
    rw [List.range_succ, List.foldlM_append, hs]
    simp [List.foldlM, hs1]

/-! ## The retrigger guard -/

theorem find_unfinished_particles_append (particle_indices : List Nat)
    (next_event_indices : List Int) (time_factors : List ℚ) (durations : List ℚ)
    (kill_states : List Nat) (r : List Nat × List ℚ)
    (hn : next_event_indices.length = particle_indices.length)
    (ht : time_factors.length = particle_indices.length)
    (hd : durations.length = particle_indices.length)
    (hk : ∀ (i s : Nat) (k : Int), particle_indices[i]? = some s →
      next_event_indices[i]? = some k → k ≠ -1 → s < kill_states.length) :
    find_unfinished_particles particle_indices next_event_indices time_factors durations
        kill_states r =
      some (r.1 ++ (unfinished_positions particle_indices next_event_indices kill_states).map
          (fun i => particle_indices.getD i 0),
        r.2 ++ (unfinished_positions particle_indices next_event_indices kill_states).map
          (fun i => durations.getD i 0 * (1 - time_factors.getD i 0))) := by
  let P : Nat → Bool := fun i =>
    decide (next_event_indices[i]? ≠ some (-1)) &&
    decide ((particle_indices[i]?).bind (fun pindex => kill_states[pindex]?) = some 0)
  obtain ⟨s, hs, hI⟩ := foldlM_range_invariant
    (fun (r : List Nat × List ℚ) i =>
      (particle_indices[i]?).bind fun pindex =>
      (next_event_indices[i]?).bind fun event_index =>
      if event_index ≠ -1 then
        (kill_states[pindex]?).bind fun kill_state =>
        if kill_state = 0 then
          (time_factors[i]?).bind fun time_factor =>
          (durations[i]?).bind fun duration =>
          let remaining_duration := duration * (1 - time_factor)
          some (r.1 ++ [pindex], r.2 ++ [remaining_duration])
        else some r
      else some r)
    (fun m s => s = (r.1 ++ ((List.range m).filter P).map (fun i => particle_indices.getD i 0),
      r.2 ++ ((List.range m).filter P).map
        (fun i => durations.getD i 0 * (1 - time_factors.getD i 0))))
    particle_indices.length r (by simp)
    (by
      intro m s hm hI
      obtain ⟨s0, hp⟩ : ∃ s0, particle_indices[m]? = some s0 :=
        ⟨_, List.getElem?_eq_getElem hm⟩
      obtain ⟨k, he⟩ : ∃ k, next_event_indices[m]? = some k :=
        ⟨_, List.getElem?_eq_getElem (by omega)⟩
      obtain ⟨tf, htf⟩ : ∃ tf, time_factors[m]? = some tf :=
        ⟨_, List.getElem?_eq_getElem (by omega)⟩
      obtain ⟨d, hdu⟩ : ∃ d, durations[m]? = some d :=
        ⟨_, List.getElem?_eq_getElem (by omega)⟩
      subst hI
      simp only [hp, he, htf, hdu, Option.some_bind, List.range_succ, List.filter_append,
        List.map_append]
      by_cases h1 : k = -1
      · have hP : P m = false := by simp [P, he, h1]
        simp [h1, List.filter_cons, hP]
      · obtain ⟨ks, hks⟩ : ∃ ks, kill_states[s0]? = some ks :=
          ⟨_, List.getElem?_eq_getElem (hk m s0 k hp he h1)⟩
        by_cases h2 : ks = 0
        · have hP : P m = true := by simp [P, he, h1, hp, hks, h2]
          simp [h1, h2, hks, List.filter_cons, hP, List.getD_eq_getElem?_getD, hp, htf, hdu]
        · have hP : P m = false := by simp [P, he, h1, hp, hks, h2]
          simp [h1, h2, hks, List.filter_cons, hP])
  unfold find_unfinished_particles
  rw [hs, hI]
  rfl

/-- C5: `find_unfinished_particles`, started with empty outputs, returns the
slot indices of exactly the positions with next-event index different from `-1`
and kill state `0`, in input order, each with remaining duration
`durations[i] * (1 - time_factor[i])`, and the two lists have the same length. -/
theorem find_unfinished_particles_spec (particle_indices : List Nat)
    (next_event_indices : List Int) (time_factors : List ℚ) (durations : List ℚ)
    (kill_states : List Nat)
    (hn : next_event_indices.length = particle_indices.length)
    (ht : time_factors.length = particle_indices.length)
    (hd : durations.length = particle_indices.length)
    (hk : ∀ pindex ∈ particle_indices, pindex < kill_states.length) :
    ∃ unfinished remaining,
      find_unfinished_particles particle_indices next_event_indices time_factors durations
        kill_states ([], []) = some (unfinished, remaining) ∧
      unfinished = (unfinished_positions particle_indices next_event_indices kill_states).map
        (fun i => particle_indices.getD i 0) ∧
      remaining = (unfinished_positions particle_indices next_event_indices kill_states).map
        (fun i => durations.getD i 0 * (1 - time_factors.getD i 0)) ∧
      unfinished.length = remaining.length := by
  refine ⟨_, _, ?_, rfl, rfl, by simp⟩
  rw [find_unfinished_particles_append particle_indices next_event_indices time_factors
    durations kill_states ([], []) hn ht hd
    (fun i s _ hs _ _ => hk s (List.getElem?_mem hs))]
  simp

/-- Witness for C5: three particles, the second without event, the third killed. -/
theorem find_unfinished_particles_spec_witness :
    ∃ unfinished remaining,
      find_unfinished_particles [4, 7, 9] [0, -1, 1] [1 / 2, 1, 1 / 4] [1, 1, 2]
        [0, 0, 0, 0, 0, 0, 0, 0, 0, 1] ([], []) = some (unfinished, remaining) ∧
      unfinished = (unfinished_positions [4, 7, 9] [0, -1, 1]
        [0, 0, 0, 0, 0, 0, 0, 0, 0, 1]).map (fun i => [4, 7, 9].getD i 0) ∧
      remaining = (unfinished_positions [4, 7, 9] [0, -1, 1]
        [0, 0, 0, 0, 0, 0, 0, 0, 0, 1]).map
        (fun i => ([1, 1, 2] : List ℚ).getD i 0 * (1 - ([1 / 2, 1, 1 / 4] : List ℚ).getD i 0)) ∧
      unfinished.length = remaining.length :=
  find_unfinished_particles_spec [4, 7, 9] [0, -1, 1] [1 / 2, 1, 1 / 4] [1, 1, 2]
    [0, 0, 0, 0, 0, 0, 0, 0, 0, 1] (by decide) (by decide) (by decide) (by decide)

/-! ## Partial advance -/

theorem add_at_eq_some {xs : List float3} {i : Nat} {a : float3} (v : float3)
    (h : xs[i]? = some a) : add_at xs i v = some (xs.set i (a + v)) := by
  have hi := (List.getElem?_eq_some.mp h).1
  simp [add_at, h, store, hi]

theorem float3_one_mul (v : float3) : (1 : ℚ) * v = v := by
  cases v
  show float3.mk _ _ _ = _
  simp

theorem forward_particles_result (particles : ParticleSet) (ideal_offsets : IdealOffsets)
    (time_factors : List ℚ)
    (hnodup : particles.indices.Nodup)
    (hpos : ∀ s ∈ particles.indices, s < particles.block.positions.length)
    (hvel : ∀ s ∈ particles.indices, s < particles.block.velocities.length)
    (htf : time_factors.length = particles.size)
    (hpo : ideal_offsets.position_offsets.length = particles.size)
    (hvo : ideal_offsets.velocity_offsets.length = particles.size) :
    ∃ block, forward_particles_to_next_event particles ideal_offsets time_factors = some block ∧
      block.kill_states = particles.block.kill_states ∧
      block.birth_times = particles.block.birth_times ∧
      block.active_amount = particles.block.active_amount ∧
      block.positions.length = particles.block.positions.length ∧
      block.velocities.length = particles.block.velocities.length ∧
      (∀ i s, i < particles.size → particles.indices[i]? = some s →
        block.positions[s]? = (particles.block.positions[s]?).map
          (fun p => p + time_factors.getD i 0 * ideal_offsets.position_offsets.getD i 0) ∧
        block.velocities[s]? = (particles.block.velocities[s]?).map
          (fun v => v + time_factors.getD i 0 * ideal_offsets.velocity_offsets.getD i 0)) ∧
      (∀ s, (∀ i, i < particles.size → particles.indices[i]? ≠ some s) →
        block.positions[s]? = particles.block.positions[s]? ∧
        block.velocities[s]? = particles.block.velocities[s]?) := by
  unfold forward_particles_to_next_event ParticleSet.range
  refine foldlM_range_invariant _
    (fun m (block : ParticlesBlock) =>
      block.kill_states = particles.block.kill_states ∧
      block.birth_times = particles.block.birth_times ∧
      block.active_amount = particles.block.active_amount ∧
      block.positions.length = particles.block.positions.length ∧
      block.velocities.length = particles.block.velocities.length ∧
      (∀ i s, i < m → particles.indices[i]? = some s →
        block.positions[s]? = (particles.block.positions[s]?).map
          (fun p => p + time_factors.getD i 0 * ideal_offsets.position_offsets.getD i 0) ∧
        block.velocities[s]? = (particles.block.velocities[s]?).map
          (fun v => v + time_factors.getD i 0 * ideal_offsets.velocity_offsets.getD i 0)) ∧
      (∀ s, (∀ i, i < m → particles.indices[i]? ≠ some s) →
        block.positions[s]? = particles.block.positions[s]? ∧
        block.velocities[s]? = particles.block.velocities[s]?))
    particles.size particles.block
    ⟨rfl, rfl, rfl, rfl, rfl, fun i s hi => absurd hi (Nat.not_lt_zero i), fun s _ => ⟨rfl, rfl⟩⟩ ?_
  intro m block hm ⟨hk, hb, ha, hlp, hlv, hdone, hrest⟩
  have hm0 : m < particles.indices.length := hm
  obtain ⟨s0, hs⟩ : ∃ s0, particles.indices[m]? = some s0 :=
    ⟨_, List.getElem?_eq_getElem hm0⟩
  have hmem : s0 ∈ particles.indices := List.getElem?_mem hs
  have hfresh : ∀ i, i < m → particles.indices[i]? ≠ some s0 := by
    intro i hi
    rw [← hs]
    exact List.nodup_iff_getElem?_ne_getElem?.mp hnodup i m hi hm0
  obtain ⟨hp0, hv0⟩ := hrest _ hfresh
  obtain ⟨p, hp1⟩ : ∃ p, particles.block.positions[s0]? = some p :=
    ⟨_, List.getElem?_eq_getElem (hpos _ hmem)⟩
  obtain ⟨v, hv1⟩ : ∃ v, particles.block.velocities[s0]? = some v :=
    ⟨_, List.getElem?_eq_getElem (hvel _ hmem)⟩
  rw [hp1] at hp0
  rw [hv1] at hv0
  obtain ⟨tf, htf1⟩ : ∃ tf, time_factors[m]? = some tf :=
    ⟨_, List.getElem?_eq_getElem (by rw [htf]; exact hm)⟩
  obtain ⟨po, hpo1⟩ : ∃ po, ideal_offsets.position_offsets[m]? = some po :=
    ⟨_, List.getElem?_eq_getElem (by rw [hpo]; exact hm)⟩
  obtain ⟨vo, hvo1⟩ : ∃ vo, ideal_offsets.velocity_offsets[m]? = some vo :=
    ⟨_, List.getElem?_eq_getElem (by rw [hvo]; exact hm)⟩
  have h1 : s0 < block.positions.length := by rw [hlp]; exact hpos _ hmem
  have h2 : s0 < block.velocities.length := by rw [hlv]; exact hvel _ hmem
  refine ⟨{ block with positions := block.positions.set s0 (p + tf * po),
                       velocities := block.velocities.set s0 (v + tf * vo) }, ?_,
    hk, hb, ha, by simp [hlp], by simp [hlv], ?_, ?_⟩
  · simp only [ParticleSet.get_particle_index, hs, htf1, hpo1, hvo1, Option.some_bind,
      add_at_eq_some _ hp0, add_at_eq_some _ hv0]
  · intro i s hi his
    by_cases him : i = m
    · subst him
      rw [hs] at his
      cases his
      simp [List.getElem?_set, h1, h2, hp1, hv1, htf1, hpo1, hvo1]
    · have hne : s0 ≠ s := by
        intro h
        exact hfresh i (by omega) (by rw [his, h])
      have := hdone i s (by omega) his
      simp only [List.getElem?_set, hne, if_false]
      exact this
  · intro s hs1
    have hne : s0 ≠ s := by
      intro h
      exact hs1 m (Nat.lt_succ_self m) (by rw [hs, h])
    have := hrest s (fun i hi => hs1 i (Nat.lt_succ_of_lt hi))
    simp only [List.getElem?_set, hne, if_false]
    exact this

/-- C6: for a particle set with pairwise distinct slot indices (all inside the
block, with one time factor and one offset pair per position),
`forward_particles_to_next_event` adds `time_factor[i] * position_offset[i]` to
the position and `time_factor[i] * velocity_offset[i]` to the velocity of the
slot at position `i` (the full offsets when the time factor is `1`, the value
of a particle without event), and leaves the position and velocity of every
slot outside the set unchanged. -/
theorem forward_particles_to_next_event_spec (particles : ParticleSet)
    (ideal_offsets : IdealOffsets) (time_factors : List ℚ)
    (hnodup : particles.indices.Nodup)
    (hpos : ∀ s ∈ particles.indices, s < particles.block.positions.length)
    (hvel : ∀ s ∈ particles.indices, s < particles.block.velocities.length)
    (htf : time_factors.length = particles.size)
    (hpo : ideal_offsets.position_offsets.length = particles.size)
    (hvo : ideal_offsets.velocity_offsets.length = particles.size) :
    ∃ block, forward_particles_to_next_event particles ideal_offsets time_factors = some block ∧
      (∀ (i s : Nat) (tf : ℚ) (po vo p v : float3), particles.indices[i]? = some s → time_factors[i]? = some tf →
        ideal_offsets.position_offsets[i]? = some po →
        ideal_offsets.velocity_offsets[i]? = some vo →
        particles.block.positions[s]? = some p → particles.block.velocities[s]? = some v →
        block.positions[s]? = some (p + tf * po) ∧ block.velocities[s]? = some (v + tf * vo) ∧
        (tf = 1 → block.positions[s]? = some (p + po) ∧ block.velocities[s]? = some (v + vo))) ∧
      (∀ s, s ∉ particles.indices →
        block.positions[s]? = particles.block.positions[s]? ∧
        block.velocities[s]? = particles.block.velocities[s]?) := by
  obtain ⟨block, hblock, _, _, _, _, _, hdone, hrest⟩ := forward_particles_result particles
    ideal_offsets time_factors hnodup hpos hvel htf hpo hvo
  refine ⟨block, hblock, ?_, ?_⟩
  · intro i s tf po vo p v hs htf1 hpo1 hvo1 hp hv
    have hi : i < particles.size := (List.getElem?_eq_some.mp hs).1
    obtain ⟨h1, h2⟩ := hdone i s hi hs
    have e1 : block.positions[s]? = some (p + tf * po) := by
      rw [h1, hp]
      simp [htf1, hpo1]
    have e2 : block.velocities[s]? = some (v + tf * vo) := by
      rw [h2, hv]
      simp [htf1, hvo1]
    refine ⟨e1, e2, ?_⟩
    intro h
    rw [e1, e2, h, float3_one_mul, float3_one_mul]
    exact ⟨rfl, rfl⟩
  · intro s hs
    exact hrest s (fun i _ h => hs (List.getElem?_mem h))

/-- Witness for C6: the set `[1, 0]` over the two-slot block. -/
theorem forward_particles_to_next_event_spec_witness :
    ∃ block, forward_particles_to_next_event ⟨sample_block, [1, 0]⟩
        ⟨[⟨2, 0, 0⟩, ⟨4, 0, 0⟩], [⟨0, 2, 0⟩, ⟨0, 4, 0⟩]⟩ [1 / 2, 1] = some block ∧
      (∀ (i s : Nat) (tf : ℚ) (po vo p v : float3), ([1, 0] : List Nat)[i]? = some s →
        ([1 / 2, 1] : List ℚ)[i]? = some tf →
        ([⟨2, 0, 0⟩, ⟨4, 0, 0⟩] : List float3)[i]? = some po →
        ([⟨0, 2, 0⟩, ⟨0, 4, 0⟩] : List float3)[i]? = some vo →
        sample_block.positions[s]? = some p → sample_block.velocities[s]? = some v →
        block.positions[s]? = some (p + tf * po) ∧ block.velocities[s]? = some (v + tf * vo) ∧
        (tf = 1 → block.positions[s]? = some (p + po) ∧ block.velocities[s]? = some (v + vo))) ∧
      (∀ s, s ∉ ([1, 0] : List Nat) →
        block.positions[s]? = sample_block.positions[s]? ∧
        block.velocities[s]? = sample_block.velocities[s]?) :=
  forward_particles_to_next_event_spec ⟨sample_block, [1, 0]⟩
    ⟨[⟨2, 0, 0⟩, ⟨4, 0, 0⟩], [⟨0, 2, 0⟩, ⟨0, 4, 0⟩]⟩ [1 / 2, 1]
    (by decide) (by decide) (by decide) (by decide) (by decide) (by decide)

/-! ## Ideal offsets -/

theorem float3_div_one (v : float3) : v / (1 : ℚ) = v := by
  cases v
  show float3.mk _ _ _ = _
  simp

theorem add_force_length (force : Force) (particles : ParticleSet) (r : List float3) :
    (force.add_force particles r).length = r.length := by
  simp [Force.add_force]

theorem add_force_getElem? (force : Force) (particles : ParticleSet) (r : List float3)
    (i : Nat) :
    (force.add_force particles r)[i]? = (r[i]?).map (fun v => v + force.vector particles i) := by
  unfold Force.add_force
  rw [List.getElem?_zipWith]
  by_cases hi : i < r.length
  · simp [List.getElem?_range hi, List.getElem?_eq_getElem hi]
  · have : r[i]? = none := List.getElem?_eq_none (by omega)
    simp [this]

theorem add_forces_getElem? (particles : ParticleSet) (i : Nat) :
    ∀ (forces : List Force) (init : List float3),
      (forces.foldl (fun r force => force.add_force particles r) init).length = init.length ∧
      (forces.foldl (fun r force => force.add_force particles r) init)[i]? =
        (init[i]?).map (fun a => forces.foldl (fun acc force => acc + force.vector particles i) a) := by
  intro forces
  induction forces with
  | nil => intro init; simp
  | cons force forces ih =>
    intro init
    obtain ⟨h1, h2⟩ := ih (force.add_force particles init)
    refine ⟨by simpa [add_force_length] using h1, ?_⟩
    simp only [List.foldl_cons]
    rw [h2, add_force_getElem?]
    cases init[i]? <;> simp

theorem compute_combined_forces_result (particles : ParticleSet) (forces : List Force) :
    ∃ combined, compute_combined_forces_on_particles particles forces
        (List.replicate particles.size 0) = some combined ∧
      combined.length = particles.size ∧
      ∀ i, i < particles.size → combined[i]? = some (combined_force particles forces i) := by
  refine ⟨forces.foldl (fun r force => force.add_force particles r)
    (List.replicate particles.size 0), by simp [compute_combined_forces_on_particles], ?_, ?_⟩
  · simp [(add_forces_getElem? particles 0 forces _).1]
  · intro i hi
    rw [(add_forces_getElem? particles i forces _).2]
    simp [List.getElem?_replicate, hi, combined_force]

theorem compute_ideal_attribute_offsets_result (particles : ParticleSet) (durations : List ℚ)
    (particle_type : ParticleType) (r_offsets : IdealOffsets)
    (hd : durations.length = particles.size)
    (hrp : r_offsets.position_offsets.length = particles.size)
    (hrv : r_offsets.velocity_offsets.length = particles.size)
    (hvel : ∀ s ∈ particles.indices, s < particles.block.velocities.length) :
    ∃ offsets, compute_ideal_attribute_offsets particles durations particle_type r_offsets
        = some offsets ∧
      offsets.position_offsets.length = particles.size ∧
      offsets.velocity_offsets.length = particles.size ∧
      ∀ (i s : Nat) (d : ℚ) (v : float3), i < particles.size → particles.indices[i]? = some s →
        durations[i]? = some d → particles.block.velocities[s]? = some v →
        offsets.velocity_offsets[i]? = some (d * combined_force particles particle_type.forces i) ∧
        offsets.position_offsets[i]? = some (d * (v +
          (d * combined_force particles particle_type.forces i) * (1 / 2 : ℚ))) := by
  obtain ⟨combined, hc, hcl, hcv⟩ := compute_combined_forces_result particles particle_type.forces
  unfold compute_ideal_attribute_offsets
  simp only [hd, hrp, hrv, and_self, if_true, hc, Option.some_bind, ParticleSet.range]
  refine foldlM_range_invariant _
    (fun m (r : IdealOffsets) =>
      r.position_offsets.length = particles.size ∧
      r.velocity_offsets.length = particles.size ∧
      ∀ (i s : Nat) (d : ℚ) (v : float3), i < m → particles.indices[i]? = some s →
        durations[i]? = some d → particles.block.velocities[s]? = some v →
        r.velocity_offsets[i]? = some (d * combined_force particles particle_type.forces i) ∧
        r.position_offsets[i]? = some (d * (v +
          (d * combined_force particles particle_type.forces i) * (1 / 2 : ℚ))))
    particles.size _ ⟨hrp, hrv, fun i s d v hi => absurd hi (Nat.not_lt_zero i)⟩ ?_
  intro m r hm ⟨hlp, hlv, hdone⟩
  have hm0 : m < particles.indices.length := hm
  obtain ⟨s0, hs⟩ : ∃ s0, particles.indices[m]? = some s0 :=
    ⟨_, List.getElem?_eq_getElem hm0⟩
  have hmem : s0 ∈ particles.indices := List.getElem?_mem hs
  obtain ⟨d0, hd0⟩ : ∃ d0, durations[m]? = some d0 :=
    ⟨_, List.getElem?_eq_getElem (by rw [hd]; exact hm)⟩
  obtain ⟨v0, hv0⟩ : ∃ v0, particles.block.velocities[s0]? = some v0 :=
    ⟨_, List.getElem?_eq_getElem (hvel _ hmem)⟩
  have hF := hcv m hm
  have h1 : m < r.velocity_offsets.length := by rw [hlv]; exact hm
  have h2 : m < r.position_offsets.length := by rw [hlp]; exact hm
  refine ⟨⟨r.position_offsets.set m (d0 * (v0 +
      (d0 * combined_force particles particle_type.forces m) * (1 / 2 : ℚ))),
    r.velocity_offsets.set m (d0 * combined_force particles particle_type.forces m)⟩, ?_,
    by simp [hlp], by simp [hlv], ?_⟩
  · simp only [ParticleSet.get_particle_index, hs, hd0, hF, hv0, Option.some_bind,
      store_eq_some _ h1, store_eq_some _ h2, float3_div_one]
    simp [List.getElem?_set, h1]
  · intro i s d v hi his hdi hvi
    by_cases him : i = m
    · subst him
      rw [hs] at his
      cases his
      rw [hd0] at hdi
      cases hdi
      rw [hv0] at hvi
      cases hvi
      simp [List.getElem?_set, h1, h2]
    · have := hdone i s d v (by omega) his hdi hvi
      simp only [List.getElem?_set, Ne.symm him, if_false]
      exact this

theorem float3_add_def (a b : float3) : a + b = ⟨a.x + b.x, a.y + b.y, a.z + b.z⟩ := rfl

theorem float3_scale_def (s : ℚ) (a : float3) : s * a = ⟨s * a.x, s * a.y, s * a.z⟩ := rfl

theorem float3_scaled_def (a : float3) (s : ℚ) : a * s = ⟨a.x * s, a.y * s, a.z * s⟩ := rfl

theorem float3_offset_forms (d : ℚ) (v F : float3) :
    d * (v + (d * F) * (1 / 2 : ℚ)) = d * (v + ((1 / 2 : ℚ) * d) * F) ∧
    d * (v + (d * F) * (1 / 2 : ℚ)) = d * ((v + (v + d * F)) * (1 / 2 : ℚ)) := by
  constructor
  · simp only [float3_add_def, float3_scale_def, float3_scaled_def]
    congr 1 <;> ring
  · simp only [float3_add_def, float3_scale_def, float3_scaled_def]
    congr 1 <;> ring

/-- C9: `compute_ideal_attribute_offsets` (offset arrays of the size of the
set, one duration per position, slot indices inside the block) yields, for the
position `i` with duration `d`, current velocity `v` and combined force `F`
(the sum of the vectors the forces add, starting from zero; mass is `1`), the
velocity offset `d * F` and the position offset `d * (v + 0.5 * d * F)`, which
is `d` times the average of the old velocity `v` and the new one `v + d * F`. -/
theorem compute_ideal_attribute_offsets_spec (particles : ParticleSet) (durations : List ℚ)
    (particle_type : ParticleType) (r_offsets : IdealOffsets)
    (hd : durations.length = particles.size)
    (hrp : r_offsets.position_offsets.length = particles.size)
    (hrv : r_offsets.velocity_offsets.length = particles.size)
    (hvel : ∀ s ∈ particles.indices, s < particles.block.velocities.length) :
    ∃ offsets, compute_ideal_attribute_offsets particles durations particle_type r_offsets
        = some offsets ∧
      ∀ (i s : Nat) (d : ℚ) (v : float3), particles.indices[i]? = some s →
        durations[i]? = some d → particles.block.velocities[s]? = some v →
        ∃ velocity_offset position_offset,
          offsets.velocity_offsets[i]? = some velocity_offset ∧
          offsets.position_offsets[i]? = some position_offset ∧
          velocity_offset = d * combined_force particles particle_type.forces i ∧
          position_offset = d * (v +
            ((1 / 2 : ℚ) * d) * combined_force particles particle_type.forces i) ∧
          position_offset = d * ((v +
            (v + d * combined_force particles particle_type.forces i)) * (1 / 2 : ℚ)) := by
  obtain ⟨offsets, h, _, _, hall⟩ := compute_ideal_attribute_offsets_result particles durations
    particle_type r_offsets hd hrp hrv hvel
  refine ⟨offsets, h, ?_⟩
  intro i s d v hs hdi hv
  obtain ⟨h1, h2⟩ := hall i s d v (List.getElem?_eq_some.mp hs).1 hs hdi hv
  exact ⟨_, _, h1, h2, rfl, (float3_offset_forms d v _).1, (float3_offset_forms d v _).2⟩

/-- Witness for C9: gravity on the set `[1, 0]` with durations `1` and `2`. -/
theorem compute_ideal_attribute_offsets_spec_witness :
    ∃ offsets, compute_ideal_attribute_offsets ⟨sample_block, [1, 0]⟩ [1, 2]
        ⟨[gravity], [], []⟩ ⟨[0, 0], [0, 0]⟩ = some offsets ∧
      ∀ (i s : Nat) (d : ℚ) (v : float3), ([1, 0] : List Nat)[i]? = some s →
        ([1, 2] : List ℚ)[i]? = some d → sample_block.velocities[s]? = some v →
        ∃ velocity_offset position_offset,
          offsets.velocity_offsets[i]? = some velocity_offset ∧
          offsets.position_offsets[i]? = some position_offset ∧
          velocity_offset = d * combined_force ⟨sample_block, [1, 0]⟩ [gravity] i ∧
          position_offset = d * (v +
            ((1 / 2 : ℚ) * d) * combined_force ⟨sample_block, [1, 0]⟩ [gravity] i) ∧
          position_offset = d * ((v +
            (v + d * combined_force ⟨sample_block, [1, 0]⟩ [gravity] i)) * (1 / 2 : ℚ)) :=
  compute_ideal_attribute_offsets_spec ⟨sample_block, [1, 0]⟩ [1, 2] ⟨[gravity], [], []⟩
    ⟨[0, 0], [0, 0]⟩ (by decide) (by decide) (by decide) (by decide)

/-! ## Grouping and dispatch -/

theorem find_particles_per_event_result (particle_indices : List Nat)
    (next_event_indices : List Int) (r : List (List Nat))
    (hn : next_event_indices.length = particle_indices.length)
    (hev : ∀ (i : Nat) (k : Int), next_event_indices[i]? = some k → k = -1 ∨ (0 ≤ k ∧ k.toNat < r.length)) :
    ∃ groups, find_particles_per_event particle_indices next_event_indices r = some groups ∧
      groups.length = r.length ∧
      ∀ e : Nat, groups[e]? = (r[e]?).map (fun g => g ++
        ((List.range particle_indices.length).filter
          (fun i => decide (next_event_indices[i]? = some (e : Int)))).map
          (fun i => particle_indices.getD i 0)) := by
  unfold find_particles_per_event
  refine foldlM_range_invariant _
    (fun m (groups : List (List Nat)) => groups.length = r.length ∧
      ∀ e : Nat, groups[e]? = (r[e]?).map (fun g => g ++
        ((List.range m).filter
          (fun i => decide (next_event_indices[i]? = some (e : Int)))).map
          (fun i => particle_indices.getD i 0)))
    particle_indices.length r ⟨rfl, fun e => by cases r[e]? <;> simp⟩ ?_
  intro m groups hm ⟨hlen, hall⟩
  obtain ⟨k, hk⟩ : ∃ k, next_event_indices[m]? = some k :=
    ⟨_, List.getElem?_eq_getElem (by rw [hn]; exact hm)⟩
  obtain ⟨s0, hs⟩ : ∃ s0, particle_indices[m]? = some s0 :=
    ⟨_, List.getElem?_eq_getElem hm⟩
  rcases hev m k hk with hk1 | ⟨hk0, hklt⟩
  · refine ⟨groups, by simp [hk, hk1], hlen, ?_⟩
    intro e
    rw [hall e, List.range_succ, List.filter_append]
    have : ¬ ((-1 : Int) = (e : Int)) := by omega
    simp [List.filter_cons, hk, hk1, this]
  · have hne : k ≠ -1 := by omega
    have hnlt : ¬ k < 0 := by omega
    have hkg : k.toNat < groups.length := by rw [hlen]; exact hklt
    obtain ⟨g, hg⟩ : ∃ g, groups[k.toNat]? = some g := ⟨_, List.getElem?_eq_getElem hkg⟩
    refine ⟨groups.set k.toNat (g ++ [s0]), by
      simp [hk, hne, hs, hnlt, hg, store, hkg], by simp [hlen], ?_⟩
    intro e
    rw [List.range_succ, List.filter_append]
    by_cases he : k.toNat = e
    · subst he
      have hcast : ((k.toNat : Nat) : Int) = k := Int.toNat_of_nonneg hk0
      rw [hall] at hg
      have hr : k.toNat < r.length := hklt
      rw [List.getElem?_eq_getElem hr] at hg ⊢
      simp only [Option.map_some', Option.some.injEq] at hg
      simp [List.getElem?_set, hkg, List.filter_cons, hk, hcast, ← hg, hs]
    · have hcast : ¬ (k = (e : Int)) := by
        intro h
        apply he
        rw [h]
        simp
      simp only [List.getElem?_set, he, if_false]
      rw [hall e]
      simp [List.filter_cons, hk, hcast]

theorem run_actions_result (block : ParticlesBlock) (particles_per_event : List (List Nat))
    (events : List Event) (action_per_event : List Action)
    (ha : events.length ≤ action_per_event.length)
    (hg : events.length ≤ particles_per_event.length)
    (hkeep : ∀ (e : Nat) (action : Action), e < events.length →
      action_per_event[e]? = some action → action.keeps_capacity) :
    ∃ block1 calls, run_actions block particles_per_event events action_per_event
        = some (block1, calls) ∧
      block1.same_capacity block ∧
      calls = (List.range events.length).map (fun e => (e, particles_per_event.getD e [])) := by
  unfold run_actions
  obtain ⟨st, hst, h1, h2⟩ := foldlM_range_invariant
    (fun (st : ParticlesBlock × List (Nat × List Nat)) event_index =>
      (action_per_event[event_index]?).bind fun action =>
      (particles_per_event[event_index]?).bind fun group =>
      some (action.execute ⟨st.1, group⟩, st.2 ++ [(event_index, group)]))
    (fun m st => st.1.same_capacity block ∧
      st.2 = (List.range m).map (fun e => (e, particles_per_event.getD e [])))
    events.length (block, []) ⟨⟨rfl, rfl, rfl, rfl⟩, rfl⟩
    (by
      intro m st hm ⟨h1, h2⟩
      obtain ⟨action, haction⟩ : ∃ action, action_per_event[m]? = some action :=
        ⟨_, List.getElem?_eq_getElem (by omega)⟩
      obtain ⟨group, hgroup⟩ : ∃ group, particles_per_event[m]? = some group :=
        ⟨_, List.getElem?_eq_getElem (by omega)⟩
      refine ⟨(action.execute ⟨st.1, group⟩, st.2 ++ [(m, group)]), by
        simp [haction, hgroup], ?_, ?_⟩
      · obtain ⟨a1, a2, a3, a4⟩ := hkeep m action hm haction ⟨st.1, group⟩
        obtain ⟨b1, b2, b3, b4⟩ := h1
        exact ⟨a1.trans b1, a2.trans b2, a3.trans b3, a4.trans b4⟩
      · simp [h2, List.range_succ, hgroup])
  exact ⟨st.1, st.2, hst, h1, h2⟩

/-! ## One iteration -/

theorem next_event_inv_index_range (particles : ParticleSet) (ideal_offsets : IdealOffsets)
    (durations : List ℚ) (end_time : ℚ) (events : List Event) (last : List ℚ)
    (next : List Int × List ℚ)
    (hinv : next_event_inv particles.size (fun e i t =>
        reports particles ideal_offsets durations end_time events e i t ∧
        ¬ retrigger_guard_discards durations end_time last i t) next) :
    ∀ (i : Nat) (k : Int), next.1[i]? = some k → k = -1 ∨ (0 ≤ k ∧ k.toNat < events.length) := by
  intro i k hk
  obtain ⟨hl1, _, hall⟩ := hinv
  have hi : i < particles.size := by
    rw [← hl1]
    exact (List.getElem?_eq_some.mp hk).1
  obtain ⟨k1, t, hk1, _, _, _, hwho⟩ := hall i hi
  rw [hk] at hk1
  cases hk1
  rcases hwho with ⟨_, h⟩ | ⟨_, e, he, ⟨⟨ev, hev, _⟩, _⟩, _⟩
  · exact Or.inl h
  · right
    have := (List.getElem?_eq_some.mp hev).1
    subst he
    exact ⟨by omega, by simpa using this⟩

theorem unfinished_sublist (particle_indices : List Nat) (next_event_indices : List Int)
    (kill_states : List Nat) :
    ((unfinished_positions particle_indices next_event_indices kill_states).map
      (fun i => particle_indices.getD i 0)).Sublist particle_indices := by
  have hall : (List.range particle_indices.length).map (fun i => particle_indices.getD i 0)
      = particle_indices := by
    apply List.ext_getElem?
    intro i
    by_cases hi : i < particle_indices.length
    · simp [List.getElem?_map, List.getElem?_range hi, List.getElem?_eq_getElem hi]
    · have hle : particle_indices.length ≤ i := not_lt.mp hi
      simp [List.getElem?_eq_none, hle]
  have h := List.Sublist.map (fun i => particle_indices.getD i 0)
    (List.filter_sublist (List.range particle_indices.length)
      (p := fun i => decide (next_event_indices[i]? ≠ some (-1)) &&
        decide ((particle_indices[i]?).bind (fun pindex => kill_states[pindex]?) = some 0)))
  rw [hall] at h
  exact h

theorem simulate_to_next_event_result (particles : ParticleSet) (durations : List ℚ)
    (end_time : ℚ) (particle_type : ParticleType) (last_event_times : List ℚ)
    (r_unfinished : List Nat) (r_remaining : List ℚ)
    (hin : particles.in_block)
    (hd : durations.length = particles.size)
    (hev : ∀ ev ∈ particle_type.events, ev.in_range)
    (hlast : 0 < last_event_times.length → particles.size ≤ last_event_times.length)
    (hact : particle_type.events.length ≤ particle_type.action_per_event.length)
    (hkeep : ∀ (e : Nat) (action : Action), e < particle_type.events.length →
      particle_type.action_per_event[e]? = some action → action.keeps_capacity) :
    ∃ offsets next block1 groups block2 calls,
      compute_ideal_attribute_offsets particles durations particle_type
        ⟨List.replicate particles.size 0, List.replicate particles.size 0⟩ = some offsets ∧
      find_next_event_per_particle particles offsets durations end_time particle_type.events
        last_event_times = some next ∧
      forward_particles_to_next_event particles offsets next.2 = some block1 ∧
      find_particles_per_event particles.indices next.1
        (List.replicate particle_type.events.length []) = some groups ∧
      run_actions block1 groups particle_type.events particle_type.action_per_event
        = some (block2, calls) ∧
      simulate_to_next_event particles durations end_time particle_type last_event_times
        r_unfinished r_remaining =
        some ⟨block2,
          r_unfinished ++ (unfinished_positions particles.indices next.1 block2.kill_states).map
            (fun i => particles.indices.getD i 0),
          r_remaining ++ (unfinished_positions particles.indices next.1 block2.kill_states).map
            (fun i => durations.getD i 0 * (1 - next.2.getD i 0)),
          calls⟩ ∧
      next_event_inv particles.size (fun e i t =>
        reports particles offsets durations end_time particle_type.events e i t ∧
        ¬ retrigger_guard_discards durations end_time last_event_times i t) next ∧
      (∀ i s, i < particles.size → particles.indices[i]? = some s →
        block1.positions[s]? = (particles.block.positions[s]?).map
          (fun p => p + next.2.getD i 0 * offsets.position_offsets.getD i 0) ∧
        block1.velocities[s]? = (particles.block.velocities[s]?).map
          (fun v => v + next.2.getD i 0 * offsets.velocity_offsets.getD i 0)) ∧
      (∀ e : Nat, e < particle_type.events.length → groups[e]? = some
        (((List.range particles.indices.length).filter
          (fun i => decide (next.1[i]? = some (e : Int)))).map
          (fun i => particles.indices.getD i 0))) ∧
      calls = (List.range particle_type.events.length).map (fun e => (e, groups.getD e [])) ∧
      block2.same_capacity particles.block := by
  obtain ⟨hnodup, hslots⟩ := hin
  have hpos : ∀ s ∈ particles.indices, s < particles.block.positions.length :=
    fun s hs => (hslots s hs).2.1
  have hvel : ∀ s ∈ particles.indices, s < particles.block.velocities.length :=
    fun s hs => (hslots s hs).2.2
  obtain ⟨offsets, hoffs, hol1, hol2, _⟩ := compute_ideal_attribute_offsets_result particles
    durations particle_type ⟨List.replicate particles.size 0, List.replicate particles.size 0⟩
    hd (by simp) (by simp) hvel
  obtain ⟨next, hnext, hinv⟩ := find_next_event_per_particle_inv particles offsets durations
    end_time particle_type.events last_event_times
    (fun ev hev1 => hev ev hev1 particles offsets durations end_time)
    (fun h => ⟨le_of_eq hd.symm, hlast h⟩)
  obtain ⟨block1, hfwd, hk1, hb1, _, hp1, hv1, hdone, _⟩ := forward_particles_result particles
    offsets next.2 hnodup hpos hvel hinv.2.1 hol1 hol2
  obtain ⟨groups, hgroups, hgl, hgall⟩ := find_particles_per_event_result particles.indices
    next.1 (List.replicate particle_type.events.length []) hinv.1
    (by
      intro i k hk
      simpa using next_event_inv_index_range particles offsets durations end_time
        particle_type.events last_event_times next hinv i k hk)
  obtain ⟨block2, calls, hrun, ⟨hk2, hb2, hp2, hv2⟩, hcalls⟩ := run_actions_result block1
    groups particle_type.events particle_type.action_per_event hact (by simp [hgl]) hkeep
  refine ⟨offsets, next, block1, groups, block2, calls, hoffs, hnext, hfwd, hgroups, hrun, ?_,
    hinv, hdone, ?_, hcalls,
    ⟨by rw [hk2, hk1], by rw [hb2, hb1], hp2.trans hp1, hv2.trans hv1⟩⟩
  · unfold simulate_to_next_event
    simp only [hoffs, hnext, hfwd, hgroups, hrun, Option.some_bind]
    rw [find_unfinished_particles_append particles.indices next.1 next.2 durations
      block2.kill_states (r_unfinished, r_remaining) hinv.1 hinv.2.1 hd
      (fun i s _ hs _ _ => by
        rw [hk2, hk1]
        exact (hslots s (List.getElem?_mem hs)).1)]
    rfl
  · intro e he
    rw [hgall e]
    simp [List.getElem?_replicate, he]

/-! ## Stepping without events -/

theorem unfinished_positions_none (particle_indices : List Nat) (kill_states : List Nat)
    (n : Nat) (hn : particle_indices.length ≤ n) :
    unfinished_positions particle_indices (List.replicate n (-1)) kill_states = [] := by
  unfold unfinished_positions
  rw [List.filter_eq_nil_iff]
  intro i hi
  have hi1 : i < n := lt_of_lt_of_le (List.mem_range.mp hi) hn
  simp [List.getElem?_replicate, hi1]

theorem simulate_ignoring_events_empty (block : ParticlesBlock) (particle_type : ParticleType) :
    simulate_ignoring_events ⟨block, []⟩ [] particle_type = some block := by
  simp [simulate_ignoring_events, compute_ideal_attribute_offsets,
    compute_combined_forces_on_particles, ParticleSet.size, ParticleSet.range]

theorem simulate_to_next_event_no_events (particles : ParticleSet) (durations : List ℚ)
    (end_time : ℚ) (particle_type : ParticleType) (last_event_times : List ℚ)
    (hev : particle_type.events = [])
    (hd : durations.length = particles.size)
    (hnodup : particles.indices.Nodup)
    (hpos : ∀ s ∈ particles.indices, s < particles.block.positions.length)
    (hvel : ∀ s ∈ particles.indices, s < particles.block.velocities.length) :
    ∃ block1, simulate_to_next_event particles durations end_time particle_type
        last_event_times [] [] = some ⟨block1, [], [], []⟩ ∧
      ∀ (i s : Nat) (d : ℚ) (p v : float3), particles.indices[i]? = some s →
        durations[i]? = some d →
        particles.block.positions[s]? = some p → particles.block.velocities[s]? = some v →
        block1.velocities[s]? = some (v + d * combined_force particles particle_type.forces i) ∧
        block1.positions[s]? = some (p + d * (v +
          ((1 / 2 : ℚ) * d) * combined_force particles particle_type.forces i)) := by
  obtain ⟨offsets, hoffs, hol1, hol2, hform⟩ := compute_ideal_attribute_offsets_result particles
    durations particle_type ⟨List.replicate particles.size 0, List.replicate particles.size 0⟩
    hd (by simp) (by simp) hvel
  obtain ⟨block1, hfwd, _, _, _, _, _, hdone, _⟩ := forward_particles_result particles offsets
    (List.replicate particles.size 1) hnodup hpos hvel (by simp) hol1 hol2
  have hgroups : find_particles_per_event particles.indices (List.replicate particles.size (-1))
      [] = some [] := by
    obtain ⟨groups, hg, hgl, _⟩ := find_particles_per_event_result particles.indices
      (List.replicate particles.size (-1)) [] (by simp [ParticleSet.size])
      (by
        intro i k hk
        left
        rw [List.getElem?_replicate] at hk
        split at hk
        · exact (Option.some.inj hk).symm
        · cases hk)
    rw [hg]
    simp at hgl
    rw [hgl]
  have hunf : find_unfinished_particles particles.indices (List.replicate particles.size (-1))
      (List.replicate particles.size 1) durations block1.kill_states ([], []) = some ([], []) := by
    rw [find_unfinished_particles_append particles.indices _ _ durations block1.kill_states
      ([], []) (by simp [ParticleSet.size]) (by simp [ParticleSet.size]) hd
      (by
        intro i s k _ hk hne
        rw [List.getElem?_replicate] at hk
        split at hk
        · exact absurd (Option.some.inj hk).symm hne
        · cases hk)]
    rw [unfinished_positions_none particles.indices block1.kill_states particles.size
      (le_refl particles.indices.length)]
    rfl
  refine ⟨block1, ?_, ?_⟩
  · unfold simulate_to_next_event
    simp only [hoffs, Option.some_bind, hev, find_next_event_per_particle,
      find_next_event_loop, hfwd, List.length_nil, List.replicate_zero, hgroups, run_actions,
      List.range_zero, List.foldlM, pure, hunf]
  · intro i s d p v hs hdi hp hv
    have hi : i < particles.size := (List.getElem?_eq_some.mp hs).1
    obtain ⟨h1, h2⟩ := hdone i s hi hs
    obtain ⟨f1, f2⟩ := hform i s d v hi hs hdi hv
    rw [hp] at h1
    rw [hv] at h2
    constructor
    · rw [h2]
      simp [List.getElem?_replicate, hi, f1, float3_one_mul]
    · rw [h1, ← (float3_offset_forms d v _).1]
      simp [List.getElem?_replicate, hi, f2, float3_one_mul]

/-- C10: for a particle type with no events, `step_individual_particles` over a
particle set (distinct slot indices inside the block) with duration `d` per
particle runs exactly one iteration of the event loop, leaves the unfinished
set empty, changes nothing in the final pass, and changes the velocity of every
particle by `d * F` and its position by `d * (v + 0.5 * d * F)`; with the single
force `(0, -9.8, 0)` and `d = 1` the `y` component of the velocity decreases by
`9.8`. -/
theorem step_individual_particles_no_events (particles : ParticleSet) (d end_time : ℚ)
    (particle_type : ParticleType)
    (hev : particle_type.events = [])
    (hnodup : particles.indices.Nodup)
    (hpos : ∀ s ∈ particles.indices, s < particles.block.positions.length)
    (hvel : ∀ s ∈ particles.indices, s < particles.block.velocities.length) :
    ∃ result, step_individual_particles particles (List.replicate particles.size d) end_time
        particle_type = some result ∧
      result.event_loop.iterations = 1 ∧
      result.event_loop.unfinished_particle_indices = [] ∧
      result.block = result.event_loop.block ∧
      (∀ (i s : Nat) (p v : float3), particles.indices[i]? = some s →
        particles.block.positions[s]? = some p → particles.block.velocities[s]? = some v →
        result.block.velocities[s]? =
          some (v + d * combined_force particles particle_type.forces i) ∧
        result.block.positions[s]? = some (p + d * (v +
          ((1 / 2 : ℚ) * d) * combined_force particles particle_type.forces i))) ∧
      (particle_type.forces = [gravity] → d = 1 →
        ∀ (i s : Nat) (v : float3), particles.indices[i]? = some s →
          particles.block.velocities[s]? = some v →
          ∃ v1, result.block.velocities[s]? = some v1 ∧ v1.y = v.y - 49 / 5) := by
  obtain ⟨block1, hstep, hform⟩ := simulate_to_next_event_no_events particles
    (List.replicate particles.size d) end_time particle_type [] hev (by simp) hnodup hpos hvel
  have hall : ∀ (i s : Nat) (p v : float3), particles.indices[i]? = some s →
      particles.block.positions[s]? = some p → particles.block.velocities[s]? = some v →
      block1.velocities[s]? = some (v + d * combined_force particles particle_type.forces i) ∧
      block1.positions[s]? = some (p + d * (v +
        ((1 / 2 : ℚ) * d) * combined_force particles particle_type.forces i)) := by
    intro i s p v hs hp hv
    have hi : i < particles.size := (List.getElem?_eq_some.mp hs).1
    exact hform i s d p v hs (by simp [List.getElem?_replicate, hi]) hp hv
  refine ⟨⟨block1, ⟨block1, [], [], 1⟩⟩, ?_, rfl, rfl, rfl, hall, ?_⟩
  · simp [step_individual_particles, simulate_with_max_n_events,
      simulate_with_max_n_events_loop, hstep, simulate_ignoring_events_empty]
  · intro hforces hd1 i s v hs hv
    obtain ⟨p, hp⟩ : ∃ p, particles.block.positions[s]? = some p :=
      ⟨_, List.getElem?_eq_getElem (hpos s (List.getElem?_mem hs))⟩
    refine ⟨_, (hall i s p v hs hp hv).1, ?_⟩
    rw [hforces, hd1]
    simp [combined_force, gravity, float3_add_def, float3_scale_def]
    show v.y + (0 + -49 / 5) = v.y - 49 / 5
    ring

/-- Witness for C10: gravity alone on both particles of the two-slot block. -/
theorem step_individual_particles_no_events_witness :
    ∃ result, step_individual_particles ⟨sample_block, [0, 1]⟩ (List.replicate 2 1) 1
        ⟨[gravity], [], []⟩ = some result ∧
      result.event_loop.iterations = 1 ∧
      result.event_loop.unfinished_particle_indices = [] ∧
      result.block = result.event_loop.block ∧
      (∀ (i s : Nat) (p v : float3), ([0, 1] : List Nat)[i]? = some s →
        sample_block.positions[s]? = some p → sample_block.velocities[s]? = some v →
        result.block.velocities[s]? =
          some (v + (1 : ℚ) * combined_force ⟨sample_block, [0, 1]⟩ [gravity] i) ∧
        result.block.positions[s]? = some (p + (1 : ℚ) * (v +
          ((1 / 2 : ℚ) * 1) * combined_force ⟨sample_block, [0, 1]⟩ [gravity] i))) ∧
      ([gravity] = [gravity] → (1 : ℚ) = 1 →
        ∀ (i s : Nat) (v : float3), ([0, 1] : List Nat)[i]? = some s →
          sample_block.velocities[s]? = some v →
          ∃ v1, result.block.velocities[s]? = some v1 ∧ v1.y = v.y - 49 / 5) :=
  step_individual_particles_no_events ⟨sample_block, [0, 1]⟩ 1 1 ⟨[gravity], [], []⟩ rfl
    (by decide) (by decide) (by decide)

/-! ## The final event-free pass -/

/-- C7 (code as written): for the one-element particle set `[1]` of the
two-slot block, with one remaining duration, `simulate_ignoring_events` fails
with an out-of-range read: its loop variable runs over the slot indices
(line 280) and is then used as a position of the set, so position `1` of a
one-element set is read.  On the full set `[0, 1]`, where slot indices and
positions coincide, the pass succeeds. -/
theorem simulate_ignoring_events_slot_index_as_position :
    simulate_ignoring_events ⟨sample_block, [1]⟩ [1 / 1024] ⟨[], [], []⟩ = none ∧
    ParticleSet.get_particle_index ⟨sample_block, [1]⟩ 1 = none ∧
    simulate_ignoring_events ⟨sample_block, [0, 1]⟩ [1, 1] ⟨[], [], []⟩ =
      some ⟨[0, 0], [0, 0], [⟨1, 0, 0⟩, ⟨2, 0, 0⟩], [⟨1, 0, 0⟩, ⟨2, 0, 0⟩], 2⟩ := by
  decide!

/-- C8 (code as written): both particles of the two-slot block are stepped for
duration `1`; an event fires for the particle in slot `1` at half of its
remaining duration in every iteration and its action changes nothing.  The
capped loop ends after `10` iterations with that particle alive, unfinished and
`1/1024` of its duration still to cover, and the final pass of
`step_individual_particles` then fails on the set `[1]` instead of covering
it. -/
theorem step_individual_particles_cap_reached :
    simulate_with_max_n_events 10 ⟨sample_block, [0, 1]⟩ [1, 1] 1
        ⟨[], [event_slot_one_half], [action_nothing]⟩ [] [] =
      some ⟨⟨[0, 0], [0, 0], [⟨1, 0, 0⟩, ⟨1023 / 512, 0, 0⟩], [⟨1, 0, 0⟩, ⟨2, 0, 0⟩], 2⟩,
        [1], [1 / 1024], 10⟩ ∧
    step_individual_particles ⟨sample_block, [0, 1]⟩ [1, 1] 1
        ⟨[], [event_slot_one_half], [action_nothing]⟩ = none := by
  decide!

/-! ## Tie-break between events -/

theorem event_all_half_in_range : event_all_half.in_range := by
  intro particles _ _ _ c hc
  simp only [event_all_half, ParticleSet.range, List.mem_map, List.mem_range] at hc
  obtain ⟨a, ha, rfl⟩ := hc
  exact ha

theorem event_all_half_factor (particles : ParticleSet) (ideal_offsets : IdealOffsets)
    (durations : List ℚ) (end_time : ℚ) (i : Nat) (t : ℚ)
    (h : (i, t) ∈ event_all_half.filter particles ideal_offsets durations end_time) :
    t = 1 / 2 := by
  simp only [event_all_half, List.mem_map, Prod.mk.injEq] at h
  obtain ⟨_, _, _, ht⟩ := h
  exact ht.symm

theorem action_nothing_keeps_capacity : action_nothing.keeps_capacity :=
  fun _ => ⟨rfl, rfl, rfl, rfl⟩

theorem tie_particle_type_events (ev : Event) (h : ev ∈ tie_particle_type.events) :
    ev = event_all_half := by
  simp only [tie_particle_type, List.mem_cons, List.mem_singleton, or_self, List.not_mem_nil,
    or_false] at h
  exact h

theorem tie_particle_type_keeps (e : Nat) (action : Action)
    (h : tie_particle_type.action_per_event[e]? = some action) : action.keeps_capacity := by
  have hm := List.getElem?_mem h
  simp only [tie_particle_type, List.mem_cons, List.mem_singleton, or_self, List.not_mem_nil,
    or_false] at hm
  rw [hm]
  exact action_nothing_keeps_capacity

theorem simulate_with_max_n_events_loop_step (end_time : ℚ) (particle_type : ParticleType)
    (todo iteration : Nat) (block : ParticlesBlock) (indices : List Nat)
    (durations last : List ℚ) (ru : List Nat) (rr : List ℚ) (r : NextEventResult)
    (h : simulate_to_next_event ⟨block, indices⟩ durations end_time particle_type last [] []
      = some r)
    (hlen : r.unfinished_particle_indices.length = r.remaining_durations.length) :
    simulate_with_max_n_events_loop end_time particle_type (todo + 1) iteration block indices
        durations last ru rr =
      if r.unfinished_particle_indices.length = 0 then
        some ⟨r.block, r.unfinished_particle_indices, r.remaining_durations, iteration + 1⟩
      else
        simulate_with_max_n_events_loop end_time particle_type todo (iteration + 1) r.block
          r.unfinished_particle_indices r.remaining_durations
          (r.remaining_durations.map fun duration => end_time - duration)
          r.unfinished_particle_indices r.remaining_durations := by
  simp only [simulate_with_max_n_events_loop, h, Option.some_bind, hlen, if_true]

theorem simulate_to_next_event_next_set (particles : ParticleSet) (durations : List ℚ)
    (end_time : ℚ) (particle_type : ParticleType) (last_event_times : List ℚ)
    (hin : particles.in_block)
    (hd : durations.length = particles.size)
    (hev : ∀ ev ∈ particle_type.events, ev.in_range)
    (hlast : 0 < last_event_times.length → particles.size ≤ last_event_times.length)
    (hact : particle_type.events.length ≤ particle_type.action_per_event.length)
    (hkeep : ∀ (e : Nat) (action : Action), e < particle_type.events.length →
      particle_type.action_per_event[e]? = some action → action.keeps_capacity)
    (r : NextEventResult)
    (h : simulate_to_next_event particles durations end_time particle_type last_event_times
      [] [] = some r) :
    r.unfinished_particle_indices.Sublist particles.indices ∧
    r.remaining_durations.length = r.unfinished_particle_indices.length ∧
    r.block.same_capacity particles.block ∧
    ParticleSet.in_block ⟨r.block, r.unfinished_particle_indices⟩ := by
  obtain ⟨offsets, next, block1, groups, block2, calls, _, _, _, _, _, hres, _, _, _, _, hcap⟩ :=
    simulate_to_next_event_result particles durations end_time particle_type last_event_times
      [] [] hin hd hev hlast hact hkeep
  rw [h] at hres
  cases hres
  have hsub := unfinished_sublist particles.indices next.1 block2.kill_states
  refine ⟨by simpa using hsub, by simp, hcap, ?_, ?_⟩
  · simpa using hsub.nodup hin.1
  · intro s hs
    have hs1 : s ∈ particles.indices := hsub.subset (by simpa using hs)
    obtain ⟨h1, h2, h3⟩ := hin.2 s hs1
    obtain ⟨c1, _, c3, c4⟩ := hcap
    exact ⟨by show s < block2.kill_states.length; omega,
      by show s < block2.positions.length; omega,
      by show s < block2.velocities.length; omega⟩

/-- C4: in `simulate_with_max_n_events`, let a particle (slot `s`) be
unfinished after one iteration, at position `j` of the unfinished list with
remaining duration `d`, and let every candidate reported for it in the next
iteration have time factor `0`.  The next iteration of the loop is run on the
unfinished list with last-event times `end_time - remaining duration`; in it
the trigger time `end_time - d * (1 - 0)` is the recorded last-event time, the
retrigger guard discards the candidate, the particle gets next-event index
`-1` and time factor `1`, `forward_particles_to_next_event` advances it by its
full ideal offsets, and it is not in the unfinished set afterwards. -/
theorem simulate_with_max_n_events_retrigger_guard (end_time : ℚ)
    (particle_type : ParticleType) (block0 : ParticlesBlock) (indices0 : List Nat)
    (durations0 last0 : List ℚ) (todo iteration : Nat) (ru : List Nat) (rr : List ℚ)
    (hin : ParticleSet.in_block ⟨block0, indices0⟩)
    (hd : durations0.length = indices0.length)
    (hev : ∀ ev ∈ particle_type.events, ev.in_range)
    (hlast : 0 < last0.length → indices0.length ≤ last0.length)
    (hact : particle_type.events.length ≤ particle_type.action_per_event.length)
    (hkeep : ∀ (e : Nat) (action : Action), e < particle_type.events.length →
      particle_type.action_per_event[e]? = some action → action.keeps_capacity)
    (r0 : NextEventResult)
    (h0 : simulate_to_next_event ⟨block0, indices0⟩ durations0 end_time particle_type last0
      [] [] = some r0)
    (j s : Nat) (d : ℚ)
    (hj : r0.unfinished_particle_indices[j]? = some s)
    (hdj : r0.remaining_durations[j]? = some d)
    (offsets : IdealOffsets)
    (hoffsets : compute_ideal_attribute_offsets ⟨r0.block, r0.unfinished_particle_indices⟩
      r0.remaining_durations particle_type
      ⟨List.replicate r0.unfinished_particle_indices.length 0,
        List.replicate r0.unfinished_particle_indices.length 0⟩ = some offsets)
    (hzero : ∀ e t, reports ⟨r0.block, r0.unfinished_particle_indices⟩ offsets
      r0.remaining_durations end_time particle_type.events e j t → t = 0) :
    ∃ next block1 r1,
      find_next_event_per_particle ⟨r0.block, r0.unfinished_particle_indices⟩ offsets
        r0.remaining_durations end_time particle_type.events
        (r0.remaining_durations.map fun duration => end_time - duration) = some next ∧
      forward_particles_to_next_event ⟨r0.block, r0.unfinished_particle_indices⟩ offsets
        next.2 = some block1 ∧
      simulate_to_next_event ⟨r0.block, r0.unfinished_particle_indices⟩
        r0.remaining_durations end_time particle_type
        (r0.remaining_durations.map fun duration => end_time - duration) [] [] = some r1 ∧
      simulate_with_max_n_events_loop end_time particle_type (todo + 2) iteration block0
          indices0 durations0 last0 ru rr =
        (if r1.unfinished_particle_indices.length = 0 then
          some ⟨r1.block, r1.unfinished_particle_indices, r1.remaining_durations,
            iteration + 2⟩
        else
          simulate_with_max_n_events_loop end_time particle_type todo (iteration + 2)
            r1.block r1.unfinished_particle_indices r1.remaining_durations
            (r1.remaining_durations.map fun duration => end_time - duration)
            r1.unfinished_particle_indices r1.remaining_durations) ∧
      (r0.remaining_durations.map fun duration => end_time - duration)[j]? =
        some (end_time - d * (1 - 0)) ∧
      retrigger_guard_discards r0.remaining_durations end_time
        (r0.remaining_durations.map fun duration => end_time - duration) j 0 ∧
      next.1[j]? = some (-1) ∧ next.2[j]? = some 1 ∧
      (∀ (p v po vo : float3), r0.block.positions[s]? = some p →
        r0.block.velocities[s]? = some v → offsets.position_offsets[j]? = some po →
        offsets.velocity_offsets[j]? = some vo →
        block1.positions[s]? = some (p + po) ∧ block1.velocities[s]? = some (v + vo)) ∧
      s ∉ r1.unfinished_particle_indices := by
  obtain ⟨_, hlen0, _, hin1⟩ := simulate_to_next_event_next_set ⟨block0, indices0⟩ durations0
    end_time particle_type last0 hin hd hev hlast hact hkeep r0 h0
  have hjlt : j < r0.unfinished_particle_indices.length := (List.getElem?_eq_some.mp hj).1
  have hlast1 : (r0.remaining_durations.map fun duration => end_time - duration).length
      = r0.unfinished_particle_indices.length := by
    rw [List.length_map, hlen0]
  obtain ⟨offsets1, next, block1, groups, block2, calls, hoffs, hnext, hfwd, _, _, hres, hinv,
    hdone, _, _, _⟩ := simulate_to_next_event_result
    ⟨r0.block, r0.unfinished_particle_indices⟩ r0.remaining_durations end_time particle_type
    (r0.remaining_durations.map fun duration => end_time - duration) [] [] hin1 hlen0 hev
    (fun _ => le_of_eq hlast1.symm) hact hkeep
  rw [show (ParticleSet.mk r0.block r0.unfinished_particle_indices).size
    = r0.unfinished_particle_indices.length from rfl, hoffsets] at hoffs
  cases hoffs
  have hlastj : (r0.remaining_durations.map fun duration => end_time - duration)[j]? =
      some (end_time - d * (1 - 0)) := by
    rw [List.getElem?_map, hdj]
    simp
  have hdisc : retrigger_guard_discards r0.remaining_durations end_time
      (r0.remaining_durations.map fun duration => end_time - duration) j 0 := by
    refine ⟨by rw [hlast1]; omega, d, _, hdj, hlastj, ?_⟩
    norm_num
  have hlen1 : ([] ++ (unfinished_positions r0.unfinished_particle_indices next.1
      block2.kill_states).map (fun i => r0.unfinished_particle_indices.getD i 0)).length =
      ([] ++ (unfinished_positions r0.unfinished_particle_indices next.1
      block2.kill_states).map
        (fun i => r0.remaining_durations.getD i 0 * (1 - next.2.getD i 0))).length := by
    simp
  obtain ⟨k, t, hk, ht, _, _, hwho⟩ := hinv.2.2 j hjlt
  have hnone : k = -1 ∧ t = 1 := by
    rcases hwho with ⟨h1, h2⟩ | ⟨_, e, _, ⟨hre, hnd⟩, _⟩
    · exact ⟨h2, h1⟩
    · have ht0 : t = 0 := hzero e t hre
      rw [ht0] at hnd
      exact absurd hdisc hnd
  obtain ⟨hk1, ht1⟩ := hnone
  subst hk1
  subst ht1
  refine ⟨next, block1, _, hnext, hfwd, hres, ?_, hlastj, hdisc, hk, ht, ?_, ?_⟩
  · have hne : r0.unfinished_particle_indices.length ≠ 0 := by omega
    rw [simulate_with_max_n_events_loop_step end_time particle_type (todo + 1) iteration block0
      indices0 durations0 last0 ru rr r0 h0 hlen0.symm, if_neg hne,
      simulate_with_max_n_events_loop_step end_time particle_type todo (iteration + 1) r0.block
      r0.unfinished_particle_indices r0.remaining_durations _ _ _ _ hres hlen1]
  · intro p v po vo hp hv hpo hvo
    obtain ⟨h1, h2⟩ := hdone j s hjlt hj
    rw [h1, h2]
    simp [hp, hv, hpo, hvo, ht, float3_one_mul]
  · intro hmem
    simp only [List.nil_append, List.mem_map] at hmem
    obtain ⟨i1, hi1, hsi1⟩ := hmem
    unfold unfinished_positions at hi1
    rw [List.mem_filter] at hi1
    obtain ⟨hr1, hw1⟩ := hi1
    have hlt1 : i1 < r0.unfinished_particle_indices.length := List.mem_range.mp hr1
    have hs1 : r0.unfinished_particle_indices[i1]? = some s := by
      rw [List.getElem?_eq_getElem hlt1]
      simp [List.getD_eq_getElem?_getD, List.getElem?_eq_getElem hlt1] at hsi1
      rw [hsi1]
    have hii : i1 = j := by
      by_contra hne
      rcases Nat.lt_or_gt_of_ne hne with h | h
      · exact List.nodup_iff_getElem?_ne_getElem?.mp hin1.1 i1 j h hjlt (hs1.trans hj.symm)
      · exact List.nodup_iff_getElem?_ne_getElem?.mp hin1.1 j i1 h hlt1 (hj.trans hs1.symm)
    rw [hii] at hw1
    simp [hk] at hw1

theorem event_all_zero_in_range : event_all_zero.in_range := by
  intro particles _ _ _ c hc
  simp only [event_all_zero, ParticleSet.range, List.mem_map, List.mem_range] at hc
  obtain ⟨a, ha, rfl⟩ := hc
  exact ha

theorem retrigger_particle_type_events (ev : Event)
    (h : ev ∈ retrigger_particle_type.events) : ev = event_all_zero := by
  simp only [retrigger_particle_type, List.mem_singleton] at h
  exact h

theorem retrigger_particle_type_keeps (e : Nat) (action : Action)
    (h : retrigger_particle_type.action_per_event[e]? = some action) :
    action.keeps_capacity := by
  have hm := List.getElem?_mem h
  simp only [retrigger_particle_type, List.mem_singleton] at hm
  rw [hm]
  exact action_nothing_keeps_capacity

/-- Witness for C4: both particles of the two-slot block fire the event at time
factor `0` in the first iteration of `simulate_with_max_n_events 10`; in the
second iteration the event reports `0` again and the particle in slot `1` is
not unfinished afterwards. -/
theorem simulate_with_max_n_events_retrigger_guard_witness :
    simulate_to_next_event ⟨sample_block, [0, 1]⟩ [1, 1] 1 retrigger_particle_type [] [] []
      = some ⟨sample_block, [0, 1], [1, 1], [(0, [0, 1])]⟩ ∧
    ∃ r1, simulate_to_next_event ⟨sample_block, [0, 1]⟩ [1, 1] 1 retrigger_particle_type
        (([1, 1] : List ℚ).map fun duration => 1 - duration) [] [] = some r1 ∧
      1 ∉ r1.unfinished_particle_indices := by
  have h0 : simulate_to_next_event ⟨sample_block, [0, 1]⟩ [1, 1] 1 retrigger_particle_type
      [] [] [] = some ⟨sample_block, [0, 1], [1, 1], [(0, [0, 1])]⟩ := by decide!
  obtain ⟨_, _, r1, _, _, h1, _, _, _, _, _, _, hnot⟩ :=
    simulate_with_max_n_events_retrigger_guard 1 retrigger_particle_type sample_block [0, 1]
      [1, 1] [] 8 0 [] [] ⟨by decide, by decide⟩ (by decide)
      (fun ev h => by rw [retrigger_particle_type_events ev h]; exact event_all_zero_in_range)
      (fun h => absurd h (by decide)) (by decide)
      (fun e action _ h => retrigger_particle_type_keeps e action h)
      ⟨sample_block, [0, 1], [1, 1], [(0, [0, 1])]⟩ h0 1 1 1 (by decide) (by decide!)
      ⟨[⟨1, 0, 0⟩, ⟨2, 0, 0⟩], [⟨0, 0, 0⟩, ⟨0, 0, 0⟩]⟩ (by decide!)
      (fun e t ⟨ev, hev, hm⟩ => by
        rw [retrigger_particle_type_events ev (List.getElem?_mem hev)] at hm
        simp only [event_all_zero, List.mem_map, Prod.mk.injEq] at hm
        obtain ⟨_, _, _, ht⟩ := hm
        exact ht.symm)
  exact ⟨h0, r1, h1, hnot⟩

/-! ## Agreement of the two outputs -/

/-- C20: for every input of `find_next_event_per_particle`, with or without
last-event times (reported indices are positions of the set, and recorded
last-event times and durations cover the set), the two output arrays have the
size of the set and agree at every position `i`: the next-event index is `-1`
exactly when the time factor is `1`; otherwise the index is the number of an
event of the list, that event reported the recorded time factor for `i`, and
the time factor is below `1`.  In particular an event whose reports for `i` all
have time factor `1` is not the next event of `i`. -/
theorem find_next_event_per_particle_outputs_agree (particles : ParticleSet)
    (ideal_offsets : IdealOffsets) (durations : List ℚ) (end_time : ℚ) (events : List Event)
    (last_event_times : List ℚ)
    (hrange : ∀ ev ∈ events, ∀ c ∈ ev.filter particles ideal_offsets durations end_time,
      c.1 < particles.size)
    (hlen : 0 < last_event_times.length →
      particles.size ≤ durations.length ∧ particles.size ≤ last_event_times.length) :
    ∃ next_event_indices time_factors,
      find_next_event_per_particle particles ideal_offsets durations end_time events
        last_event_times = some (next_event_indices, time_factors) ∧
      next_event_indices.length = particles.size ∧ time_factors.length = particles.size ∧
      ∀ i, i < particles.size → ∃ k t,
        next_event_indices[i]? = some k ∧ time_factors[i]? = some t ∧
        (k = -1 ↔ t = 1) ∧
        (k ≠ -1 → 0 ≤ k ∧ k.toNat < events.length ∧ t < 1 ∧
          reports particles ideal_offsets durations end_time events k.toNat i t) ∧
        (∀ e : Nat, (∀ t1, reports particles ideal_offsets durations end_time events e i t1 →
          t1 = 1) → k ≠ (e : Int)) := by
  obtain ⟨r, hr, hl1, hl2, hall⟩ := find_next_event_per_particle_inv particles ideal_offsets
    durations end_time events last_event_times hrange hlen
  refine ⟨r.1, r.2, hr, hl1, hl2, ?_⟩
  intro i hi
  obtain ⟨k, t, hk, ht, _, _, hwho⟩ := hall i hi
  refine ⟨k, t, hk, ht, ?_, ?_, ?_⟩
  · rcases hwho with ⟨h1, h2⟩ | ⟨hlt, e, he, _, _⟩
    · exact ⟨fun _ => h1, fun _ => h2⟩
    · constructor
      · intro h
        rw [he] at h
        omega
      · intro h
        exact absurd h (ne_of_lt hlt)
  · intro hne
    rcases hwho with ⟨_, h2⟩ | ⟨hlt, e, he, ⟨⟨ev, hev, hm⟩, _⟩, _⟩
    · exact absurd h2 hne
    · subst he
      have hlen1 := (List.getElem?_eq_some.mp hev).1
      exact ⟨by omega, by simpa using hlen1, hlt, ⟨ev, by simpa using hev, hm⟩⟩
  · intro e hone
    rcases hwho with ⟨_, h2⟩ | ⟨hlt, e1, he1, ⟨hre, _⟩, _⟩
    · rw [h2]
      omega
    · intro hke
      have : e1 = e := by
        rw [he1] at hke
        exact_mod_cast hke
      rw [this] at hre
      exact absurd (hone t hre) (ne_of_lt hlt)

/-- Witness for C20: two positions, an event reporting `0.5` everywhere and an
event reporting `0.25` for position `0`, with recorded last-event times. -/
theorem find_next_event_per_particle_outputs_agree_witness :
    ∃ next_event_indices time_factors,
      find_next_event_per_particle ⟨sample_block, [0, 1]⟩ ⟨[], []⟩ [1, 1] 1
        [event_all_half, event_first_quarter] [0, 0] = some (next_event_indices, time_factors) ∧
      next_event_indices.length = 2 ∧ time_factors.length = 2 ∧
      ∀ i, i < 2 → ∃ k t,
        next_event_indices[i]? = some k ∧ time_factors[i]? = some t ∧
        (k = -1 ↔ t = 1) ∧
        (k ≠ -1 → 0 ≤ k ∧ k.toNat < 2 ∧ t < 1 ∧
          reports ⟨sample_block, [0, 1]⟩ ⟨[], []⟩ [1, 1] 1
            [event_all_half, event_first_quarter] k.toNat i t) ∧
        (∀ e : Nat, (∀ t1, reports ⟨sample_block, [0, 1]⟩ ⟨[], []⟩ [1, 1] 1
          [event_all_half, event_first_quarter] e i t1 → t1 = 1) → k ≠ (e : Int)) :=
  find_next_event_per_particle_outputs_agree ⟨sample_block, [0, 1]⟩ ⟨[], []⟩ [1, 1] 1
    [event_all_half, event_first_quarter] [0, 0] (by decide) (fun _ => by decide)

/-! ## Partition by winning event -/

theorem map_getD_range (xs : List Nat) :
    (List.range xs.length).map (fun i => xs.getD i 0) = xs := by
  apply List.ext_getElem?
  intro i
  by_cases hi : i < xs.length
  · simp [List.getElem?_map, List.getElem?_range hi, List.getElem?_eq_getElem hi]
  · have hle : xs.length ≤ i := not_lt.mp hi
    simp [List.getElem?_eq_none, hle]

theorem sum_indicator_range (m a : Nat) :
    ((List.range m).map (fun e => if e = a then 1 else 0)).sum = if a < m then 1 else 0 := by
  induction m with
  | zero => simp
  | succ m ih =>
    rw [List.range_succ, List.map_append, List.sum_append, ih]
    by_cases h1 : a < m
    · have h2 : m ≠ a := by omega
      have h3 : a < m + 1 := by omega
      simp [h1, h2, h3]
    · by_cases h2 : m = a
      · have h3 : a < m + 1 := by omega
        simp [h1, h2, h3]
      · have h3 : ¬ a < m + 1 := by omega
        simp [h1, h2, h3]

theorem sum_group_sizes (next_event_indices : List Int) (m : Nat)
    (hvalid : ∀ (i : Nat) (k : Int), next_event_indices[i]? = some k →
      k = -1 ∨ (0 ≤ k ∧ k.toNat < m)) :
    ∀ (positions : List Nat), (∀ i ∈ positions, i < next_event_indices.length) →
      ((List.range m).map (fun e : Nat => (positions.filter
        (fun i => decide (next_event_indices[i]? = some (e : Int)))).length)).sum =
      (positions.filter (fun i => decide (next_event_indices[i]? ≠ some (-1)))).length := by
  intro positions
  induction positions with
  | nil => simp
  | cons i rest ih =>
    intro hpos
    have hrest := ih (fun j hj => hpos j (List.mem_cons_of_mem _ hj))
    obtain ⟨k, hk⟩ : ∃ k, next_event_indices[i]? = some k :=
      ⟨_, List.getElem?_eq_getElem (hpos i (List.mem_cons_self _ _))⟩
    have hsplit : ∀ e : Nat, ((i :: rest).filter
        (fun i => decide (next_event_indices[i]? = some (e : Int)))).length =
        (rest.filter (fun i => decide (next_event_indices[i]? = some (e : Int)))).length +
          (if k = (e : Int) then 1 else 0) := by
      intro e
      by_cases h : k = (e : Int)
      · simp [List.filter_cons, hk, h]
      · simp [List.filter_cons, hk, h]
    simp only [hsplit]
    rw [List.sum_map_add, hrest]
    rcases hvalid i k hk with h1 | ⟨h0, hlt⟩
    · have hz : ∀ e : Nat, ¬ (k = (e : Int)) := by
        intro e
        omega
      simp [List.filter_cons, hk, h1, hz]
    · have hne : k ≠ -1 := by omega
      have hind : ∀ e : Nat, (if k = (e : Int) then 1 else 0) = if e = k.toNat then 1 else 0 := by
        intro e
        by_cases h : e = k.toNat
        · have h2 : k = (e : Int) := by omega
          rw [if_pos h, if_pos h2]
        · have h2 : ¬ k = (e : Int) := by omega
          rw [if_neg h, if_neg h2]
      simp only [hind]
      rw [sum_indicator_range m k.toNat]
      simp [List.filter_cons, hk, hne, hlt]

/-- C17: started with `m` empty groups, on a particle set with distinct slot
indices whose next-event indices are `-1` or event numbers below `m`,
`find_particles_per_event` returns `m` groups such that group `e` lists, in the
order of the input set, the slot indices of exactly the positions with
next-event index `e`: a particle with next-event index `k` different from `-1`
occurs once in group `k` and in no other group, a particle with next-event
index `-1` occurs in no group, the group sizes sum to the number of triggered
particles, and each group is a sublist of the input set. -/
theorem find_particles_per_event_partition (particle_indices : List Nat)
    (next_event_indices : List Int) (m : Nat)
    (hn : next_event_indices.length = particle_indices.length)
    (hvalid : ∀ (i : Nat) (k : Int), next_event_indices[i]? = some k →
      k = -1 ∨ (0 ≤ k ∧ k.toNat < m))
    (hnodup : particle_indices.Nodup) :
    ∃ groups, find_particles_per_event particle_indices next_event_indices
        (List.replicate m []) = some groups ∧
      groups.length = m ∧
      (∀ e : Nat, e < m → groups[e]? = some
        (((List.range particle_indices.length).filter
          (fun i => decide (next_event_indices[i]? = some (e : Int)))).map
          (fun i => particle_indices.getD i 0))) ∧
      (∀ (i s : Nat) (k : Int), particle_indices[i]? = some s →
        next_event_indices[i]? = some k → k ≠ -1 →
        ∀ (e : Nat) (g : List Nat), groups[e]? = some g →
          g.count s = if k = (e : Int) then 1 else 0) ∧
      (∀ (i s : Nat), particle_indices[i]? = some s → next_event_indices[i]? = some (-1) →
        ∀ g ∈ groups, s ∉ g) ∧
      (groups.map List.length).sum = ((List.range particle_indices.length).filter
        (fun i => decide (next_event_indices[i]? ≠ some (-1)))).length ∧
      (∀ g ∈ groups, g.Sublist particle_indices) := by
  obtain ⟨groups, hg, hgl, hgall⟩ := find_particles_per_event_result particle_indices
    next_event_indices (List.replicate m []) hn (by simpa using hvalid)
  have hlen : groups.length = m := by simpa using hgl
  have hclosed : ∀ e : Nat, e < m → groups[e]? = some
      (((List.range particle_indices.length).filter
        (fun i => decide (next_event_indices[i]? = some (e : Int)))).map
        (fun i => particle_indices.getD i 0)) := by
    intro e he
    rw [hgall e]
    simp [List.getElem?_replicate, he]
  have hsub : ∀ e : Nat, (((List.range particle_indices.length).filter
      (fun i => decide (next_event_indices[i]? = some (e : Int)))).map
      (fun i => particle_indices.getD i 0)).Sublist particle_indices := by
    intro e
    have h := List.Sublist.map (fun i => particle_indices.getD i 0)
      (List.filter_sublist (List.range particle_indices.length)
        (p := fun i => decide (next_event_indices[i]? = some (e : Int))))
    rw [map_getD_range] at h
    exact h
  -- membership in a group determines the next-event index of the particle
  have hmem : ∀ (i s e : Nat), particle_indices[i]? = some s →
      (s ∈ ((List.range particle_indices.length).filter
        (fun i => decide (next_event_indices[i]? = some (e : Int)))).map
        (fun i => particle_indices.getD i 0) ↔ next_event_indices[i]? = some (e : Int)) := by
    intro i s e hs
    have hi : i < particle_indices.length := (List.getElem?_eq_some.mp hs).1
    constructor
    · intro h
      rw [List.mem_map] at h
      obtain ⟨i1, hi1, hsi1⟩ := h
      rw [List.mem_filter] at hi1
      obtain ⟨hr1, hw1⟩ := hi1
      have hlt1 : i1 < particle_indices.length := List.mem_range.mp hr1
      have hs1 : particle_indices[i1]? = some s := by
        rw [List.getElem?_eq_getElem hlt1]
        simp [List.getD_eq_getElem?_getD, List.getElem?_eq_getElem hlt1] at hsi1
        rw [hsi1]
      have hii : i1 = i := by
        by_contra hne
        rcases Nat.lt_or_gt_of_ne hne with h | h
        · exact List.nodup_iff_getElem?_ne_getElem?.mp hnodup i1 i h hi (hs1.trans hs.symm)
        · exact List.nodup_iff_getElem?_ne_getElem?.mp hnodup i i1 h hlt1 (hs.trans hs1.symm)
      rw [hii] at hw1
      simpa using hw1
    · intro h
      rw [List.mem_map]
      refine ⟨i, ?_, by simp [hs]⟩
      rw [List.mem_filter]
      exact ⟨List.mem_range.mpr hi, by simp [h]⟩
  have hgroup : ∀ (e : Nat) (g : List Nat), groups[e]? = some g → e < m ∧
      g = ((List.range particle_indices.length).filter
        (fun i => decide (next_event_indices[i]? = some (e : Int)))).map
        (fun i => particle_indices.getD i 0) := by
    intro e g hge
    have he : e < m := by
      rw [← hlen]
      exact (List.getElem?_eq_some.mp hge).1
    rw [hclosed e he] at hge
    exact ⟨he, (Option.some.inj hge).symm⟩
  refine ⟨groups, hg, hlen, hclosed, ?_, ?_, ?_, ?_⟩
  · intro i s k hs hk hne e g hge
    obtain ⟨_, hgeq⟩ := hgroup e g hge
    have hnd : g.Nodup := by
      rw [hgeq]
      exact (hsub e).nodup hnodup
    by_cases hke : k = (e : Int)
    · rw [if_pos hke]
      apply List.count_eq_one_of_mem hnd
      rw [hgeq, hmem i s e hs, hk, hke]
    · rw [if_neg hke]
      apply List.count_eq_zero_of_not_mem
      rw [hgeq, hmem i s e hs, hk]
      intro h
      exact hke (Option.some.inj h)
  · intro i s hs hk g hgm hsg
    obtain ⟨e, hge⟩ := List.getElem?_of_mem hgm
    obtain ⟨_, hgeq⟩ := hgroup e g hge
    rw [hgeq, hmem i s e hs, hk] at hsg
    have := Option.some.inj hsg
    omega
  · have hgroups : groups = (List.range m).map (fun e : Nat =>
        ((List.range particle_indices.length).filter
          (fun i => decide (next_event_indices[i]? = some (e : Int)))).map
          (fun i => particle_indices.getD i 0)) := by
      apply List.ext_getElem?
      intro e
      by_cases he : e < m
      · rw [hclosed e he]
        simp [List.getElem?_map, List.getElem?_range he]
      · have hle : m ≤ e := not_lt.mp he
        simp [List.getElem?_eq_none, hle, hlen]
    rw [hgroups, List.map_map]
    have := sum_group_sizes next_event_indices m hvalid (List.range particle_indices.length)
      (fun i hi => by rw [hn]; exact List.mem_range.mp hi)
    rw [← this]
    congr 1
    apply List.map_congr_left
    intro e _
    simp
  · intro g hgm
    obtain ⟨e, hge⟩ := List.getElem?_of_mem hgm
    obtain ⟨_, hgeq⟩ := hgroup e g hge
    rw [hgeq]
    exact hsub e

/-- Witness for C17: four particles, two events. -/
theorem find_particles_per_event_partition_witness :
    ∃ groups, find_particles_per_event [5, 3, 8, 2] [1, -1, 0, 1]
        (List.replicate 2 []) = some groups ∧
      groups.length = 2 ∧
      (∀ e : Nat, e < 2 → groups[e]? = some
        (((List.range ([5, 3, 8, 2] : List Nat).length).filter
          (fun i => decide (([1, -1, 0, 1] : List Int)[i]? = some (e : Int)))).map
          (fun i => ([5, 3, 8, 2] : List Nat).getD i 0))) ∧
      (∀ (i s : Nat) (k : Int), ([5, 3, 8, 2] : List Nat)[i]? = some s →
        ([1, -1, 0, 1] : List Int)[i]? = some k → k ≠ -1 →
        ∀ (e : Nat) (g : List Nat), groups[e]? = some g →
          g.count s = if k = (e : Int) then 1 else 0) ∧
      (∀ (i s : Nat), ([5, 3, 8, 2] : List Nat)[i]? = some s →
        ([1, -1, 0, 1] : List Int)[i]? = some (-1) → ∀ g ∈ groups, s ∉ g) ∧
      (groups.map List.length).sum = ((List.range ([5, 3, 8, 2] : List Nat).length).filter
        (fun i => decide (([1, -1, 0, 1] : List Int)[i]? ≠ some (-1)))).length ∧
      (∀ g ∈ groups, g.Sublist [5, 3, 8, 2]) :=
  find_particles_per_event_partition [5, 3, 8, 2] [1, -1, 0, 1] 2 (by decide)
    (by
      intro i k hk
      have hm := List.getElem?_mem hk
      simp only [List.mem_cons, List.mem_singleton, List.not_mem_nil, or_false] at hm
      rcases hm with h | h | h | h <;> subst h <;> decide)
    (by decide)

/-! ## Action dispatch -/

theorem run_actions_fold (block : ParticlesBlock) (particles_per_event : List (List Nat))
    (events : List Event) (action_per_event : List Action)
    (ha : events.length ≤ action_per_event.length)
    (hg : events.length ≤ particles_per_event.length) :
    ∃ block1 calls, run_actions block particles_per_event events action_per_event
        = some (block1, calls) ∧
      block1 = ((action_per_event.zip particles_per_event).take events.length).foldl
        (fun b ag => ag.1.execute ⟨b, ag.2⟩) block := by
  unfold run_actions
  obtain ⟨st, hst, h1⟩ := foldlM_range_invariant
    (fun (st : ParticlesBlock × List (Nat × List Nat)) event_index =>
      (action_per_event[event_index]?).bind fun action =>
      (particles_per_event[event_index]?).bind fun group =>
      some (action.execute ⟨st.1, group⟩, st.2 ++ [(event_index, group)]))
    (fun m st => st.1 = ((action_per_event.zip particles_per_event).take m).foldl
      (fun b ag => ag.1.execute ⟨b, ag.2⟩) block)
    events.length (block, []) rfl
    (by
      intro m st hm h1
      obtain ⟨action, haction⟩ : ∃ action, action_per_event[m]? = some action :=
        ⟨_, List.getElem?_eq_getElem (by omega)⟩
      obtain ⟨group, hgroup⟩ : ∃ group, particles_per_event[m]? = some group :=
        ⟨_, List.getElem?_eq_getElem (by omega)⟩
      refine ⟨(action.execute ⟨st.1, group⟩, st.2 ++ [(m, group)]), by
        simp [haction, hgroup], ?_⟩
      have hz : (action_per_event.zip particles_per_event)[m]? = some (action, group) := by
        simp [List.getElem?_zip_eq_some, haction, hgroup]
      show _ = List.foldl _ block (List.take (m + 1) _)
      rw [List.take_succ, hz, List.foldl_append, ← h1]
      rfl)
  exact ⟨st.1, st.2, hst, h1⟩

/-- C18: in one iteration (`simulate_to_next_event` on a well-formed particle
set), `run_actions` makes exactly one `execute` call per event, in event
registration order; the call for event `e` runs the action bound to `e` on the
block left by the earlier calls, with exactly the group of event `e` as its
particle set: the slot indices, in the order of the set, of the positions whose
next-event index is `e`.  Every particle handed to an action triggered the
event of that action; the action of an event that no particle triggered is
called with the empty particle set. -/
theorem run_actions_dispatch (particles : ParticleSet) (durations : List ℚ)
    (end_time : ℚ) (particle_type : ParticleType) (last_event_times : List ℚ)
    (hin : particles.in_block)
    (hd : durations.length = particles.size)
    (hev : ∀ ev ∈ particle_type.events, ev.in_range)
    (hlast : 0 < last_event_times.length → particles.size ≤ last_event_times.length)
    (hact : particle_type.events.length ≤ particle_type.action_per_event.length)
    (hkeep : ∀ (e : Nat) (action : Action), e < particle_type.events.length →
      particle_type.action_per_event[e]? = some action → action.keeps_capacity) :
    ∃ offsets next block1 groups r,
      compute_ideal_attribute_offsets particles durations particle_type
        ⟨List.replicate particles.size 0, List.replicate particles.size 0⟩ = some offsets ∧
      find_next_event_per_particle particles offsets durations end_time particle_type.events
        last_event_times = some next ∧
      forward_particles_to_next_event particles offsets next.2 = some block1 ∧
      find_particles_per_event particles.indices next.1
        (List.replicate particle_type.events.length []) = some groups ∧
      simulate_to_next_event particles durations end_time particle_type last_event_times
        [] [] = some r ∧
      run_actions block1 groups particle_type.events particle_type.action_per_event
        = some (r.block, r.action_calls) ∧
      r.action_calls = (List.range particle_type.events.length).map (fun e : Nat =>
        (e, ((List.range particles.indices.length).filter
          (fun i => decide (next.1[i]? = some (e : Int)))).map
          (fun i => particles.indices.getD i 0))) ∧
      r.block = ((particle_type.action_per_event.zip groups).take
        particle_type.events.length).foldl (fun b ag => ag.1.execute ⟨b, ag.2⟩) block1 ∧
      (∀ (e : Nat) (g : List Nat), groups[e]? = some g → (e, g) ∈ r.action_calls) ∧
      (∀ (e s : Nat) (g : List Nat), (e, g) ∈ r.action_calls → s ∈ g →
        ∃ i : Nat, particles.indices[i]? = some s ∧ next.1[i]? = some (e : Int)) := by
  obtain ⟨offsets, next, block1, groups, block2, calls, hoffs, hnext, hfwd, hgroups, hrun, hres,
    hinv, _, hgall, hcalls, _⟩ := simulate_to_next_event_result particles durations end_time
    particle_type last_event_times [] [] hin hd hev hlast hact hkeep
  have hglen : groups.length = particle_type.events.length := by
    obtain ⟨groups1, hg1, hgl1, _⟩ := find_particles_per_event_result particles.indices next.1
      (List.replicate particle_type.events.length []) hinv.1
      (by
        intro i k hk
        simpa using next_event_inv_index_range particles offsets durations end_time
          particle_type.events last_event_times next hinv i k hk)
    rw [hgroups] at hg1
    cases hg1
    simpa using hgl1
  have hcalls1 : calls = (List.range particle_type.events.length).map (fun e : Nat =>
      (e, ((List.range particles.indices.length).filter
        (fun i => decide (next.1[i]? = some (e : Int)))).map
        (fun i => particles.indices.getD i 0))) := by
    rw [hcalls]
    apply List.map_congr_left
    intro e he
    have he1 : e < particle_type.events.length := List.mem_range.mp he
    simp [List.getD_eq_getElem?_getD, hgall e he1]
  obtain ⟨block3, calls3, hrun3, hfold⟩ := run_actions_fold block1 groups particle_type.events
    particle_type.action_per_event hact (le_of_eq hglen.symm)
  rw [hrun] at hrun3
  cases hrun3
  refine ⟨offsets, next, block1, groups, _, hoffs, hnext, hfwd, hgroups, hres, hrun, hcalls1,
    hfold, ?_, ?_⟩
  · intro e g hge
    have he : e < particle_type.events.length := by
      rw [← hglen]
      exact (List.getElem?_eq_some.mp hge).1
    show (e, g) ∈ calls
    rw [hcalls1, List.mem_map]
    refine ⟨e, List.mem_range.mpr he, ?_⟩
    rw [hgall e he] at hge
    rw [Option.some.inj hge]
  · intro e s g hmem hs
    have hmem1 : (e, g) ∈ calls := hmem
    rw [hcalls1, List.mem_map] at hmem1
    obtain ⟨e1, _, heq⟩ := hmem1
    simp only [Prod.mk.injEq] at heq
    obtain ⟨he1, hg1⟩ := heq
    subst he1
    rw [← hg1, List.mem_map] at hs
    obtain ⟨i, hi, hsi⟩ := hs
    rw [List.mem_filter] at hi
    obtain ⟨hr, hw⟩ := hi
    have hlt : i < particles.indices.length := List.mem_range.mp hr
    refine ⟨i, ?_, by simpa using hw⟩
    rw [List.getElem?_eq_getElem hlt]
    simp [List.getD_eq_getElem?_getD, List.getElem?_eq_getElem hlt] at hsi
    rw [hsi]

/-- Witness for C18: two events that both report `0.5` for both particles of
the two-slot block. -/
theorem run_actions_dispatch_witness :
    ∃ r, simulate_to_next_event ⟨sample_block, [0, 1]⟩ [1, 1] 1 tie_particle_type [] [] []
        = some r ∧ r.action_calls = [(0, [0, 1]), (1, [])] := by
  obtain ⟨_, next, _, _, r, _, hnext, _, _, hres, _, hcalls, _, _, _⟩ :=
    run_actions_dispatch ⟨sample_block, [0, 1]⟩ [1, 1] 1 tie_particle_type []
      ⟨by decide, by decide⟩ (by decide)
      (fun ev h => by rw [tie_particle_type_events ev h]; exact event_all_half_in_range)
      (fun h => absurd h (by decide)) (by decide)
      (fun e action _ h => tie_particle_type_keeps e action h)
  refine ⟨r, hres, ?_⟩
  have hres1 : simulate_to_next_event ⟨sample_block, [0, 1]⟩ [1, 1] 1 tie_particle_type
      [] [] [] = some ⟨⟨[0, 0], [0, 0], [⟨1 / 2, 0, 0⟩, ⟨1, 0, 0⟩], [⟨1, 0, 0⟩, ⟨2, 0, 0⟩], 2⟩,
        [0, 1], [1 / 2, 1 / 2], [(0, [0, 1]), (1, [])]⟩ := by decide!
  rw [hres1] at hres
  rw [← Option.some.inj hres]

/-! ## The iteration cap -/

theorem simulate_with_max_n_events_loop_result (end_time : ℚ) (particle_type : ParticleType)
    (hev : ∀ ev ∈ particle_type.events, ev.in_range)
    (hact : particle_type.events.length ≤ particle_type.action_per_event.length)
    (hkeep : ∀ (e : Nat) (action : Action), e < particle_type.events.length →
      particle_type.action_per_event[e]? = some action → action.keeps_capacity) :
    ∀ (todo iteration : Nat) (block : ParticlesBlock) (indices : List Nat)
      (durations last : List ℚ) (ru : List Nat) (rr : List ℚ),
      ParticleSet.in_block ⟨block, indices⟩ → durations.length = indices.length →
      (0 < last.length → indices.length ≤ last.length) →
      ∃ r lastr, simulate_with_max_n_events_loop end_time particle_type (todo + 1) iteration
          block indices durations last ru rr = some r ∧
        iteration + 1 ≤ r.iterations ∧ r.iterations ≤ iteration + todo + 1 ∧
        simulate_iteration end_time particle_type (r.iterations - iteration - 1) block indices
          durations last = some lastr ∧
        r.block = lastr.block ∧
        r.unfinished_particle_indices = lastr.unfinished_particle_indices ∧
        r.remaining_durations = lastr.remaining_durations ∧
        (∀ k, k < r.iterations - iteration - 1 → ∃ rk,
          simulate_iteration end_time particle_type k block indices durations last = some rk ∧
          rk.unfinished_particle_indices ≠ []) ∧
        (r.iterations < iteration + todo + 1 → lastr.unfinished_particle_indices = []) := by
  intro todo
  induction todo with
  | zero =>
    intro iteration block indices durations last ru rr hin hd hlast
    obtain ⟨_, _, _, _, _, _, _, _, _, _, _, hres0, _⟩ := simulate_to_next_event_result
      ⟨block, indices⟩ durations end_time particle_type last [] [] hin hd hev hlast hact hkeep
    obtain ⟨r0, hres⟩ : ∃ r0, simulate_to_next_event ⟨block, indices⟩ durations end_time
        particle_type last [] [] = some r0 := ⟨_, hres0⟩
    obtain ⟨_, hlen, _, _⟩ := simulate_to_next_event_next_set ⟨block, indices⟩ durations
      end_time particle_type last hin hd hev hlast hact hkeep _ hres
    refine ⟨⟨r0.block, r0.unfinished_particle_indices, r0.remaining_durations, iteration + 1⟩,
      r0, ?_, le_refl _, le_refl _, ?_, rfl, rfl, rfl, ?_, ?_⟩
    · rw [simulate_with_max_n_events_loop_step end_time particle_type 0 iteration block indices
        durations last ru rr _ hres hlen.symm]
      simp [simulate_with_max_n_events_loop]
    · simpa [simulate_iteration] using hres
    · intro k hk
      simp at hk
    · intro h
      simp at h
  | succ todo ih =>
    intro iteration block indices durations last ru rr hin hd hlast
    obtain ⟨_, _, _, _, _, _, _, _, _, _, _, hres0, _⟩ := simulate_to_next_event_result
      ⟨block, indices⟩ durations end_time particle_type last [] [] hin hd hev hlast hact hkeep
    obtain ⟨r0, hres⟩ : ∃ r0, simulate_to_next_event ⟨block, indices⟩ durations end_time
        particle_type last [] [] = some r0 := ⟨_, hres0⟩
    obtain ⟨_, hlen, _, hin1⟩ := simulate_to_next_event_next_set ⟨block, indices⟩ durations
      end_time particle_type last hin hd hev hlast hact hkeep _ hres
    rw [simulate_with_max_n_events_loop_step end_time particle_type (todo + 1) iteration block
      indices durations last ru rr _ hres hlen.symm]
    split
    · rename_i hempty
      refine ⟨⟨r0.block, r0.unfinished_particle_indices, r0.remaining_durations,
        iteration + 1⟩, r0, rfl, le_refl _, by simp, ?_, rfl, rfl, rfl, ?_, ?_⟩
      · simpa [simulate_iteration] using hres
      · intro k hk
        simp at hk
      · intro _
        exact List.length_eq_zero.mp hempty
    · rename_i hne
      obtain ⟨r, lastr, hr, h1, h2, hit, hb, hu, hrem, hprev, hstop⟩ := ih (iteration + 1)
        r0.block r0.unfinished_particle_indices r0.remaining_durations
        (r0.remaining_durations.map fun duration => end_time - duration)
        r0.unfinished_particle_indices r0.remaining_durations hin1 hlen
        (fun _ => by simp [hlen])
      refine ⟨r, lastr, hr, by omega, by omega, ?_, hb, hu, hrem, ?_, ?_⟩
      · have hk : r.iterations - iteration - 1 = (r.iterations - (iteration + 1) - 1) + 1 := by
          omega
        rw [hk]
        simp only [simulate_iteration, hres, Option.some_bind]
        exact hit
      · intro k hk
        cases k with
        | zero =>
          exact ⟨_, by simpa [simulate_iteration] using hres,
            fun h => hne (by rw [h]; rfl)⟩
        | succ k =>
          obtain ⟨rk, hrk, hnek⟩ := hprev k (by omega)
          refine ⟨rk, ?_, hnek⟩
          simp only [simulate_iteration, hres, Option.some_bind]
          exact hrk
      · intro h
        exact hstop (by omega)

/-- C11: on a well-formed particle set (events report positions of the set,
actions keep the block capacity), `simulate_with_max_n_events` returns a result
after at most `max_events` calls of `simulate_to_next_event`, whatever time
factors the events report and whatever the actions write.  With
`max_events = 0` nothing is run and the outputs are untouched.  Otherwise at
least one iteration runs, every iteration before the last one left a non-empty
unfinished set, the loop stops before the cap only when the last iteration left
the unfinished set empty, and the returned block, unfinished indices and
remaining durations are those produced by the last iteration run.  Called from
`step_individual_particles` the cap is `10`. -/
theorem simulate_with_max_n_events_bounded (max_events : Nat) (particles : ParticleSet)
    (durations : List ℚ) (end_time : ℚ) (particle_type : ParticleType)
    (ru : List Nat) (rr : List ℚ)
    (hin : particles.in_block)
    (hd : durations.length = particles.size)
    (hev : ∀ ev ∈ particle_type.events, ev.in_range)
    (hact : particle_type.events.length ≤ particle_type.action_per_event.length)
    (hkeep : ∀ (e : Nat) (action : Action), e < particle_type.events.length →
      particle_type.action_per_event[e]? = some action → action.keeps_capacity) :
    ∃ r, simulate_with_max_n_events max_events particles durations end_time particle_type
        ru rr = some r ∧
      r.iterations ≤ max_events ∧
      (max_events = 0 → r.block = particles.block ∧ r.unfinished_particle_indices = ru ∧
        r.remaining_durations = rr) ∧
      (0 < max_events → 1 ≤ r.iterations ∧ ∃ lastr,
        simulate_iteration end_time particle_type (r.iterations - 1) particles.block
          particles.indices durations [] = some lastr ∧
        r.block = lastr.block ∧
        r.unfinished_particle_indices = lastr.unfinished_particle_indices ∧
        r.remaining_durations = lastr.remaining_durations ∧
        (∀ k, k < r.iterations - 1 → ∃ rk,
          simulate_iteration end_time particle_type k particles.block particles.indices
            durations [] = some rk ∧ rk.unfinished_particle_indices ≠ []) ∧
        (r.iterations < max_events → lastr.unfinished_particle_indices = [])) ∧
      (∀ res, step_individual_particles particles durations end_time particle_type = some res →
        res.event_loop.iterations ≤ 10) := by
  have hstep : ∀ res, step_individual_particles particles durations end_time particle_type
      = some res → res.event_loop.iterations ≤ 10 := by
    intro res hres
    obtain ⟨r, lastr, hr, _, h2, _⟩ := simulate_with_max_n_events_loop_result end_time
      particle_type hev hact hkeep 9 0 particles.block particles.indices durations [] [] []
      hin hd (fun h => absurd h (by simp))
    have hr1 : simulate_with_max_n_events 10 particles durations end_time particle_type [] []
        = some r := hr
    simp only [step_individual_particles, hr1, Option.some_bind] at hres
    cases hsim : simulate_ignoring_events ⟨r.block, r.unfinished_particle_indices⟩
      r.remaining_durations particle_type with
    | none => simp [hsim] at hres
    | some block =>
      simp only [hsim, Option.some_bind, Option.some.injEq] at hres
      rw [← hres]
      show r.iterations ≤ 10
      omega
  cases max_events with
  | zero =>
    exact ⟨⟨particles.block, ru, rr, 0⟩, rfl, le_refl _, fun _ => ⟨rfl, rfl, rfl⟩,
      fun h => absurd h (by simp), hstep⟩
  | succ todo =>
    obtain ⟨r, lastr, hr, h1, h2, hit, hb, hu, hrem, hprev, hstop⟩ :=
      simulate_with_max_n_events_loop_result end_time particle_type hev hact hkeep todo 0
        particles.block particles.indices durations [] ru rr hin hd
        (fun h => absurd h (by simp))
    refine ⟨r, hr, by omega, fun h => absurd h (by simp), fun _ => ⟨by omega, lastr, ?_, hb, hu,
      hrem, ?_, ?_⟩, hstep⟩
    · simpa using hit
    · intro k hk
      exact hprev k (by omega)
    · intro h
      exact hstop (by omega)

/-- Witness for C11: the event that reports every position at time factor `0`
fires in the first iteration and is discarded by the retrigger guard in the
second, where the loop stops. -/
theorem simulate_with_max_n_events_bounded_witness :
    ∃ r, simulate_with_max_n_events 10 ⟨sample_block, [0, 1]⟩ [1, 1] 1
        retrigger_particle_type [] [] = some r ∧ r.iterations = 2 ∧ r.iterations ≤ 10 := by
  obtain ⟨r, hr, hle, _, _, _⟩ := simulate_with_max_n_events_bounded 10
    ⟨sample_block, [0, 1]⟩ [1, 1] 1 retrigger_particle_type [] []
    ⟨by decide, by decide⟩ (by decide)
    (fun ev h => by rw [retrigger_particle_type_events ev h]; exact event_all_zero_in_range)
    (by decide) (fun e action _ h => retrigger_particle_type_keeps e action h)
  have hr1 : (simulate_with_max_n_events 10 ⟨sample_block, [0, 1]⟩ [1, 1] 1
      retrigger_particle_type [] []).map (fun r => r.iterations) = some 2 := by decide!
  rw [hr] at hr1
  exact ⟨r, hr, Option.some.inj hr1, hle⟩



/-! ## Deletion of tagged particles -/

theorem swap_at_result {α : Type} (xs : List α) (i j : Nat) (hi : i < xs.length)
    (hj : j < xs.length) :
    ∃ ys, swap_at xs i j = some ys ∧ ys.length = xs.length ∧
      ∀ (k : Nat) (d : α), ys.getD k d =
        if k = i then xs.getD j d else if k = j then xs.getD i d else xs.getD k d := by
  obtain ⟨a, ha⟩ : ∃ a, xs[i]? = some a := ⟨_, List.getElem?_eq_getElem hi⟩
  obtain ⟨b, hb⟩ : ∃ b, xs[j]? = some b := ⟨_, List.getElem?_eq_getElem hj⟩
  refine ⟨(xs.set j a).set i b, by simp [swap_at, ha, hb], by simp, ?_⟩
  intro k d
  simp only [List.getD_eq_getElem?_getD, List.getElem?_set, List.length_set]
  by_cases hki : k = i
  · subst hki
    simp [hi, hb]
  · by_cases hkj : k = j
    · subst hkj
      simp [hki, Ne.symm hki, hj, ha]
    · simp [hki, hkj, Ne.symm hki, Ne.symm hkj]

theorem move_result (block : ParticlesBlock) (old_index new_index : Nat)
    (hwf : block.well_formed) (ho : old_index < block.kill_states.length)
    (hn : new_index < block.kill_states.length) :
    ∃ moved, block.move old_index new_index = some moved ∧
      moved.active_amount = block.active_amount ∧
      moved.well_formed ∧ moved.same_capacity block ∧
      ∀ k, moved.particle_at k =
        if k = old_index then block.particle_at new_index
        else if k = new_index then block.particle_at old_index else block.particle_at k := by
  obtain ⟨hb, hp, hv, ha⟩ := hwf
  obtain ⟨ks, hks, hksl, hksv⟩ := swap_at_result block.kill_states old_index new_index ho hn
  obtain ⟨bs, hbs, hbsl, hbsv⟩ := swap_at_result block.birth_times old_index new_index
    (by omega) (by omega)
  obtain ⟨ps, hps, hpsl, hpsv⟩ := swap_at_result block.positions old_index new_index
    (by omega) (by omega)
  obtain ⟨vs, hvs, hvsl, hvsv⟩ := swap_at_result block.velocities old_index new_index
    (by omega) (by omega)
  refine ⟨{ block with kill_states := ks, birth_times := bs, positions := ps,
                       velocities := vs }, by simp [ParticlesBlock.move, hks, hbs, hps, hvs],
    rfl, ⟨by show bs.length = ks.length; omega, by show ps.length = ks.length; omega,
      by show vs.length = ks.length; omega, by show block.active_amount ≤ ks.length; omega⟩,
    ⟨hksl, hbsl, hpsl, hvsl⟩, ?_⟩
  intro k
  simp only [ParticlesBlock.particle_at, hksv, hbsv, hpsv, hvsv]
  by_cases h1 : k = old_index
  · simp [h1]
  · by_cases h2 : k = new_index
    · have h3 : ¬ new_index = old_index := fun h => h1 (h2.trans h)
      simp [h2, h3]
    · simp [h1, h2]

theorem filter_set_perm {α : Type} (p : α → Bool) (y : α) :
    ∀ (l : List α) (i : Nat), i < l.length → (∀ x, l[i]? = some x → p x = false) →
      ((l.set i y).filter p).Perm ((y :: l).filter p) := by
  intro l
  induction l with
  | nil =>
    intro i hi
    simp at hi
  | cons h t ih =>
    intro i hi hx
    cases i with
    | zero =>
      have hh : p h = false := hx h (by simp)
      simp [List.filter_cons, hh]
    | succ i =>
      have hi1 : i < t.length := by simpa using hi
      have h1 := ih i hi1 (fun x hx1 => hx x (by simpa using hx1))
      simp only [List.set_cons_succ]
      by_cases hh : p h = true
      · by_cases hy : p y = true
        · simp only [List.filter_cons, hh, hy, if_true] at h1 ⊢
          exact (List.Perm.cons h h1).trans (List.Perm.swap y h _)
        · simp only [List.filter_cons, hh, hy, if_true, if_false] at h1 ⊢
          exact List.Perm.cons h h1
      · simp only [List.filter_cons, hh, if_false] at h1 ⊢
        exact h1

theorem swap_remove_perm {α : Type} (p : α → Bool) (f g : Nat → α) (a i : Nat) (hi : i < a)
    (hk : p (f i) = false)
    (hg : ∀ j, j < a - 1 → g j = if j = i then f (a - 1) else f j) :
    (((List.range (a - 1)).map g).filter p).Perm (((List.range a).map f).filter p) := by
  obtain ⟨n, rfl⟩ : ∃ n, a = n + 1 := ⟨a - 1, by omega⟩
  simp only [Nat.add_sub_cancel] at hg ⊢
  rw [List.range_succ, List.map_append, List.filter_append]
  by_cases hin : i = n
  · subst hin
    have h1 : (List.range i).map g = (List.range i).map f := by
      apply List.map_congr_left
      intro j hj
      have hj1 : j < i := List.mem_range.mp hj
      rw [hg j hj1, if_neg (by omega)]
    simp [h1, List.filter_cons, hk]
  · have hlt : i < n := by omega
    have h1 : (List.range n).map g = ((List.range n).map f).set i (f n) := by
      apply List.ext_getElem?
      intro j
      by_cases hj : j < n
      · simp only [List.getElem?_map, List.getElem?_range hj, List.getElem?_set,
          List.length_map, List.length_range, Option.map_some']
        by_cases hji : j = i
        · subst hji
          simp [hg j hj, hj]
        · simp [hg j hj, hji, Ne.symm hji]
      · have hle : n ≤ j := not_lt.mp hj
        simp [List.getElem?_eq_none, hle]
    rw [h1]
    refine (filter_set_perm p (f n) _ i (by simpa using hlt) ?_).trans ?_
    · intro x hx
      simp [List.getElem?_map, List.getElem?_range hlt] at hx
      rw [← hx]
      exact hk
    · by_cases hy : p (f n) = true
      · simp only [List.filter_cons, hy, if_true, List.map_singleton, List.filter_nil]
        exact (List.perm_append_singleton (f n) _).symm
      · simp [List.filter_cons, hy]

theorem delete_loop_result (size : Nat) :
    ∀ (passes : Nat) (block : ParticlesBlock) (index : Nat),
      block.well_formed → index ≤ block.active_amount →
      block.active_amount - index ≤ passes → block.active_amount ≤ size →
      (∀ j, j < index → (block.particle_at j).kill_state ≠ 1) →
      ∃ result, delete_tagged_particles_and_reorder_loop size passes block index = some result ∧
        result.well_formed ∧ result.same_capacity block ∧
        (∀ q ∈ result.active_particles, q.kill_state ≠ 1) ∧
        result.active_particles.Perm
          (block.active_particles.filter (fun q => decide (q.kill_state ≠ 1))) := by
  have hdone : ∀ (block : ParticlesBlock),
      (∀ j, j < block.active_amount → (block.particle_at j).kill_state ≠ 1) →
      (∀ q ∈ block.active_particles, q.kill_state ≠ 1) ∧
      block.active_particles.Perm
        (block.active_particles.filter (fun q => decide (q.kill_state ≠ 1))) := by
    intro block hall
    have h1 : ∀ q ∈ block.active_particles, q.kill_state ≠ 1 := by
      intro q hq
      simp only [ParticlesBlock.active_particles, List.mem_map, List.mem_range] at hq
      obtain ⟨j, hj, rfl⟩ := hq
      exact hall j hj
    refine ⟨h1, ?_⟩
    rw [List.filter_eq_self.mpr (fun q hq => by simpa using h1 q hq)]
  intro passes
  induction passes with
  | zero =>
    intro block index hwf hle hpass _ halive
    have hidx : index = block.active_amount := by omega
    subst hidx
    obtain ⟨h1, h2⟩ := hdone block halive
    exact ⟨block, by simp [delete_tagged_particles_and_reorder_loop], hwf, ⟨rfl, rfl, rfl, rfl⟩,
      h1, h2⟩
  | succ passes ih =>
    intro block index hwf hle hpass hsize halive
    by_cases hlt : index < block.active_amount
    · have hcap : index < block.kill_states.length := lt_of_lt_of_le hlt hwf.2.2.2
      obtain ⟨k, hk⟩ : ∃ k, block.kill_states[index]? = some k :=
        ⟨_, List.getElem?_eq_getElem hcap⟩
      have hkp : (block.particle_at index).kill_state = k := by
        simp [ParticlesBlock.particle_at, List.getD_eq_getElem?_getD, hk]
      have hisz : index < size := by omega
      by_cases hk1 : k = 1
      · obtain ⟨moved, hmoved, hma, hmwf, hmcap, hmat⟩ := move_result block
          (block.active_amount - 1) index hwf (by have := hwf.2.2.2; omega) hcap
        obtain ⟨result, hres, hrwf, hrcap, hralive, hrperm⟩ := ih
          { moved with active_amount := moved.active_amount - 1 } index
          ⟨hmwf.1, hmwf.2.1, hmwf.2.2.1, by
            show moved.active_amount - 1 ≤ moved.kill_states.length
            have := hmwf.2.2.2
            omega⟩
          (by show index ≤ moved.active_amount - 1; omega)
          (by show moved.active_amount - 1 - index ≤ passes; omega)
          (by show moved.active_amount - 1 ≤ size; omega)
          (by
            intro j hj
            have : ParticlesBlock.particle_at { moved with active_amount :=
                moved.active_amount - 1 } j = moved.particle_at j := rfl
            rw [this, hmat j, if_neg (by omega), if_neg (by omega)]
            exact halive j hj)
        refine ⟨result, ?_, hrwf, ?_, hralive, hrperm.trans ?_⟩
        · simp only [delete_tagged_particles_and_reorder_loop, hlt, if_true, hisz, hk,
            Option.some_bind, hk1, hmoved]
          exact hres
        · obtain ⟨a1, a2, a3, a4⟩ := hrcap
          obtain ⟨b1, b2, b3, b4⟩ := hmcap
          exact ⟨a1.trans b1, a2.trans b2, a3.trans b3, a4.trans b4⟩
        · have hperm := swap_remove_perm (fun q : Particle => decide (q.kill_state ≠ 1))
            block.particle_at moved.particle_at block.active_amount index hlt
            (by simp [hkp, hk1])
            (by
              intro j hj
              rw [hmat j, if_neg (by omega)])
          simpa [ParticlesBlock.active_particles, hma] using hperm
      · obtain ⟨result, hres, hrwf, hrcap, hralive, hrperm⟩ := ih block (index + 1) hwf
          (by omega) (by omega) hsize
          (by
            intro j hj
            by_cases hji : j = index
            · rw [hji, hkp]
              exact hk1
            · exact halive j (by omega))
        refine ⟨result, ?_, hrwf, hrcap, hralive, hrperm⟩
        simp only [delete_tagged_particles_and_reorder_loop, hlt, if_true, hisz, hk,
          Option.some_bind, hk1, if_false]
        exact hres
    · have hidx : index = block.active_amount := by omega
      subst hidx
      obtain ⟨h1, h2⟩ := hdone block halive
      exact ⟨block, by simp [delete_tagged_particles_and_reorder_loop], hwf,
        ⟨rfl, rfl, rfl, rfl⟩, h1, h2⟩

theorem delete_tagged_particles_and_reorder_result (block : ParticlesBlock)
    (hwf : block.well_formed) :
    ∃ result, delete_tagged_particles_and_reorder block = some result ∧
      result.well_formed ∧ result.same_capacity block ∧
      (∀ q ∈ result.active_particles, q.kill_state ≠ 1) ∧
      result.active_particles.Perm
        (block.active_particles.filter (fun q => decide (q.kill_state ≠ 1))) :=
  delete_loop_result block.active_amount block.active_amount block 0 hwf (Nat.zero_le _)
    (by omega) (le_refl _) (fun j hj => absurd hj (Nat.not_lt_zero j))

theorem active_particles_length (block : ParticlesBlock) :
    block.active_particles.length = block.active_amount := by
  simp [ParticlesBlock.active_particles]

/-- C12: for every well-formed block whose active slots have kill state `0` or
`1`, `delete_tagged_particles_and_reorder` ends and returns a block whose
`active_amount` is the number of originally active slots with kill state `0`
and whose slots `[0, active_amount)` hold exactly the particles (all attribute
values) of the original active slots with kill state `0`, each once, in some
order. -/
theorem delete_tagged_particles_and_reorder_spec (block : ParticlesBlock)
    (hwf : block.well_formed)
    (hkill : ∀ q ∈ block.active_particles, q.kill_state = 0 ∨ q.kill_state = 1) :
    ∃ result, delete_tagged_particles_and_reorder block = some result ∧
      result.active_amount =
        (block.active_particles.filter (fun q => decide (q.kill_state = 0))).length ∧
      result.active_particles.Perm
        (block.active_particles.filter (fun q => decide (q.kill_state = 0))) := by
  obtain ⟨result, hres, _, _, _, hperm⟩ := delete_tagged_particles_and_reorder_result block hwf
  have hfilter : block.active_particles.filter (fun q => decide (q.kill_state ≠ 1)) =
      block.active_particles.filter (fun q => decide (q.kill_state = 0)) := by
    apply List.filter_congr
    intro q hq
    rcases hkill q hq with h | h <;> simp [h]
  rw [hfilter] at hperm
  exact ⟨result, hres, by rw [← active_particles_length, hperm.length_eq], hperm⟩

/-- Witness for C12: three of ten active particles are tagged; seven are left,
with their attribute values. -/
theorem delete_tagged_particles_and_reorder_spec_witness :
    ∃ result, delete_tagged_particles_and_reorder ten_particles_block = some result ∧
      result.active_amount = 7 ∧
      result.active_particles.Perm
        (ten_particles_block.active_particles.filter (fun q => decide (q.kill_state = 0))) := by
  obtain ⟨result, hres, hamount, hperm⟩ := delete_tagged_particles_and_reorder_spec
    ten_particles_block ⟨by decide, by decide, by decide, by decide⟩ (by decide)
  refine ⟨result, hres, ?_, hperm⟩
  rw [hamount]
  decide

/-- C13 (code as written): a block with one active particle whose kill state
byte is `2`.  `find_unfinished_particles` treats the particle as killed (it had
an event and is not appended to the unfinished list, because its kill state is
not `0`), but `delete_tagged_particles_and_reorder` compares the kill state
with `1` (line 366) and leaves the particle in slot `0` with
`active_amount = 1`; with kill state `1` the same particle is removed. -/
theorem delete_tagged_particles_and_reorder_kill_state_two :
    find_unfinished_particles [0] [0] [1 / 2] [1] [2] ([], []) = some ([], []) ∧
    delete_tagged_particles_and_reorder ⟨[2], [0], [0], [0], 1⟩
      = some ⟨[2], [0], [0], [0], 1⟩ ∧
    (delete_tagged_particles_and_reorder ⟨[1], [0], [0], [0], 1⟩).map
      (fun block => block.active_amount) = some 0 := by
  decide!



/-! ## Containers per particle type -/

theorem ensure_containers_fold (ids0 : List Nat) :
    ∀ (ids : List Nat) (containers : List (Nat × ParticlesContainer)),
      (∀ id ∈ ids, id ∈ ids0) →
      ∃ added, ids.foldlM (fun containers type_id =>
          if ¬ map_contains containers type_id then
            let container : ParticlesContainer := ⟨[], 1000⟩
            map_add_new containers type_id container
          else some containers) containers = some (containers ++ added) ∧
        (∀ entry ∈ added, map_contains containers entry.1 = false ∧ entry.1 ∈ ids0 ∧
          entry.2 = ⟨[], 1000⟩) ∧
        (∀ id ∈ ids, map_contains (containers ++ added) id = true) := by
  intro ids
  induction ids with
  | nil =>
    intro containers _
    exact ⟨[], by simp, by simp, by simp⟩
  | cons id rest ih =>
    intro containers hsub
    have hrest : ∀ id1 ∈ rest, id1 ∈ ids0 := fun id1 h => hsub id1 (List.mem_cons_of_mem _ h)
    by_cases hc : map_contains containers id = true
    · obtain ⟨added, hfold, hadded, hall⟩ := ih containers hrest
      refine ⟨added, by simpa [List.foldlM, hc] using hfold, hadded, ?_⟩
      intro id1 hid1
      rcases List.mem_cons.mp hid1 with h | h
      · rw [h]
        simp only [map_contains, map_lookup, List.lookup_append] at hc ⊢
        cases hl : List.lookup id containers with
        | none => simp [hl] at hc
        | some c => simp
      · exact hall id1 h
    · have hcf : map_contains containers id = false := by simpa using hc
      obtain ⟨added, hfold, hadded, hall⟩ := ih (containers ++ [(id, ⟨[], 1000⟩)]) hrest
      have hnone : List.lookup id containers = none := by
        simp only [map_contains, map_lookup] at hcf
        cases hl : List.lookup id containers with
        | none => rfl
        | some c => simp [hl] at hcf
      refine ⟨(id, ⟨[], 1000⟩) :: added, ?_, ?_, ?_⟩
      · simp only [List.foldlM, hcf, map_add_new]
        simpa using hfold
      · intro entry hentry
        rcases List.mem_cons.mp hentry with h | h
        · rw [h]
          exact ⟨hcf, hsub id (List.mem_cons_self _ _), rfl⟩
        · obtain ⟨h1, h2, h3⟩ := hadded entry h
          refine ⟨?_, h2, h3⟩
          simp only [map_contains, map_lookup, List.lookup_append] at h1 ⊢
          cases hl : List.lookup entry.1 containers with
          | none => rfl
          | some c => simp [hl] at h1
      · intro id1 hid1
        rcases List.mem_cons.mp hid1 with h | h
        · rw [h]
          simp [map_contains, map_lookup, List.lookup_append, hnone]
        · have := hall id1 h
          simpa using this

theorem ensure_containers_fixed :
    ∀ (ids : List Nat) (containers : List (Nat × ParticlesContainer)),
      (∀ id ∈ ids, map_contains containers id = true) →
      ids.foldlM (fun containers type_id =>
          if ¬ map_contains containers type_id then
            let container : ParticlesContainer := ⟨[], 1000⟩
            map_add_new containers type_id container
          else some containers) containers = some containers := by
  intro ids
  induction ids with
  | nil => intro containers _; rfl
  | cons id rest ih =>
    intro containers hall
    have hc := hall id (List.mem_cons_self _ _)
    simp only [List.foldlM, hc, not_true_eq_false, if_false]
    exact ih containers (fun id1 h => hall id1 (List.mem_cons_of_mem _ h))

/-- C19: `ensure_required_containers_exist` only adds containers.  It returns a
map in which every particle type id of the description has a container; the
map is the old one followed by new entries, so every container that was in the
map is still found under the same id and is the same container; each new entry
is a fresh empty container (block size `1000`) for an id of the description
that had none; and a second call with the same description returns the map
unchanged. -/
theorem ensure_required_containers_exist_spec (containers : List (Nat × ParticlesContainer))
    (description : StepDescription) :
    ∃ result added, ensure_required_containers_exist containers description = some result ∧
      (∀ id ∈ description.particle_type_ids, map_contains result id = true) ∧
      result = containers ++ added ∧
      (∀ (id : Nat) (container : ParticlesContainer),
        map_lookup containers id = some container → map_lookup result id = some container) ∧
      (∀ entry ∈ added, map_contains containers entry.1 = false ∧
        entry.1 ∈ description.particle_type_ids ∧ entry.2 = ⟨[], 1000⟩) ∧
      ensure_required_containers_exist result description = some result := by
  obtain ⟨added, hfold, hadded, hall⟩ := ensure_containers_fold description.particle_type_ids
    description.particle_type_ids containers (fun _ h => h)
  refine ⟨containers ++ added, added, hfold, hall, rfl, ?_, hadded, ?_⟩
  · intro id container hl
    simp only [map_lookup, List.lookup_append] at hl ⊢
    rw [hl]
    rfl
  · exact ensure_containers_fixed description.particle_type_ids (containers ++ added) hall

/-! ## Emission -/

theorem delete_tagged_particles_result (blocks : List ParticlesBlock)
    (hwf : ∀ block ∈ blocks, block.well_formed) :
    ∃ result, delete_tagged_particles blocks = some result ∧
      List.Forall₂ (fun block deleted =>
        deleted.well_formed ∧ deleted.same_capacity block ∧
        (∀ q ∈ deleted.active_particles, q.kill_state ≠ 1) ∧
        deleted.active_particles.Perm
          (block.active_particles.filter (fun q => decide (q.kill_state ≠ 1)))) blocks result := by
  unfold delete_tagged_particles
  induction blocks with
  | nil => exact ⟨[], rfl, List.Forall₂.nil⟩
  | cons block rest ih =>
    obtain ⟨deleted, hd, h1, h2, h3, h4⟩ := delete_tagged_particles_and_reorder_result block
      (hwf block (List.mem_cons_self _ _))
    obtain ⟨result, hres, hall⟩ := ih (fun b hb => hwf b (List.mem_cons_of_mem _ hb))
    refine ⟨deleted :: result, ?_, List.Forall₂.cons ⟨h1, h2, h3, h4⟩ hall⟩
    rw [List.mapM_cons, hd, hres]
    rfl

theorem forall2_right {α β : Type} (R : α → β → Prop) (P : β → Prop)
    (h : ∀ a b, R a b → P b) :
    ∀ (xs : List α) (ys : List β), List.Forall₂ R xs ys → ∀ b ∈ ys, P b := by
  intro xs ys hall
  induction hall with
  | nil => simp
  | cons hab _ ih =>
    intro b hb
    rcases List.mem_cons.mp hb with h1 | h1
    · rw [h1]
      exact h _ _ hab
    · exact ih b h1

theorem write_front_length {α : Type} (column values : List α)
    (h : values.length ≤ column.length) :
    (write_front column values).length = column.length := by
  simp [write_front]
  omega

theorem write_front_getD {α : Type} (column values : List α) (d : α) (i : Nat)
    (hi : i < values.length) :
    (write_front column values).getD i d = values.getD i d := by
  simp [write_front, List.getD_eq_getElem?_getD, List.getElem?_append_left hi]

theorem with_active_particles_result (block : ParticlesBlock) (particles : List Particle)
    (hwf : block.well_formed) (hlen : particles.length ≤ block.capacity) :
    (block.with_active_particles particles).active_particles = particles ∧
    (block.with_active_particles particles).well_formed ∧
    (block.with_active_particles particles).capacity = block.capacity := by
  obtain ⟨h1, h2, h3, h4⟩ := hwf
  unfold ParticlesBlock.capacity at hlen
  refine ⟨?_, ?_, ?_⟩
  · apply List.ext_getElem?
    intro i
    unfold ParticlesBlock.active_particles ParticlesBlock.with_active_particles
    by_cases hi : i < particles.length
    · obtain ⟨q, hq⟩ : ∃ q, particles[i]? = some q := ⟨_, List.getElem?_eq_getElem hi⟩
      rw [List.getElem?_map, List.getElem?_range hi, hq]
      simp only [Option.map_some', ParticlesBlock.particle_at]
      rw [write_front_getD _ _ _ _ (by simpa using hi), write_front_getD _ _ _ _ (by simpa using hi),
        write_front_getD _ _ _ _ (by simpa using hi), write_front_getD _ _ _ _ (by simpa using hi)]
      simp [List.getD_eq_getElem?_getD, hq]
    · rw [List.getElem?_eq_none (by simpa using hi), List.getElem?_eq_none (by omega)]
  · unfold ParticlesBlock.well_formed ParticlesBlock.with_active_particles
    simp only
    rw [write_front_length _ _ (by simp; omega), write_front_length _ _ (by simp; omega),
      write_front_length _ _ (by simp; omega), write_front_length _ _ (by simp; omega)]
    exact ⟨h1, h2, h3, hlen⟩
  · unfold ParticlesBlock.capacity ParticlesBlock.with_active_particles
    simp only
    rw [write_front_length _ _ (by simp; omega)]

theorem active_particles_take (block : ParticlesBlock) (kept : Nat)
    (h : kept ≤ block.active_amount) :
    ParticlesBlock.active_particles { block with active_amount := kept }
      = block.active_particles.take kept := by
  unfold ParticlesBlock.active_particles
  rw [← List.map_take, List.take_range, Nat.min_eq_left h]
  rfl

theorem MoveUntilFull_result (source target : ParticlesBlock) (hs : source.well_formed)
    (ht : target.well_formed) :
    (ParticlesBlock.MoveUntilFull source target).1.well_formed ∧
    (ParticlesBlock.MoveUntilFull source target).2.well_formed ∧
    ((ParticlesBlock.MoveUntilFull source target).1.active_particles ++
      (ParticlesBlock.MoveUntilFull source target).2.active_particles).Perm
      (source.active_particles ++ target.active_particles) := by
  have hkept : source.active_amount - min source.active_amount
      (target.capacity - target.active_amount) ≤ source.active_amount := Nat.sub_le _ _
  have hlen : (target.active_particles ++ source.active_particles.drop
      (source.active_amount - min source.active_amount
        (target.capacity - target.active_amount))).length ≤ target.capacity := by
    have h4 := ht.2.2.2
    simp only [List.length_append, List.length_drop, active_particles_length,
      ParticlesBlock.capacity]
    omega
  obtain ⟨h1, h2, _⟩ := with_active_particles_result target _ ht hlen
  unfold ParticlesBlock.MoveUntilFull
  simp only
  refine ⟨?_, h2, ?_⟩
  · obtain ⟨a, b, c, d⟩ := hs
    exact ⟨a, b, c, le_trans hkept d⟩
  · rw [h1, active_particles_take source _ hkept]
    have hsplit := List.take_append_drop (source.active_amount - min source.active_amount
      (target.capacity - target.active_amount)) source.active_particles
    nth_rewrite 3 [← hsplit]
    rw [List.append_assoc]
    exact List.Perm.append_left _ List.perm_append_comm

theorem Compress_passes_result :
    ∀ (passes : Nat) (blocks : List ParticlesBlock), (∀ block ∈ blocks, block.well_formed) →
      (∀ block ∈ ParticlesBlock.Compress_passes passes blocks, block.well_formed) ∧
      ((ParticlesBlock.Compress_passes passes blocks).flatMap
        ParticlesBlock.active_particles).Perm (blocks.flatMap ParticlesBlock.active_particles) := by
  intro passes
  induction passes with
  | zero =>
    intro blocks hwf
    cases blocks <;> exact ⟨hwf, List.Perm.refl _⟩
  | succ passes ih =>
    intro blocks hwf
    cases blocks with
    | nil => exact ⟨hwf, List.Perm.refl _⟩
    | cons source rest =>
      rw [ParticlesBlock.Compress_passes]
      cases hlast : rest.getLast? with
      | none =>
        have hrest : rest = [] := List.getLast?_eq_none_iff.mp hlast
        subst hrest
        exact ⟨hwf, List.Perm.refl _⟩
      | some target =>
        have hrest : rest = rest.dropLast ++ [target] :=
          (List.dropLast_append_getLast? target hlast).symm
        have hsource : source.well_formed := hwf source (List.mem_cons_self _ _)
        have htarget : target.well_formed := by
          apply hwf target
          rw [hrest]
          simp
        have hdrop : ∀ block ∈ rest.dropLast, block.well_formed := by
          intro block hblock
          apply hwf block
          rw [hrest]
          simp [hblock]
        have hflat : (source :: rest).flatMap ParticlesBlock.active_particles =
            source.active_particles ++ (rest.dropLast.flatMap ParticlesBlock.active_particles ++
              target.active_particles) := by
          nth_rewrite 1 [hrest]
          simp [List.flatMap_cons, List.flatMap_append]
        simp only
        by_cases hfull : target.is_full = true
        · rw [if_pos hfull]
          obtain ⟨h1, h2⟩ := ih (source :: rest.dropLast) (by
            intro block hblock
            rcases List.mem_cons.mp hblock with h | h
            · rw [h]
              exact hsource
            · exact hdrop block h)
          constructor
          · intro block hblock
            rcases List.mem_append.mp hblock with h | h
            · exact h1 block h
            · rw [List.mem_singleton] at h
              rw [h]
              exact htarget
          · rw [hflat, List.flatMap_append, ← List.append_assoc]
            simp only [List.flatMap_cons, List.flatMap_nil, List.append_nil]
            exact List.Perm.append_right _ (by simpa [List.flatMap_cons] using h2)
        · rw [if_neg hfull]
          obtain ⟨m1, m2, mperm⟩ := MoveUntilFull_result source target hsource htarget
          have hmoved : List.Perm
              ((ParticlesBlock.MoveUntilFull source target).1.active_particles ++
                (rest.dropLast.flatMap ParticlesBlock.active_particles ++
                  (ParticlesBlock.MoveUntilFull source target).2.active_particles))
              (source.active_particles ++
                (rest.dropLast.flatMap ParticlesBlock.active_particles ++
                  target.active_particles)) := by
            refine List.Perm.trans ?_ (List.Perm.trans
              (List.Perm.append_right (rest.dropLast.flatMap ParticlesBlock.active_particles)
                mperm) ?_)
            · rw [List.append_assoc]
              exact List.Perm.append_left _ List.perm_append_comm
            · rw [List.append_assoc]
              exact List.Perm.append_left _ List.perm_append_comm
          have hwf2 : ∀ block ∈ rest.dropLast ++ [(ParticlesBlock.MoveUntilFull source target).2],
              block.well_formed := by
            intro block hblock
            rcases List.mem_append.mp hblock with h | h
            · exact hdrop block h
            · rw [List.mem_singleton] at h
              rw [h]
              exact m2
          by_cases hempty : (ParticlesBlock.MoveUntilFull source target).1.is_empty = true
          · rw [if_pos hempty]
            obtain ⟨h1, h2⟩ := ih _ hwf2
            constructor
            · intro block hblock
              rcases List.mem_cons.mp hblock with h | h
              · rw [h]
                exact m1
              · exact h1 block h
            · rw [hflat, List.flatMap_cons]
              refine List.Perm.trans (List.Perm.append_left _ h2) ?_
              simpa [List.flatMap_append] using hmoved
          · rw [if_neg hempty]
            obtain ⟨h1, h2⟩ := ih ((ParticlesBlock.MoveUntilFull source target).1 ::
              (rest.dropLast ++ [(ParticlesBlock.MoveUntilFull source target).2])) (by
              intro block hblock
              rcases List.mem_cons.mp hblock with h | h
              · rw [h]
                exact m1
              · exact hwf2 block h)
            refine ⟨h1, ?_⟩
            rw [hflat]
            refine List.Perm.trans h2 ?_
            simpa [List.flatMap_cons, List.flatMap_append] using hmoved

theorem Compress_result (blocks : List ParticlesBlock)
    (hwf : ∀ block ∈ blocks, block.well_formed) :
    (∀ block ∈ ParticlesBlock.Compress blocks, block.well_formed) ∧
    ((ParticlesBlock.Compress blocks).flatMap ParticlesBlock.active_particles).Perm
      (blocks.flatMap ParticlesBlock.active_particles) := by
  have hsort := List.perm_insertionSort (fun a b : ParticlesBlock =>
    a.active_amount ≤ b.active_amount) blocks
  obtain ⟨h1, h2⟩ := Compress_passes_result (2 * blocks.length)
    (blocks.insertionSort fun a b => a.active_amount ≤ b.active_amount)
    (fun block hblock => hwf block (hsort.mem_iff.mp hblock))
  exact ⟨h1, List.Perm.trans h2 (List.Perm.flatMap_right _ hsort)⟩

theorem active_particles_of_is_empty (block : ParticlesBlock) (h : block.is_empty = true) :
    block.active_particles = [] := by
  have h0 : block.active_amount = 0 := by simpa [ParticlesBlock.is_empty] using h
  simp [ParticlesBlock.active_particles, h0]

theorem compress_all_blocks_fold (blocks : List ParticlesBlock) :
    ∀ result : CompressResult,
      blocks.foldl (fun (result : CompressResult) block =>
        if block.is_empty then { result with released := result.released ++ [block] }
        else { result with container :=
          { result.container with blocks := result.container.blocks ++ [block] } }) result =
      ⟨⟨result.container.blocks ++ blocks.filter (fun block => !block.is_empty),
          result.container.block_size⟩,
        result.released ++ blocks.filter (fun block => block.is_empty)⟩ := by
  induction blocks with
  | nil =>
    intro result
    simp
  | cons block rest ih =>
    intro result
    rw [List.foldl_cons, ih]
    by_cases h : block.is_empty = true
    · simp [h]
    · simp [h]

theorem compress_all_blocks_result (particles : ParticlesContainer) :
    compress_all_blocks particles =
      ⟨⟨(ParticlesBlock.Compress particles.blocks).filter (fun block => !block.is_empty),
          particles.block_size⟩,
        (ParticlesBlock.Compress particles.blocks).filter (fun block => block.is_empty)⟩ := by
  unfold compress_all_blocks
  simp only [compress_all_blocks_fold]
  simp

theorem flatMap_filter_not_empty (blocks : List ParticlesBlock) :
    (blocks.filter (fun block => !block.is_empty)).flatMap ParticlesBlock.active_particles =
      blocks.flatMap ParticlesBlock.active_particles := by
  induction blocks with
  | nil => rfl
  | cons block rest ih =>
    by_cases h : block.is_empty = true
    · simp [List.filter_cons, h, List.flatMap_cons, active_particles_of_is_empty block h, ih]
    · simp [List.filter_cons, h, List.flatMap_cons, ih]

theorem sum_active_amount (blocks : List ParticlesBlock) :
    (blocks.map fun block => block.active_amount).sum =
      (blocks.flatMap ParticlesBlock.active_particles).length := by
  induction blocks with
  | nil => rfl
  | cons block rest ih =>
    simp [List.flatMap_cons, active_particles_length, ih]

theorem delete_tagged_particles_perm (blocks deleted : List ParticlesBlock)
    (h : List.Forall₂ (fun block deleted =>
      deleted.well_formed ∧ deleted.same_capacity block ∧
      (∀ q ∈ deleted.active_particles, q.kill_state ≠ 1) ∧
      deleted.active_particles.Perm
        (block.active_particles.filter (fun q => decide (q.kill_state ≠ 1)))) blocks deleted) :
    (deleted.flatMap ParticlesBlock.active_particles).Perm
      ((blocks.flatMap ParticlesBlock.active_particles).filter
        (fun q => decide (q.kill_state ≠ 1))) := by
  induction h with
  | nil => exact List.Perm.refl _
  | cons hab _ ih =>
    rw [List.flatMap_cons, List.flatMap_cons, List.filter_append]
    exact List.Perm.append hab.2.2.2 ih

/-- C16: mass conservation under compaction, for a container with well-formed
blocks.  Deletion returns; the sum of `active_amount` over the blocks it leaves
(the blocks `compress_all_blocks` starts from) is the number of particles that
deletion did not remove, none of which has kill state `1`, and it is the
number of particles with kill state `0` when every kill state is `0` or `1`.
The sum of `active_amount` over the blocks left in the container by
`compress_all_blocks` is the same number, the particles in them are exactly
the particles left by deletion (each once, with all attribute values), every
released block is empty, every block kept is not, and the kept and released
blocks together are the blocks that the compaction produced. -/
theorem compress_all_blocks_mass_conservation (container : ParticlesContainer)
    (hwf : ∀ block ∈ container.blocks, block.well_formed) :
    ∃ deleted, delete_tagged_particles container.blocks = some deleted ∧
      (deleted.map fun block => block.active_amount).sum =
        ((container.blocks.flatMap ParticlesBlock.active_particles).filter
          (fun q => decide (q.kill_state ≠ 1))).length ∧
      (deleted.flatMap ParticlesBlock.active_particles).Perm
        ((container.blocks.flatMap ParticlesBlock.active_particles).filter
          (fun q => decide (q.kill_state ≠ 1))) ∧
      ((∀ q ∈ container.blocks.flatMap ParticlesBlock.active_particles,
          q.kill_state = 0 ∨ q.kill_state = 1) →
        (deleted.map fun block => block.active_amount).sum =
          ((container.blocks.flatMap ParticlesBlock.active_particles).filter
            (fun q => decide (q.kill_state = 0))).length) ∧
      ((compress_all_blocks ⟨deleted, container.block_size⟩).container.blocks.map
          fun block => block.active_amount).sum =
        (deleted.map fun block => block.active_amount).sum ∧
      ((compress_all_blocks ⟨deleted, container.block_size⟩).container.blocks.flatMap
          ParticlesBlock.active_particles).Perm
        (deleted.flatMap ParticlesBlock.active_particles) ∧
      (∀ block ∈ (compress_all_blocks ⟨deleted, container.block_size⟩).released,
        block.is_empty = true) ∧
      (∀ block ∈ (compress_all_blocks ⟨deleted, container.block_size⟩).container.blocks,
        block.is_empty = false) ∧
      ((compress_all_blocks ⟨deleted, container.block_size⟩).container.blocks ++
          (compress_all_blocks ⟨deleted, container.block_size⟩).released).Perm
        (ParticlesBlock.Compress deleted) := by
  obtain ⟨deleted, hdel, hrel⟩ := delete_tagged_particles_result container.blocks hwf
  have hperm := delete_tagged_particles_perm container.blocks deleted hrel
  have hdwf : ∀ block ∈ deleted, block.well_formed :=
    forall2_right _ _ (fun _ _ h => h.1) _ _ hrel
  obtain ⟨_, hcperm⟩ := Compress_result deleted hdwf
  have hkept : ((compress_all_blocks ⟨deleted, container.block_size⟩).container.blocks.flatMap
      ParticlesBlock.active_particles).Perm
      (deleted.flatMap ParticlesBlock.active_particles) := by
    rw [compress_all_blocks_result]
    simp only
    rw [flatMap_filter_not_empty]
    exact hcperm
  refine ⟨deleted, hdel, ?_, hperm, ?_, ?_, hkept, ?_, ?_, ?_⟩
  · rw [sum_active_amount, hperm.length_eq]
  · intro hkill
    rw [sum_active_amount, hperm.length_eq]
    congr 1
    apply List.filter_congr
    intro q hq
    rcases hkill q hq with h | h <;> simp [h]
  · rw [sum_active_amount, sum_active_amount, hkept.length_eq]
  · intro block hblock
    rw [compress_all_blocks_result] at hblock
    exact (List.mem_filter.mp hblock).2
  · intro block hblock
    rw [compress_all_blocks_result] at hblock
    simpa using (List.mem_filter.mp hblock).2
  · rw [compress_all_blocks_result]
    simp only
    exact List.Perm.trans List.perm_append_comm
      (List.filter_append_perm (fun block => block.is_empty) (ParticlesBlock.Compress deleted))

/-- Witness for C16: three blocks of four slots with 3, 1 and 4 active
particles, three of them tagged.  Deletion leaves 2, 1 and 2 particles, five in
all; compaction leaves two blocks with 1 and 4 particles and releases one
empty block. -/
theorem compress_all_blocks_mass_conservation_witness :
    ∃ deleted, delete_tagged_particles three_blocks_container.blocks = some deleted ∧
      (deleted.map fun block => block.active_amount) = [2, 1, 2] ∧
      ((compress_all_blocks ⟨deleted, 4⟩).container.blocks.map
        fun block => block.active_amount) = [1, 4] ∧
      ((compress_all_blocks ⟨deleted, 4⟩).released.map
        fun block => block.active_amount) = [0] ∧
      ((compress_all_blocks ⟨deleted, 4⟩).container.blocks.flatMap
          ParticlesBlock.active_particles).Perm
        (deleted.flatMap ParticlesBlock.active_particles) := by
  obtain ⟨deleted, hdel, _, _, _, _, hperm, _⟩ :=
    compress_all_blocks_mass_conservation three_blocks_container (by
      intro block hblock
      simp only [three_blocks_container, List.mem_cons, List.mem_singleton,
        List.not_mem_nil, or_false] at hblock
      rcases hblock with h | h | h <;> subst h <;>
        exact ⟨by decide, by decide, by decide, by decide⟩)
  have h1 : (delete_tagged_particles three_blocks_container.blocks).map
      (fun deleted => ((deleted.map fun block => block.active_amount),
        ((compress_all_blocks ⟨deleted, 4⟩).container.blocks.map
          fun block => block.active_amount),
        ((compress_all_blocks ⟨deleted, 4⟩).released.map
          fun block => block.active_amount))) = some ([2, 1, 2], [1, 4], [0]) := by
    decide!
  rw [hdel] at h1
  simp only [Option.map_some', Option.some.injEq, Prod.mk.injEq] at h1
  exact ⟨deleted, hdel, h1.1, h1.2.1, h1.2.2, hperm⟩

/-! ## Iterations of the capped loop -/

theorem simulate_to_next_event_unfinished (particles : ParticleSet) (durations : List ℚ)
    (end_time : ℚ) (particle_type : ParticleType) (last_event_times : List ℚ)
    (hin : particles.in_block)
    (hd : durations.length = particles.size)
    (hev : ∀ ev ∈ particle_type.events, ev.in_range)
    (hlast : 0 < last_event_times.length → particles.size ≤ last_event_times.length)
    (hact : particle_type.events.length ≤ particle_type.action_per_event.length)
    (hkeep : ∀ (e : Nat) (action : Action), e < particle_type.events.length →
      particle_type.action_per_event[e]? = some action → action.keeps_capacity) :
    ∃ offsets next r,
      compute_ideal_attribute_offsets particles durations particle_type
        ⟨List.replicate particles.size 0, List.replicate particles.size 0⟩ = some offsets ∧
      find_next_event_per_particle particles offsets durations end_time particle_type.events
        last_event_times = some next ∧
      simulate_to_next_event particles durations end_time particle_type last_event_times
        [] [] = some r ∧
      next_event_inv particles.size (fun e i t =>
        reports particles offsets durations end_time particle_type.events e i t ∧
        ¬ retrigger_guard_discards durations end_time last_event_times i t) next ∧
      ∀ (j s : Nat) (rem : ℚ), r.unfinished_particle_indices[j]? = some s →
        r.remaining_durations[j]? = some rem →
        ∃ (i : Nat) (d : ℚ) (k : Int) (t : ℚ), particles.indices[i]? = some s ∧
          durations[i]? = some d ∧ next.1[i]? = some k ∧ k ≠ -1 ∧ next.2[i]? = some t ∧
          rem = d * (1 - t) := by
  obtain ⟨offsets, next, block1, groups, block2, calls, hoffs, hnext, _, _, _, hres, hinv, _⟩ :=
    simulate_to_next_event_result particles durations end_time particle_type last_event_times
      [] [] hin hd hev hlast hact hkeep
  refine ⟨offsets, next, _, hoffs, hnext, hres, hinv, ?_⟩
  intro j s rem hs hrem
  simp only [List.nil_append, List.getElem?_map, Option.map_eq_some'] at hs hrem
  obtain ⟨i, hi, his⟩ := hs
  obtain ⟨i1, hi1, hirem⟩ := hrem
  rw [hi] at hi1
  cases hi1
  have hmem := List.getElem?_mem hi
  unfold unfinished_positions at hmem
  rw [List.mem_filter, List.mem_range] at hmem
  obtain ⟨hlt, hcond⟩ := hmem
  have hlt1 : i < particles.size := hlt
  obtain ⟨k, t, hk, ht, _⟩ := hinv.2.2 i hlt1
  obtain ⟨d, hdi⟩ : ∃ d, durations[i]? = some d :=
    ⟨_, List.getElem?_eq_getElem (by omega)⟩
  refine ⟨i, d, k, t, ?_, hdi, hk, ?_, ht, ?_⟩
  · rw [← his, List.getD_eq_getElem?_getD, List.getElem?_eq_getElem hlt]
    rfl
  · intro hk1
    rw [hk, hk1] at hcond
    simp at hcond
  · rw [← hirem]
    simp [List.getD_eq_getElem?_getD, hdi, ht]

theorem simulate_iteration_succ (end_time : ℚ) (particle_type : ParticleType) :
    ∀ (k : Nat) (block : ParticlesBlock) (indices : List Nat) (durations last : List ℚ),
      simulate_iteration end_time particle_type (k + 1) block indices durations last =
        (simulate_iteration end_time particle_type k block indices durations last).bind
          fun rk => simulate_to_next_event ⟨rk.block, rk.unfinished_particle_indices⟩
            rk.remaining_durations end_time particle_type
            (rk.remaining_durations.map fun duration => end_time - duration) [] [] := by
  intro k
  induction k with
  | zero =>
    intro block indices durations last
    rfl
  | succ k ih =>
    intro block indices durations last
    rw [simulate_iteration]
    cases h : simulate_to_next_event ⟨block, indices⟩ durations end_time particle_type last
      [] [] with
    | none => simp [simulate_iteration, h]
    | some r =>
      rw [Option.some_bind, ih]
      conv_rhs => rw [simulate_iteration, h, Option.some_bind]

theorem simulate_iteration_result (end_time : ℚ) (particle_type : ParticleType)
    (hev : ∀ ev ∈ particle_type.events, ev.in_range)
    (hact : particle_type.events.length ≤ particle_type.action_per_event.length)
    (hkeep : ∀ (e : Nat) (action : Action), e < particle_type.events.length →
      particle_type.action_per_event[e]? = some action → action.keeps_capacity) :
    ∀ (k : Nat) (block : ParticlesBlock) (indices : List Nat) (durations last : List ℚ),
      ParticleSet.in_block ⟨block, indices⟩ → durations.length = indices.length →
      (0 < last.length → indices.length ≤ last.length) →
      ∃ rk, simulate_iteration end_time particle_type k block indices durations last
          = some rk ∧
        rk.unfinished_particle_indices.Sublist indices ∧
        rk.remaining_durations.length = rk.unfinished_particle_indices.length ∧
        ParticleSet.in_block ⟨rk.block, rk.unfinished_particle_indices⟩ := by
  intro k
  induction k with
  | zero =>
    intro block indices durations last hin hd hlast
    obtain ⟨_, _, r, _, _, hr, _, _⟩ := simulate_to_next_event_unfinished ⟨block, indices⟩
      durations end_time particle_type last hin hd hev hlast hact hkeep
    obtain ⟨h1, h2, _, h4⟩ := simulate_to_next_event_next_set ⟨block, indices⟩ durations
      end_time particle_type last hin hd hev hlast hact hkeep r hr
    exact ⟨r, hr, h1, h2, h4⟩
  | succ k ih =>
    intro block indices durations last hin hd hlast
    obtain ⟨_, _, r, _, _, hr, _, _⟩ := simulate_to_next_event_unfinished ⟨block, indices⟩
      durations end_time particle_type last hin hd hev hlast hact hkeep
    obtain ⟨h1, h2, _, h4⟩ := simulate_to_next_event_next_set ⟨block, indices⟩ durations
      end_time particle_type last hin hd hev hlast hact hkeep r hr
    obtain ⟨rk, hrk, g1, g2, g4⟩ := ih r.block r.unfinished_particle_indices
      r.remaining_durations (r.remaining_durations.map fun duration => end_time - duration)
      h4 h2 (fun _ => by rw [List.length_map, h2])
    refine ⟨rk, ?_, g1.trans h1, g2, g4⟩
    rw [simulate_iteration, hr, Option.some_bind]
    exact hrk

/-! ## Shrinking work across the iterations -/

theorem foldlM_range_preserved {σ : Type} (f : σ → Nat → Option σ) (I : Nat → σ → Prop)
    (n : Nat) (s0 : σ) (h0 : I 0 s0)
    (hstep : ∀ m s s1, m < n → I m s → f s m = some s1 → I (m + 1) s1) :
    ∀ s, (List.range n).foldlM f s0 = some s → I n s := by
  induction n with
  | zero =>
    intro s hs
    cases hs
    exact h0
  | succ n ih =>
    intro s hs
    rw [List.range_succ, List.foldlM_append] at hs
    cases hmid : (List.range n).foldlM f s0 with
    | none => simp [hmid] at hs
    | some mid =>
      rw [hmid] at hs
      have hI := ih (fun m s s1 hm => hstep m s s1 (Nat.lt_succ_of_lt hm)) mid hmid
      have hf : f mid n = some s := by simpa [List.foldlM] using hs
      exact hstep n mid s (Nat.lt_succ_self n) hI hf

theorem find_unfinished_particles_positions (particle_indices : List Nat)
    (next_event_indices : List Int) (time_factors : List ℚ) (durations : List ℚ)
    (kill_states : List Nat) (r res : List Nat × List ℚ)
    (h : find_unfinished_particles particle_indices next_event_indices time_factors durations
      kill_states r = some res) :
    ∃ positions : List Nat, positions.Sublist (List.range particle_indices.length) ∧
      res.1 = r.1 ++ positions.map (fun i => particle_indices.getD i 0) ∧
      res.2 = r.2 ++ positions.map (fun i => durations.getD i 0 * (1 - time_factors.getD i 0)) ∧
      ∀ i ∈ positions, i < durations.length ∧ i < time_factors.length := by
  refine foldlM_range_preserved _ (fun m (res : List Nat × List ℚ) =>
    ∃ positions : List Nat, positions.Sublist (List.range m) ∧
      res.1 = r.1 ++ positions.map (fun i => particle_indices.getD i 0) ∧
      res.2 = r.2 ++ positions.map (fun i => durations.getD i 0 * (1 - time_factors.getD i 0)) ∧
      ∀ i ∈ positions, i < durations.length ∧ i < time_factors.length)
    particle_indices.length r ⟨[], by simp, by simp, by simp, by simp⟩ ?_ res h
  intro m s s1 hm ⟨positions, hsub, h1, h2, h3⟩ hf
  have hkeep : ∃ positions : List Nat, positions.Sublist (List.range (m + 1)) ∧
      s.1 = r.1 ++ positions.map (fun i => particle_indices.getD i 0) ∧
      s.2 = r.2 ++ positions.map
        (fun i => durations.getD i 0 * (1 - time_factors.getD i 0)) ∧
      ∀ i ∈ positions, i < durations.length ∧ i < time_factors.length := by
    refine ⟨positions, ?_, h1, h2, h3⟩
    rw [List.range_succ]
    exact List.sublist_append_of_sublist_left hsub
  simp only [Option.bind_eq_some] at hf
  obtain ⟨pindex, hp, event_index, he, hf⟩ := hf
  by_cases hne : event_index ≠ -1
  · rw [if_pos hne] at hf
    simp only [Option.bind_eq_some] at hf
    obtain ⟨kill_state, _, hf⟩ := hf
    by_cases hk : kill_state = 0
    · rw [if_pos hk] at hf
      simp only [Option.bind_eq_some] at hf
      obtain ⟨time_factor, htf, duration, hdur, hf⟩ := hf
      cases hf
      refine ⟨positions ++ [m], ?_, ?_, ?_, ?_⟩
      · rw [List.range_succ]
        exact List.Sublist.append hsub (List.Sublist.refl _)
      · simp [h1, List.getD_eq_getElem?_getD, hp]
      · simp [h2, List.getD_eq_getElem?_getD, htf, hdur]
      · intro i hi
        rcases List.mem_append.mp hi with hi1 | hi1
        · exact h3 i hi1
        · rw [List.mem_singleton] at hi1
          rw [hi1]
          exact ⟨(List.getElem?_eq_some.mp hdur).1, (List.getElem?_eq_some.mp htf).1⟩
    · rw [if_neg hk] at hf
      cases hf
      exact hkeep
  · rw [if_neg hne] at hf
    cases hf
    exact hkeep

theorem find_next_event_candidate_bounds (durations : List ℚ) (end_time : ℚ)
    (last_event_times : List ℚ) (event_index : Nat) (r r1 : List Int × List ℚ) (c : Nat × ℚ)
    (hr : ∀ t ∈ r.2, 0 ≤ t ∧ t ≤ 1) (hc : 0 ≤ c.2)
    (h : find_next_event_candidate durations end_time last_event_times event_index r c
      = some r1) :
    ∀ t ∈ r1.2, 0 ≤ t ∧ t ≤ 1 := by
  unfold find_next_event_candidate at h
  simp only [Option.bind_eq_some] at h
  obtain ⟨best, hbest, h⟩ := h
  have hb1 : best ≤ 1 := (hr best (List.getElem?_mem hbest)).2
  have hrecord : ∀ r2 : List Int × List ℚ, c.2 < best →
      ((store r.1 c.1 (event_index : Int)).bind fun indices =>
        (store r.2 c.1 c.2).bind fun factors => some (indices, factors)) = some r2 →
      ∀ t ∈ r2.2, 0 ≤ t ∧ t ≤ 1 := by
    intro r2 hlt h2
    simp only [Option.bind_eq_some] at h2
    obtain ⟨indices, _, factors, hfac, h2⟩ := h2
    cases h2
    unfold store at hfac
    split at hfac
    · cases hfac
      intro t ht
      rcases List.mem_or_eq_of_mem_set ht with h3 | h3
      · exact hr t h3
      · rw [h3]
        exact ⟨hc, by linarith⟩
    · cases hfac
  by_cases hlt : c.2 < best
  · rw [if_pos hlt] at h
    by_cases hlast : last_event_times.length > 0
    · rw [if_pos hlast] at h
      simp only [Option.bind_eq_some] at h
      obtain ⟨duration, _, last, _, h⟩ := h
      split at h
      · cases h
        exact hr
      · exact hrecord r1 hlt h
    · rw [if_neg hlast] at h
      exact hrecord r1 hlt h
  · rw [if_neg hlt] at h
    cases h
    exact hr

theorem find_next_event_loop_bounds (particles : ParticleSet) (ideal_offsets : IdealOffsets)
    (durations : List ℚ) (end_time : ℚ) (last_event_times : List ℚ) :
    ∀ (events : List Event) (event_index : Nat) (r r1 : List Int × List ℚ),
      (∀ ev ∈ events, ev.factors_in_unit_interval) →
      (∀ t ∈ r.2, 0 ≤ t ∧ t ≤ 1) →
      find_next_event_loop particles ideal_offsets durations end_time last_event_times events
        event_index r = some r1 →
      ∀ t ∈ r1.2, 0 ≤ t ∧ t ≤ 1 := by
  intro events
  induction events with
  | nil =>
    intro event_index r r1 _ hr h
    simp only [find_next_event_loop, Option.some.injEq] at h
    rw [← h]
    exact hr
  | cons event rest ih =>
    intro event_index r r1 hev hr h
    simp only [find_next_event_loop, Option.bind_eq_some] at h
    obtain ⟨r2, hfold, hrest⟩ := h
    have hmid : ∀ t ∈ r2.2, 0 ≤ t ∧ t ≤ 1 := by
      have hall : ∀ c ∈ event.filter particles ideal_offsets durations end_time, 0 ≤ c.2 :=
        fun c hc => (hev event (List.mem_cons_self _ _) particles ideal_offsets durations
          end_time c hc).1
      revert hr hfold hall
      generalize event.filter particles ideal_offsets durations end_time = candidates
      intro hr hfold hall
      induction candidates generalizing r with
      | nil =>
        cases hfold
        exact hr
      | cons c cs ihc =>
        rw [List.foldlM_cons] at hfold
        simp only [Option.bind_eq_bind, Option.bind_eq_some] at hfold
        obtain ⟨r3, h3, hfold3⟩ := hfold
        exact ihc r3 (find_next_event_candidate_bounds durations end_time last_event_times
          event_index r r3 c hr (hall c (List.mem_cons_self _ _)) h3) hfold3
          (fun c1 hc1 => hall c1 (List.mem_cons_of_mem _ hc1))
    exact ih (event_index + 1) r2 r1 (fun ev h1 => hev ev (List.mem_cons_of_mem _ h1)) hmid
      hrest

theorem find_next_event_per_particle_bounds (particles : ParticleSet)
    (ideal_offsets : IdealOffsets) (durations : List ℚ) (end_time : ℚ) (events : List Event)
    (last_event_times : List ℚ) (next : List Int × List ℚ)
    (hev : ∀ ev ∈ events, ev.factors_in_unit_interval)
    (h : find_next_event_per_particle particles ideal_offsets durations end_time events
      last_event_times = some next) :
    ∀ t ∈ next.2, 0 ≤ t ∧ t ≤ 1 := by
  unfold find_next_event_per_particle at h
  refine find_next_event_loop_bounds particles ideal_offsets durations end_time
    last_event_times events 0 _ next hev ?_ h
  intro t ht
  rw [List.eq_of_mem_replicate ht]
  exact ⟨by norm_num, le_refl _⟩

theorem simulate_to_next_event_shrinks (particles : ParticleSet) (durations : List ℚ)
    (end_time : ℚ) (particle_type : ParticleType) (last_event_times : List ℚ)
    (r : NextEventResult)
    (h : simulate_to_next_event particles durations end_time particle_type last_event_times
      [] [] = some r) :
    r.unfinished_particle_indices.Sublist particles.indices ∧
    r.remaining_durations.length = r.unfinished_particle_indices.length ∧
    ((∀ ev ∈ particle_type.events, ev.factors_in_unit_interval) →
      (∀ d ∈ durations, 0 ≤ d) →
      remaining_within particles.indices durations r.unfinished_particle_indices
        r.remaining_durations ∧
      ∀ d ∈ r.remaining_durations, 0 ≤ d) := by
  unfold simulate_to_next_event at h
  simp only [Option.bind_eq_some] at h
  obtain ⟨offsets, _, next, hnext, block1, _, groups, _, ran, _, unfinished, hunf, hr⟩ := h
  cases hr
  obtain ⟨positions, hsub, h1, h2, hpos⟩ := find_unfinished_particles_positions _ _ _ _ _ _ _
    hunf
  simp only [List.nil_append] at h1 h2
  have hwithin : (∀ ev ∈ particle_type.events, ev.factors_in_unit_interval) →
      (∀ d ∈ durations, 0 ≤ d) →
      ∀ (j : Nat) (rem : ℚ), unfinished.2[j]? = some rem →
        ∃ (i : Nat) (d : ℚ), positions[j]? = some i ∧ durations[i]? = some d ∧
          0 ≤ rem ∧ rem ≤ d := by
    intro hev hdur j rem hrem
    rw [h2, List.getElem?_map, Option.map_eq_some'] at hrem
    obtain ⟨i, hi, hval⟩ := hrem
    obtain ⟨hid, hit⟩ := hpos i (List.getElem?_mem hi)
    obtain ⟨d, hd⟩ : ∃ d, durations[i]? = some d := ⟨_, List.getElem?_eq_getElem hid⟩
    obtain ⟨t, ht⟩ : ∃ t, next.2[i]? = some t := ⟨_, List.getElem?_eq_getElem hit⟩
    have hd0 : 0 ≤ d := hdur d (List.getElem?_mem hd)
    obtain ⟨ht0, ht1⟩ := find_next_event_per_particle_bounds particles offsets durations
      end_time particle_type.events last_event_times next hev hnext t (List.getElem?_mem ht)
    have hrem : rem = d * (1 - t) := by
      rw [← hval]
      simp [List.getD_eq_getElem?_getD, hd, ht]
    refine ⟨i, d, hi, hd, ?_, ?_⟩
    · rw [hrem]
      exact mul_nonneg hd0 (by linarith)
    · rw [hrem]
      nlinarith
  refine ⟨?_, ?_, ?_⟩
  · show unfinished.1.Sublist particles.indices
    rw [h1]
    have hmap := List.Sublist.map (fun i => particles.indices.getD i 0) hsub
    rw [map_getD_range] at hmap
    exact hmap
  · show unfinished.2.length = unfinished.1.length
    rw [h1, h2]
    simp
  · intro hev hdur
    constructor
    · intro j s rem hs hrem
      obtain ⟨i, d, hi, hd, h0, hle⟩ := hwithin hev hdur j rem hrem
      refine ⟨i, d, ?_, hd, h0, hle⟩
      have hs1 : unfinished.1[j]? = some s := hs
      rw [h1, List.getElem?_map, hi] at hs1
      have hlt : i < particles.indices.length :=
        List.mem_range.mp (hsub.subset (List.getElem?_mem hi))
      rw [List.getElem?_eq_getElem hlt]
      simpa [List.getD_eq_getElem?_getD, List.getElem?_eq_getElem hlt] using hs1
    · intro d hd
      obtain ⟨j, hj⟩ := List.getElem?_of_mem hd
      have hj1 : unfinished.2[j]? = some d := hj
      obtain ⟨_, _, _, _, h0, _⟩ := hwithin hev hdur j d hj1
      exact h0

theorem simulate_iteration_shrinks (end_time : ℚ) (particle_type : ParticleType) :
    ∀ (k : Nat) (block : ParticlesBlock) (indices : List Nat) (durations last : List ℚ)
      (rk : NextEventResult),
      simulate_iteration end_time particle_type k block indices durations last = some rk →
      rk.unfinished_particle_indices.Sublist indices ∧
      rk.remaining_durations.length = rk.unfinished_particle_indices.length ∧
      ((∀ ev ∈ particle_type.events, ev.factors_in_unit_interval) →
        (∀ d ∈ durations, 0 ≤ d) →
        remaining_within indices durations rk.unfinished_particle_indices
          rk.remaining_durations ∧
        ∀ d ∈ rk.remaining_durations, 0 ≤ d) := by
  intro k
  induction k with
  | zero =>
    intro block indices durations last rk h
    exact simulate_to_next_event_shrinks ⟨block, indices⟩ durations end_time particle_type
      last rk h
  | succ k ih =>
    intro block indices durations last rk h
    rw [simulate_iteration] at h
    simp only [Option.bind_eq_some] at h
    obtain ⟨r, hr, hrk⟩ := h
    obtain ⟨h1, _, h3⟩ := simulate_to_next_event_shrinks ⟨block, indices⟩ durations end_time
      particle_type last r hr
    obtain ⟨g1, g2, g3⟩ := ih _ _ _ _ rk hrk
    refine ⟨g1.trans h1, g2, ?_⟩
    intro hev hdur
    obtain ⟨hw, hnn⟩ := h3 hev hdur
    obtain ⟨gw, gnn⟩ := g3 hev hnn
    refine ⟨?_, gnn⟩
    intro j s rem hs hrem
    obtain ⟨i, d, hi, hd, h0, hle⟩ := gw j s rem hs hrem
    obtain ⟨i0, d0, hi0, hd0, _, hle0⟩ := hw i s d hi hd
    exact ⟨i0, d0, hi0, hd0, h0, le_trans hle hle0⟩

/-- C22: across the iterations of `simulate_with_max_n_events` the work shrinks.
Iterations are numbered from `0`.  Whenever iteration `k + 1` returns, its
unfinished indices are a subsequence of the unfinished indices of iteration `k`,
the indices it simulated.  Whenever iteration `k` returns, its unfinished
indices are a subsequence of the indices of the original particle set, so each
of them is in the original set and they have no duplicates when the original
set has none.  When every event reports time factors in `[0, 1]` and the
durations are not negative, each remaining duration `r` of a particle satisfies
`0 ≤ r ≤ d`, where `d` is its duration in that iteration, and `0 ≤ r ≤ d` for its
original duration `d` as well.  On a particle set that lies in its block, with
events that report positions of the set and actions that keep the block
capacity, every iteration returns and the result of
`simulate_with_max_n_events` has these properties. -/
theorem simulate_with_max_n_events_work_shrinks (particles : ParticleSet)
    (durations : List ℚ) (end_time : ℚ) (particle_type : ParticleType) (k : Nat) :
    (∀ rk1, simulate_iteration end_time particle_type (k + 1) particles.block
        particles.indices durations [] = some rk1 →
      ∃ rk, simulate_iteration end_time particle_type k particles.block particles.indices
          durations [] = some rk ∧
        rk1.unfinished_particle_indices.Sublist rk.unfinished_particle_indices ∧
        ((∀ ev ∈ particle_type.events, ev.factors_in_unit_interval) →
          (∀ d ∈ durations, 0 ≤ d) →
          remaining_within rk.unfinished_particle_indices rk.remaining_durations
            rk1.unfinished_particle_indices rk1.remaining_durations)) ∧
    (∀ rk, simulate_iteration end_time particle_type k particles.block particles.indices
        durations [] = some rk →
      rk.unfinished_particle_indices.Sublist particles.indices ∧
      (∀ s ∈ rk.unfinished_particle_indices, s ∈ particles.indices) ∧
      (particles.indices.Nodup → rk.unfinished_particle_indices.Nodup) ∧
      rk.remaining_durations.length = rk.unfinished_particle_indices.length ∧
      ((∀ ev ∈ particle_type.events, ev.factors_in_unit_interval) →
        (∀ d ∈ durations, 0 ≤ d) →
        remaining_within particles.indices durations rk.unfinished_particle_indices
          rk.remaining_durations)) ∧
    (particles.in_block → durations.length = particles.size →
      (∀ ev ∈ particle_type.events, ev.in_range) →
      particle_type.events.length ≤ particle_type.action_per_event.length →
      (∀ (e : Nat) (action : Action), e < particle_type.events.length →
        particle_type.action_per_event[e]? = some action → action.keeps_capacity) →
      (∃ rk, simulate_iteration end_time particle_type k particles.block particles.indices
        durations [] = some rk) ∧
      ∀ max_events, 0 < max_events → ∃ r, simulate_with_max_n_events max_events particles
          durations end_time particle_type [] [] = some r ∧
        r.unfinished_particle_indices.Sublist particles.indices ∧
        r.unfinished_particle_indices.Nodup ∧
        ((∀ ev ∈ particle_type.events, ev.factors_in_unit_interval) →
          (∀ d ∈ durations, 0 ≤ d) →
          remaining_within particles.indices durations r.unfinished_particle_indices
            r.remaining_durations)) := by
  refine ⟨?_, ?_, ?_⟩
  · intro rk1 h1
    rw [simulate_iteration_succ] at h1
    simp only [Option.bind_eq_some] at h1
    obtain ⟨rk, hrk, hstep⟩ := h1
    obtain ⟨_, _, hk3⟩ := simulate_iteration_shrinks end_time particle_type k _ _ _ _ rk hrk
    obtain ⟨s1, _, s3⟩ := simulate_to_next_event_shrinks _ _ _ _ _ rk1 hstep
    exact ⟨rk, hrk, s1, fun hev hdur => (s3 hev (hk3 hev hdur).2).1⟩
  · intro rk hrk
    obtain ⟨h1, h2, h3⟩ := simulate_iteration_shrinks end_time particle_type k _ _ _ _ rk hrk
    exact ⟨h1, fun s hs => h1.subset hs, fun hnodup => h1.nodup hnodup, h2,
      fun hev hdur => (h3 hev hdur).1⟩
  · intro hin hd hev hact hkeep
    constructor
    · obtain ⟨rk, hrk, _⟩ := simulate_iteration_result end_time particle_type hev hact hkeep k
        particles.block particles.indices durations [] hin hd (fun h => absurd h (by simp))
      exact ⟨rk, hrk⟩
    · intro max_events hmax
      obtain ⟨todo, htodo⟩ : ∃ todo, max_events = todo + 1 := ⟨max_events - 1, by omega⟩
      subst htodo
      obtain ⟨r, lastr, hr, _, _, hlast, _, hu, hrem, _⟩ :=
        simulate_with_max_n_events_loop_result end_time particle_type hev hact hkeep todo 0
          particles.block particles.indices durations [] [] [] hin hd
          (fun h => absurd h (by simp))
      obtain ⟨h1, _, h3⟩ := simulate_iteration_shrinks end_time particle_type _ _ _ _ _ lastr
        hlast
      refine ⟨r, hr, ?_, ?_, ?_⟩
      · rw [hu]
        exact h1
      · rw [hu]
        exact h1.nodup hin.1
      · intro hfac hdur
        rw [hu, hrem]
        exact (h3 hfac hdur).1

theorem event_all_half_factors : event_all_half.factors_in_unit_interval := by
  intro particles ideal_offsets durations end_time c hc
  have h := event_all_half_factor particles ideal_offsets durations end_time c.1 c.2 hc
  rw [h]
  constructor <;> norm_num

/-- Witness for C22: both particles of the two-slot block fire an event at time
factor `0.5` in each of the ten iterations of `simulate_with_max_n_events 10`;
both are still unfinished at the end, with remaining duration `1 / 1024`. -/
theorem simulate_with_max_n_events_work_shrinks_witness :
    ∃ r, simulate_with_max_n_events 10 ⟨sample_block, [0, 1]⟩ [1, 1] 1 tie_particle_type
        [] [] = some r ∧
      r.unfinished_particle_indices = [0, 1] ∧
      r.remaining_durations = [1 / 1024, 1 / 1024] ∧
      r.unfinished_particle_indices.Sublist [0, 1] ∧
      remaining_within [0, 1] [1, 1] r.unfinished_particle_indices r.remaining_durations := by
  obtain ⟨r, hr, hsub, _, hwithin⟩ :=
    ((simulate_with_max_n_events_work_shrinks ⟨sample_block, [0, 1]⟩ [1, 1] 1
      tie_particle_type 0).2.2 ⟨by decide, by decide⟩ (by decide)
      (fun ev h => by rw [tie_particle_type_events ev h]; exact event_all_half_in_range)
      (by decide) (fun e action _ h => tie_particle_type_keeps e action h)).2 10 (by decide)
  have hval : (simulate_with_max_n_events 10 ⟨sample_block, [0, 1]⟩ [1, 1] 1 tie_particle_type
      [] []).map (fun r => (r.unfinished_particle_indices, r.remaining_durations))
      = some ([0, 1], [1 / 1024, 1 / 1024]) := by decide!
  rw [hr] at hval
  simp only [Option.map_some', Option.some.injEq, Prod.mk.injEq] at hval
  refine ⟨r, hr, hval.1, hval.2, hsub, hwithin ?_ ?_⟩
  · intro ev h
    rw [tie_particle_type_events ev h]
    exact event_all_half_factors
  · intro d hd
    simp only [List.mem_cons, List.mem_singleton, List.not_mem_nil, or_false, or_self] at hd
    rw [hd]
    norm_num

/-! ## Single-precision rounding -/

theorem log2_floor_eq (n : Nat) : log2_floor n = Nat.log2 n := by
  have h : ∀ (fuel n : Nat), n ≤ fuel → log2_floor_loop fuel n = Nat.log2 n := by
    intro fuel
    induction fuel with
    | zero =>
      intro n hn
      have h0 : n = 0 := by omega
      subst h0
      simp [log2_floor_loop, Nat.log2]
    | succ fuel ih =>
      intro n hn
      rw [log2_floor_loop, Nat.log2]
      by_cases h : n < 2
      · have h2 : ¬ n ≥ 2 := by omega
        simp [h, h2]
      · have h2 : n ≥ 2 := by omega
        simp only [h, h2, if_true, if_false]
        rw [ih (n / 2) (by omega)]
  exact h n n (le_refl n)

theorem floor_le_round_half_even (x : ℚ) : ⌊x⌋ ≤ round_half_even x := by
  unfold round_half_even
  split_ifs <;> omega

theorem round_half_even_le (x : ℚ) : round_half_even x ≤ ⌊x⌋ + 1 := by
  unfold round_half_even
  split_ifs <;> omega

theorem round_half_even_intCast (n : Int) : round_half_even (n : ℚ) = n := by
  unfold round_half_even
  simp

theorem round_half_even_mono (x y : ℚ) (h : x ≤ y) : round_half_even x ≤ round_half_even y := by
  rcases lt_or_eq_of_le (Int.floor_mono h) with hlt | heq
  · have h1 := round_half_even_le x
    have h2 := floor_le_round_half_even y
    omega
  · unfold round_half_even
    rw [← heq]
    split_ifs <;> first | omega | linarith

theorem round_half_even_le_of_le (x : ℚ) (n : Int) (h : x ≤ n) : round_half_even x ≤ n := by
  have := round_half_even_mono x n h
  rwa [round_half_even_intCast] at this

theorem le_round_half_even_of_le (x : ℚ) (n : Int) (h : (n : ℚ) ≤ x) :
    n ≤ round_half_even x := by
  have := round_half_even_mono n x h
  rwa [round_half_even_intCast] at this

theorem abs_eq_num_div_den (x : ℚ) : |x| = (x.num.natAbs : ℚ) / (x.den : ℚ) := by
  rw [Rat.abs_def, Rat.divInt_eq_div, Int.cast_natCast, Int.cast_natCast]

theorem two_zpow_pos (k : Int) : (0 : ℚ) < 2 ^ k := zpow_pos (by norm_num) k

theorem two_zpow_le (a b : Int) (h : a ≤ b) : (2 : ℚ) ^ a ≤ 2 ^ b :=
  zpow_le_zpow_right₀ (by norm_num) h

theorem two_zpow_natCast (n : Nat) : (2 : ℚ) ^ (n : Int) = ((2 ^ n : Nat) : ℚ) := by
  rw [zpow_natCast]
  push_cast
  rfl

theorem binade_spec (x : ℚ) (hx : x ≠ 0) :
    (2 : ℚ) ^ binade x ≤ |x| ∧ |x| < 2 ^ (binade x + 1) := by
  have hn : x.num.natAbs ≠ 0 := by
    intro h
    exact hx (Rat.num_eq_zero.mp (Int.natAbs_eq_zero.mp h))
  have hd : x.den ≠ 0 := x.den_nz
  have ha1 : (2 : ℚ) ^ (log2_floor x.num.natAbs : Int) ≤ (x.num.natAbs : ℚ) := by
    rw [two_zpow_natCast, log2_floor_eq]
    exact_mod_cast Nat.log2_self_le hn
  have ha2 : (x.num.natAbs : ℚ) < 2 ^ ((log2_floor x.num.natAbs : Int) + 1) := by
    have h := two_zpow_natCast (log2_floor x.num.natAbs + 1)
    push_cast at h
    rw [h, log2_floor_eq]
    exact_mod_cast (Nat.lt_log2_self : x.num.natAbs < 2 ^ (x.num.natAbs.log2 + 1))
  have hb1 : (2 : ℚ) ^ (log2_floor x.den : Int) ≤ (x.den : ℚ) := by
    rw [two_zpow_natCast, log2_floor_eq]
    exact_mod_cast Nat.log2_self_le hd
  have hb2 : (x.den : ℚ) < 2 ^ ((log2_floor x.den : Int) + 1) := by
    have h := two_zpow_natCast (log2_floor x.den + 1)
    push_cast at h
    rw [h, log2_floor_eq]
    exact_mod_cast (Nat.lt_log2_self : x.den < 2 ^ (x.den.log2 + 1))
  have hdpos : (0 : ℚ) < (x.den : ℚ) := by exact_mod_cast Nat.pos_of_ne_zero hd
  have habs := abs_eq_num_div_den x
  have hupper : |x| < 2 ^ ((log2_floor x.num.natAbs : Int) - (log2_floor x.den : Int) + 1) := by
    rw [habs, div_lt_iff₀ hdpos]
    have h1 : (2 : ℚ) ^ ((log2_floor x.num.natAbs : Int) + 1) =
        2 ^ ((log2_floor x.num.natAbs : Int) - (log2_floor x.den : Int) + 1) *
          2 ^ (log2_floor x.den : Int) := by
      rw [← zpow_add₀ (by norm_num : (2 : ℚ) ≠ 0)]
      congr 1
      ring
    calc (x.num.natAbs : ℚ) < 2 ^ ((log2_floor x.num.natAbs : Int) + 1) := ha2
      _ = _ := h1
      _ ≤ _ := mul_le_mul_of_nonneg_left hb1 (le_of_lt (two_zpow_pos _))
  have hlower : (2 : ℚ) ^ ((log2_floor x.num.natAbs : Int) - (log2_floor x.den : Int) - 1)
      ≤ |x| := by
    rw [habs, le_div_iff₀ hdpos]
    have h1 : (2 : ℚ) ^ (log2_floor x.num.natAbs : Int) =
        2 ^ ((log2_floor x.num.natAbs : Int) - (log2_floor x.den : Int) - 1) *
          2 ^ ((log2_floor x.den : Int) + 1) := by
      rw [← zpow_add₀ (by norm_num : (2 : ℚ) ≠ 0)]
      congr 1
      ring
    calc _ ≤ 2 ^ ((log2_floor x.num.natAbs : Int) - (log2_floor x.den : Int) - 1) *
          2 ^ ((log2_floor x.den : Int) + 1) :=
        mul_le_mul_of_nonneg_left (le_of_lt hb2) (le_of_lt (two_zpow_pos _))
      _ = _ := h1.symm
      _ ≤ _ := ha1
  unfold binade
  split_ifs with h
  · exact ⟨h, hupper⟩
  · refine ⟨hlower, ?_⟩
    rw [show (log2_floor x.num.natAbs : Int) - (log2_floor x.den : Int) - 1 + 1 =
      (log2_floor x.num.natAbs : Int) - (log2_floor x.den : Int) by ring]
    exact not_le.mp h

theorem binade_mono (x y : ℚ) (hx : 0 < x) (h : x ≤ y) : binade x ≤ binade y := by
  by_contra hlt
  have hlt1 : binade y + 1 ≤ binade x := by omega
  have h1 := (binade_spec x (ne_of_gt hx)).1
  have h2 := (binade_spec y (ne_of_gt (lt_of_lt_of_le hx h))).2
  rw [abs_of_pos hx] at h1
  rw [abs_of_pos (lt_of_lt_of_le hx h)] at h2
  have h3 := two_zpow_le _ _ hlt1
  linarith

theorem two_zpow_eq_intCast (k : Int) (hk : 0 ≤ k) : ∃ N : Int, (N : ℚ) = 2 ^ k := by
  refine ⟨2 ^ k.toNat, ?_⟩
  have h : (2 : ℚ) ^ k = 2 ^ (k.toNat : Int) := by rw [Int.toNat_of_nonneg hk]
  rw [h, zpow_natCast]
  push_cast
  rfl

theorem binade_neg (x : ℚ) : binade (-x) = binade x := by
  unfold binade
  simp only [Rat.neg_num, Rat.neg_den, Int.natAbs_neg, abs_neg]

theorem round_to_format_of_nonneg (precision : Nat) (emin : Int) (x : ℚ) (hx : 0 ≤ x) :
    round_to_format precision emin x =
      (round_half_even (x / 2 ^ max (binade x - ((precision : Int) - 1)) emin) : ℚ)
        * 2 ^ max (binade x - ((precision : Int) - 1)) emin := by
  unfold round_to_format
  rw [if_pos hx]

theorem round_to_format_of_neg (precision : Nat) (emin : Int) (x : ℚ) (hx : x < 0) :
    round_to_format precision emin x = -round_to_format precision emin (-x) := by
  rw [round_to_format_of_nonneg precision emin (-x) (by linarith), binade_neg]
  unfold round_to_format
  rw [if_neg (not_le.mpr hx)]

theorem round_to_format_zero (precision : Nat) (emin : Int) :
    round_to_format precision emin 0 = 0 := by
  rw [round_to_format_of_nonneg precision emin 0 (le_refl 0), zero_div]
  have h := round_half_even_intCast 0
  simp only [Int.cast_zero] at h
  rw [h]
  simp

theorem round_to_format_nonneg (precision : Nat) (emin : Int) (x : ℚ) (hx : 0 ≤ x) :
    0 ≤ round_to_format precision emin x := by
  rw [round_to_format_of_nonneg precision emin x hx]
  have h : (0 : Int) ≤ round_half_even
      (x / 2 ^ max (binade x - ((precision : Int) - 1)) emin) :=
    le_round_half_even_of_le _ 0 (by
      simp only [Int.cast_zero]
      exact div_nonneg hx (le_of_lt (two_zpow_pos _)))
  exact mul_nonneg (by exact_mod_cast h) (le_of_lt (two_zpow_pos _))

theorem round_to_format_mono_nonneg (precision : Nat) (emin : Int) (hp : 1 ≤ precision)
    (x y : ℚ) (hx : 0 ≤ x) (h : x ≤ y) :
    round_to_format precision emin x ≤ round_to_format precision emin y := by
  have hy : 0 ≤ y := le_trans hx h
  rcases eq_or_lt_of_le hx with h0 | hpos
  · rw [← h0, round_to_format_zero]
    exact round_to_format_nonneg precision emin y hy
  have hypos : 0 < y := lt_of_lt_of_le hpos h
  have hb := binade_mono x y hpos h
  rw [round_to_format_of_nonneg precision emin x hx, round_to_format_of_nonneg precision emin y hy]
  rcases eq_or_lt_of_le (max_le_max (sub_le_sub_right hb ((precision : Int) - 1))
    (le_refl emin)) with he | he
  · rw [← he]
    have hdiv : x / 2 ^ max (binade x - ((precision : Int) - 1)) emin ≤
        y / 2 ^ max (binade x - ((precision : Int) - 1)) emin :=
      div_le_div_of_nonneg_right h (le_of_lt (two_zpow_pos _))
    have hr := round_half_even_mono _ _ hdiv
    exact mul_le_mul_of_nonneg_right (by exact_mod_cast hr) (le_of_lt (two_zpow_pos _))
  · have hey : max (binade y - ((precision : Int) - 1)) emin = binade y - ((precision : Int) - 1) := by
      apply max_eq_left
      have := le_max_right (binade x - ((precision : Int) - 1)) emin
      omega
    have hex1 := le_max_left (binade x - ((precision : Int) - 1)) emin
    rw [hey] at he ⊢
    have hp1 : (1 : Int) ≤ (precision : Int) := by exact_mod_cast hp
    -- the result for `y` is at least `2 ^ binade y`
    have hylow : (2 : ℚ) ^ binade y ≤
        (round_half_even (y / 2 ^ (binade y - ((precision : Int) - 1))) : ℚ)
          * 2 ^ (binade y - ((precision : Int) - 1)) := by
      obtain ⟨N, hN⟩ := two_zpow_eq_intCast ((precision : Int) - 1) (by omega)
      have hy1 := (binade_spec y (ne_of_gt hypos)).1
      rw [abs_of_pos hypos] at hy1
      have hsplit : (2 : ℚ) ^ binade y =
          2 ^ ((precision : Int) - 1) * 2 ^ (binade y - ((precision : Int) - 1)) := by
        rw [← zpow_add₀ (by norm_num : (2 : ℚ) ≠ 0)]
        congr 1
        ring
      have hq : (N : ℚ) ≤ y / 2 ^ (binade y - ((precision : Int) - 1)) := by
        rw [hN, le_div_iff₀ (two_zpow_pos _), ← hsplit]
        exact hy1
      have hr := le_round_half_even_of_le _ N hq
      calc (2 : ℚ) ^ binade y = (N : ℚ) * 2 ^ (binade y - ((precision : Int) - 1)) := by
            rw [hN, hsplit]
        _ ≤ _ := mul_le_mul_of_nonneg_right (by exact_mod_cast hr) (le_of_lt (two_zpow_pos _))
    -- the result for `x` is at most `2 ^ binade y`
    have hxup : (round_half_even (x / 2 ^ max (binade x - ((precision : Int) - 1)) emin) : ℚ)
        * 2 ^ max (binade x - ((precision : Int) - 1)) emin ≤ 2 ^ binade y := by
      obtain ⟨N, hN⟩ := two_zpow_eq_intCast
        (binade y - max (binade x - ((precision : Int) - 1)) emin) (by omega)
      have hx1 := (binade_spec x (ne_of_gt hpos)).2
      rw [abs_of_pos hpos] at hx1
      have hle : (2 : ℚ) ^ (binade x + 1) ≤ 2 ^ binade y := two_zpow_le _ _ (by omega)
      have hsplit : (2 : ℚ) ^ binade y =
          2 ^ (binade y - max (binade x - ((precision : Int) - 1)) emin) *
            2 ^ max (binade x - ((precision : Int) - 1)) emin := by
        rw [← zpow_add₀ (by norm_num : (2 : ℚ) ≠ 0)]
        congr 1
        ring
      have hq : x / 2 ^ max (binade x - ((precision : Int) - 1)) emin ≤ (N : ℚ) := by
        rw [hN, div_le_iff₀ (two_zpow_pos _), ← hsplit]
        linarith
      have hr := round_half_even_le_of_le _ N hq
      calc _ ≤ (N : ℚ) * 2 ^ max (binade x - ((precision : Int) - 1)) emin :=
            mul_le_mul_of_nonneg_right (by exact_mod_cast hr) (le_of_lt (two_zpow_pos _))
        _ = 2 ^ binade y := by rw [hN, hsplit]
    exact le_trans hxup hylow

theorem round_to_format_mono (precision : Nat) (emin : Int) (hp : 1 ≤ precision)
    (x y : ℚ) (h : x ≤ y) :
    round_to_format precision emin x ≤ round_to_format precision emin y := by
  rcases le_or_lt 0 x with hx | hx
  · exact round_to_format_mono_nonneg precision emin hp x y hx h
  · rcases le_or_lt 0 y with hy | hy
    · rw [round_to_format_of_neg precision emin x hx]
      have h1 := round_to_format_nonneg precision emin (-x) (by linarith)
      have h2 := round_to_format_nonneg precision emin y hy
      linarith
    · rw [round_to_format_of_neg precision emin x hx, round_to_format_of_neg precision emin y hy]
      have := round_to_format_mono_nonneg precision emin hp (-y) (-x) (by linarith) (by linarith)
      linarith

theorem float32_round_mono (x y : ℚ) (h : x ≤ y) : float32_round x ≤ float32_round y :=
  round_to_format_mono 24 (-149) (by norm_num) x y h

theorem float32_round_zero : float32_round 0 = 0 := round_to_format_zero 24 (-149)

/-! ## Progress of an accepted event in single precision -/

theorem float64_round_guard_constant :
    float64_round (1 / 100000) = 5902958103587057 / 590295810358705651712 := by
  decide!

/-- C21 (amended): a candidate `(index, time_factor)` below the current best,
in an iteration after the first, where the last-event times are the `float`
values `end_time - duration` (lines 260-263).  The candidate is discarded when
the `float` difference of its `float` trigger time and the last-event time is
below `0.00001`, and recorded otherwise.  When it is recorded, that difference
is at least `0.00001` and the next remaining duration of the particle, the
`float` product `duration * (1.0f - time_factor)`, is strictly less than
`duration`.  When none of the operations rounds, the difference is
`duration * time_factor`, so `duration * time_factor ≥ 0.00001` and the next
remaining duration is at most `duration - 0.00001`. -/
theorem find_next_event_candidate_float32_progress (durations : List ℚ) (end_time : ℚ)
    (event_index : Nat) (r : List Int × List ℚ) (index : Nat)
    (time_factor duration best : ℚ)
    (hd : durations[index]? = some duration) (hb : r.2[index]? = some best)
    (hi : index < r.1.length) (hlt : time_factor < best) :
    find_next_event_candidate_float32 durations end_time
        (last_event_times_float32 end_time durations) event_index r (index, time_factor) =
      (if float32_round (float32_round (end_time -
            float32_round (duration * float32_round (1 - time_factor))) -
          float32_round (end_time - duration)) < float64_round (1 / 100000) then some r
        else some (r.1.set index (event_index : Int), r.2.set index time_factor)) ∧
    (¬ float32_round (float32_round (end_time -
          float32_round (duration * float32_round (1 - time_factor))) -
        float32_round (end_time - duration)) < float64_round (1 / 100000) →
      1 / 100000 ≤ float32_round (float32_round (end_time -
          float32_round (duration * float32_round (1 - time_factor))) -
        float32_round (end_time - duration)) ∧
      float32_round (duration * float32_round (1 - time_factor)) < duration ∧
      (float32_round (1 - time_factor) = 1 - time_factor →
        float32_round (duration * (1 - time_factor)) = duration * (1 - time_factor) →
        float32_round (end_time - duration * (1 - time_factor)) =
          end_time - duration * (1 - time_factor) →
        float32_round (end_time - duration) = end_time - duration →
        float32_round (duration * time_factor) = duration * time_factor →
        1 / 100000 ≤ duration * time_factor ∧
        float32_round (duration * float32_round (1 - time_factor)) ≤
          duration - 1 / 100000)) := by
  have hdl := (List.getElem?_eq_some.mp hd).1
  have hbl := (List.getElem?_eq_some.mp hb).1
  have hlast : (last_event_times_float32 end_time durations)[index]? =
      some (float32_round (end_time - duration)) := by
    unfold last_event_times_float32
    rw [List.getElem?_map, hd]
    rfl
  have hlen : (last_event_times_float32 end_time durations).length > 0 := by
    unfold last_event_times_float32
    rw [List.length_map]
    omega
  have hconst : (1 : ℚ) / 100000 ≤ float64_round (1 / 100000) := by
    rw [float64_round_guard_constant]
    norm_num
  constructor
  · unfold find_next_event_candidate_float32
    simp only [hb, Option.some_bind, hlt, if_true, hlen, hd, hlast, store_eq_some _ hi,
      store_eq_some _ hbl]
  · intro hpass
    have hge := not_lt.mp hpass
    have hpos : (0 : ℚ) < float32_round (float32_round (end_time -
        float32_round (duration * float32_round (1 - time_factor))) -
        float32_round (end_time - duration)) := by
      have : (0 : ℚ) < 1 / 100000 := by norm_num
      linarith
    refine ⟨le_trans hconst hge, ?_, ?_⟩
    · by_contra hnot
      have hle : duration ≤ float32_round (duration * float32_round (1 - time_factor)) :=
        not_lt.mp hnot
      have hmono := float32_round_mono
        (end_time - float32_round (duration * float32_round (1 - time_factor)))
        (end_time - duration) (by linarith)
      have hzero := float32_round_mono (float32_round (end_time -
        float32_round (duration * float32_round (1 - time_factor))) -
        float32_round (end_time - duration)) 0 (by linarith)
      rw [float32_round_zero] at hzero
      linarith
    · intro h1 h2 h3 h4 h5
      have hdiff : end_time - duration * (1 - time_factor) - (end_time - duration) =
          duration * time_factor := by ring
      rw [h1, h2, h3, h4, hdiff, h5] at hge
      rw [h1, h2]
      constructor
      · exact le_trans hconst hge
      · have := le_trans hconst hge
        linarith

/-- Witness for C21 (amended): end time `1`, remaining duration `0.5` and time
factor `0.5`; no operation rounds, the candidate is recorded and the next
remaining duration is `0.25`. -/
theorem find_next_event_candidate_float32_progress_witness :
    find_next_event_candidate_float32 [1 / 2] 1 (last_event_times_float32 1 [1 / 2]) 0
        ([-1], [1]) (0, 1 / 2) = some ([0], [1 / 2]) ∧
    float32_round ((1 / 2 : ℚ) * float32_round (1 - 1 / 2)) = 1 / 4 ∧
    float32_round ((1 / 2 : ℚ) * float32_round (1 - 1 / 2)) < 1 / 2 ∧
    (1 : ℚ) / 100000 ≤ 1 / 2 * (1 / 2) ∧
    float32_round ((1 / 2 : ℚ) * float32_round (1 - 1 / 2)) ≤ 1 / 2 - 1 / 100000 := by
  obtain ⟨hres, hrest⟩ := find_next_event_candidate_float32_progress [1 / 2] 1 0 ([-1], [1]) 0
    (1 / 2) (1 / 2) 1 (by decide!) (by decide!) (by decide) (by norm_num)
  obtain ⟨_, hlt, hexact⟩ := hrest (by decide!)
  obtain ⟨h1, h2⟩ := hexact (by decide!) (by decide!) (by decide!) (by decide!) (by decide!)
  refine ⟨?_, by decide!, hlt, h1, h2⟩
  rw [hres]
  decide!

/-- Counterexample to C21 as stated, at end time `250`.  A particle with
duration `0.12501526` has an event at time factor `0.5` in the first iteration
and is left with the remaining duration `d = 0.06250763` (all three are `float`
values); the last-event time is the `float` value `250 - d = 249.93748`.  In
the second iteration the candidate with time factor `t = 2^-22` is recorded,
because the `float` trigger time is `249.9375` and the difference is
`2^-16 ≥ 0.00001`.  Yet `d * t` is about `1.5e-8`, the difference is not
`d * t`, and the next remaining duration is `d - 2^-26`, more than
`d - 0.00001`. -/
theorem find_next_event_candidate_float32_progress_counterexample :
    float32_round 250 = 250 ∧
    float32_round (8389633 / 67108864) = 8389633 / 67108864 ∧
    float32_round (1 / 4194304) = 1 / 4194304 ∧
    find_unfinished_particles_float32 [0] [0] [1 / 2] [8389633 / 67108864] [0] ([], []) =
      some ([0], [8389633 / 134217728]) ∧
    last_event_times_float32 250 [8389633 / 134217728] = [16379903 / 65536] ∧
    find_next_event_candidate_float32 [8389633 / 134217728] 250
        (last_event_times_float32 250 [8389633 / 134217728]) 0 ([-1], [1])
        (0, 1 / 4194304) = some ([0], [1 / 4194304]) ∧
    float32_round (float32_round (250 -
        float32_round (8389633 / 134217728 * float32_round (1 - 1 / 4194304))) -
      float32_round (250 - 8389633 / 134217728)) = 1 / 65536 ∧
    ¬ ((1 : ℚ) / 65536 = 8389633 / 134217728 * (1 / 4194304)) ∧
    ¬ ((1 : ℚ) / 100000 ≤ 8389633 / 134217728 * (1 / 4194304)) ∧
    find_unfinished_particles_float32 [0] [0] [1 / 4194304] [8389633 / 134217728] [0]
      ([], []) = some ([0], [8389631 / 134217728]) ∧
    ¬ ((8389631 : ℚ) / 134217728 ≤ 8389633 / 134217728 - 1 / 100000) := by
  refine ⟨by decide!, by decide!, by decide!, by decide!, by decide!, by decide!, by decide!,
    by norm_num, by norm_num, by decide!, by norm_num⟩

end BParticles
